import Mathlib

/-!
# Polynomial representations of the DSA practices

A shallow embedding of the dense, array-backed sparse and linked sparse
polynomials (`Practices/3rdPractice`, `Practices/4thPractice`) together with
the containers they are built on, the matrix of `Practices/2ndPractice` and the
two `rational_t` implementations.

Conventions of the embedding:

* a `double` is an exact rational (`ℚ`), so every statement below is a
  statement in exact arithmetic;
* an `int` is an `Int`; loop counters that start at `0` and only grow are
  `Nat` and are cast when they are stored or used as an index;
* a failed `assert` is the result `none`;
* the node chain reachable from a head pointer is a `List`, head first.
-/

namespace DSA

/-! ## `pair_t.h` -/

/-- The class `pair_t<double>`: a value and its index. -/
structure pair_t where
  val_ : ℚ
  inx_ : Int
deriving DecidableEq, Repr

namespace pair_t

/-- The default constructor `pair_t() : val_(), inx_(-1)`. -/
def default : pair_t := ⟨0, -1⟩

/-- The getter `get_val`. -/
def get_val (p : pair_t) : ℚ := p.val_

/-- The getter `get_inx`. -/
def get_inx (p : pair_t) : Int := p.inx_

/-- The setter `set(val, inx)`: overwrites both fields. -/
def set (_p : pair_t) (val : ℚ) (inx : Int) : pair_t := ⟨val, inx⟩

end pair_t

/-! ## `vector_t` -/

/-- The class `vector_t<T>`: the array `v_`; `sz_` is its length. -/
structure vector_t (T : Type) where
  v_ : List T
deriving DecidableEq, Repr

namespace vector_t

variable {T : Type}

/-- The getter `get_size`. -/
def get_size (v : vector_t T) : Int := v.v_.length

/-- The accessor `at(i)` (and `operator[]`, which calls it):
`assert(i >= 0 && i < get_size())`, then `v_[i]`. -/
def at_ (v : vector_t T) (i : Int) : Option T :=
  if 0 ≤ i ∧ i < v.get_size then v.v_[i.toNat]? else none

/-- Assignment through the reference returned by `at(i)`. -/
def set_at (v : vector_t T) (i : Int) (x : T) : Option (vector_t T) :=
  if 0 ≤ i ∧ i < v.get_size then some ⟨v.v_.set i.toNat x⟩ else none

/-- The method `resize(n)`: the old contents are destroyed and `n` fresh
default-constructed elements `d` are allocated. -/
def resize (d : T) (n : Int) : vector_t T := ⟨List.replicate n.toNat d⟩

end vector_t

/-! ## `sparse_vector_t.h` -/

/-- The helper `IsNotZero(val, eps)`: `fabs(val) > eps`. -/
def IsNotZero (val eps : ℚ) : Bool := decide (|val| > eps)

/-- The constant `EPS`, `1.0e-6`. -/
def EPS : ℚ := 1 / 1000000

/-- The class `sparse_vector_t`. -/
structure sparse_vector_t where
  pv_ : vector_t pair_t
  nz_ : Int
  n_ : Int
deriving DecidableEq, Repr

namespace sparse_vector_t

/-- The getter `get_nz`. -/
def get_nz (s : sparse_vector_t) : Int := s.nz_

/-- The getter `get_n`. -/
def get_n (s : sparse_vector_t) : Int := s.n_

/-- The accessor `at(i)`: `assert(i >= 0 && i < get_nz())`, then `pv_[i]`. -/
def at_ (s : sparse_vector_t) (i : Int) : Option pair_t :=
  if 0 ≤ i ∧ i < s.get_nz then s.pv_.at_ i else none

/-- First loop of the constructor: `nz_` after scanning positions `0..n-1`. -/
def countPass (v : vector_t ℚ) (eps : ℚ) (n : Nat) : Option Int :=
  (List.range n).foldlM
    (fun (nz : Int) (i : Nat) => do
      let x ← v.at_ i
      pure (if IsNotZero x eps then nz + 1 else nz))
    0

/-- Second loop of the constructor: the pair array and the cursor `j` after
scanning positions `0..n-1`, starting from the resized array and `j = 0`. -/
def fillPass (v : vector_t ℚ) (eps : ℚ) (n : Nat) (pv : vector_t pair_t) :
    Option (vector_t pair_t × Int) :=
  (List.range n).foldlM
    (fun (st : vector_t pair_t × Int) (i : Nat) => do
      let x ← v.at_ i
      if IsNotZero x eps then
        let p ← st.1.at_ st.2
        let pv' ← st.1.set_at st.2 (p.set x i)
        pure (pv', st.2 + 1)
      else
        pure st)
    (pv, 0)

/-- The constructor `sparse_vector_t(const vector_t<double>& v, const double eps)`. -/
def ofVector (v : vector_t ℚ) (eps : ℚ) : Option sparse_vector_t := do
  let n := v.get_size
  let nz ← countPass v eps n.toNat
  let pv := vector_t.resize pair_t.default nz
  let st ← fillPass v eps n.toNat pv
  pure ⟨st.1, nz, n⟩

end sparse_vector_t

/-! ## `polynomial.h` -/

/-- The library call `pow(x, i)` for an `int` exponent, in exact arithmetic
(`pow(x, 0)` is `1` for every `x`, zero included). -/
def pow (x : ℚ) (i : Int) : ℚ := x ^ i

namespace Polynomial

/-- The method `Polynomial::Eval`: `result += at(i) * pow(x, i)` for
`i = 0..get_size()-1`. -/
def Eval (p : vector_t ℚ) (x : ℚ) : Option ℚ :=
  (List.range p.get_size.toNat).foldlM
    (fun (result : ℚ) (i : Nat) => do
      let c ← p.at_ i
      pure (result + c * pow x i))
    0

end Polynomial

namespace SparsePolynomial

/-- The constructor `SparsePolynomial(const Polynomial& pol)`, which calls
`sparse_vector_t(pol)` with the default tolerance `EPS`. -/
def ofPolynomial (pol : vector_t ℚ) : Option sparse_vector_t :=
  sparse_vector_t.ofVector pol EPS

/-- The method `SparsePolynomial::Eval`: `result += coef * pow(x, index)` over
the positions `0..get_nz()-1`. -/
def Eval (s : sparse_vector_t) (x : ℚ) : Option ℚ :=
  (List.range s.get_nz.toNat).foldlM
    (fun (result : ℚ) (i : Nat) => do
      let p ← s.at_ i
      let index := p.get_inx
      let coef := p.get_val
      pure (result + coef * pow x index))
    0

end SparsePolynomial

/-! ## `sll_t.h` -/

/-- The class `sll_t<T>`: the chain of nodes reachable from `head_`. -/
structure sll_t (T : Type) where
  head_ : List T
deriving DecidableEq, Repr

namespace sll_t

variable {T : Type}

/-- The constructor `sll_t() : head_(NULL)`. -/
def empty_list : sll_t T := ⟨[]⟩

/-- The method `push_front(n)`: `n->set_next(head_); head_ = n`. -/
def push_front (l : sll_t T) (n : T) : sll_t T := ⟨n :: l.head_⟩

end sll_t

/-! ## `sllpolynomial.h` -/

namespace SllPolynomial

/-- The loop of the constructor, `for (int i{size - 1}; i >= 0; --i)`, with
`k = i + 1` iterations left to run. -/
def ctorLoop (v : vector_t ℚ) (eps : ℚ) : Nat → sll_t pair_t → Option (sll_t pair_t)
  | 0, l => some l
  | k + 1, l => do
      let x ← v.at_ k
      if IsNotZero x eps then
        ctorLoop v eps k (l.push_front ⟨x, k⟩)
      else
        ctorLoop v eps k l

/-- The constructor `SllPolynomial(const vector_t<double>& v, const double eps)`. -/
def ofVector (v : vector_t ℚ) (eps : ℚ) : Option (sll_t pair_t) :=
  ctorLoop v eps v.get_size.toNat sll_t.empty_list

/-- The method `SllPolynomial::Eval`: `result += val * pow(x, inx)` along the chain. -/
def Eval (p : sll_t pair_t) (x : ℚ) : ℚ :=
  p.head_.foldl (fun result aux => result + aux.get_val * pow x aux.get_inx) 0

/-- The first loop of `Sum`, `while (aux1 != nullptr && aux2 != nullptr)`:
returns the two cursors and the destination when it exits. -/
def sumMerge (eps : ℚ) :
    List pair_t → List pair_t → sll_t pair_t → List pair_t × List pair_t × sll_t pair_t
  | a :: as, b :: bs, d =>
      let inx1 := a.get_inx
      let inx2 := b.get_inx
      let val1 := a.get_val
      let val2 := b.get_val
      if inx1 = inx2 then
        let sumVal := val1 + val2
        if |sumVal| > eps then
          sumMerge eps as bs (d.push_front ⟨sumVal, inx1⟩)
        else
          sumMerge eps as bs d
      else if inx1 > inx2 then
        sumMerge eps (a :: as) bs (d.push_front ⟨val2, inx2⟩)
      else
        sumMerge eps as (b :: bs) (d.push_front ⟨val1, inx1⟩)
  | [], bs, d => ([], bs, d)
  | as, [], d => (as, [], d)
termination_by as bs _ => as.length + bs.length

/-- The two closing loops of `Sum`, `while (aux != nullptr)`: every remaining
node of the cursor is copied to the front of the destination. -/
def sumRest : List pair_t → sll_t pair_t → sll_t pair_t
  | [], d => d
  | a :: as, d => sumRest as (d.push_front ⟨a.get_val, a.get_inx⟩)

/-- The method `A.Sum(B, D, eps)`: the destination `D` after the call. -/
def Sum (A B D : sll_t pair_t) (eps : ℚ) : sll_t pair_t :=
  let st := sumMerge eps A.head_ B.head_ D
  sumRest st.2.1 (sumRest st.1 st.2.2)

end SllPolynomial

/-! ## `sparse_vector_t.h`, `polynomial.h`, `sllpolynomial.h`: equality and average -/

namespace sparse_vector_t

/-- The constructor `sparse_vector_t(const int n) : pv_(n), nz_(0), n_(n)`. -/
def ofSize (n : Int) : sparse_vector_t := ⟨vector_t.resize pair_t.default n, 0, n⟩

end sparse_vector_t

namespace Polynomial

/-- The loop of `Polynomial::IsEqual` over the remaining positions: each operand
is read with `at(i)` inside its size and as `0.0` beyond it; the first position
with `fabs(a - b) > eps` returns `false`, the end of the loop returns `true`. -/
def isEqualLoop (p pol : vector_t ℚ) (eps : ℚ) : List Nat → Option Bool
  | [] => some true
  | i :: rest =>
      (if (i : Int) < p.get_size then p.at_ i else some 0).bind fun a =>
      (if (i : Int) < pol.get_size then pol.at_ i else some 0).bind fun b =>
      if |a - b| > eps then
        some false
      else
        isEqualLoop p pol eps rest

/-- The method `Polynomial::IsEqual(pol, eps)`. -/
def IsEqual (p pol : vector_t ℚ) (eps : ℚ) : Option Bool :=
  let n := if p.get_size > pol.get_size then p.get_size else pol.get_size
  isEqualLoop p pol eps (List.range n.toNat)

end Polynomial

namespace SparsePolynomial

/-- The loop of `SparsePolynomial::IsEqual(const SparsePolynomial&, eps)` over
the remaining positions: both operands are read with `at(i)`; a different index
or `fabs` of the value difference above `eps` returns `false`. -/
def isEqualLoop (s spol : sparse_vector_t) (eps : ℚ) : List Nat → Option Bool
  | [] => some true
  | i :: rest => do
      let p ← s.at_ i
      let q ← spol.at_ i
      if p.get_inx ≠ q.get_inx ∨ |p.get_val - q.get_val| > eps then
        pure false
      else
        isEqualLoop s spol eps rest

/-- The method `SparsePolynomial::IsEqual(const SparsePolynomial& spol, eps)`:
the loop runs over `i = 0..get_nz()-1` of the receiver. -/
def IsEqual (s spol : sparse_vector_t) (eps : ℚ) : Option Bool :=
  isEqualLoop s spol eps (List.range s.get_nz.toNat)

/-- The loop of `SparsePolynomial::IsEqual(const Polynomial&, eps)` over the
remaining positions, with the cursor `j` into the stored terms. -/
def isEqualDenseLoop (s : sparse_vector_t) (pol : vector_t ℚ) (eps : ℚ) :
    List Nat → Int → Option Bool
  | [], _ => some true
  | i :: rest, j =>
      (if j < s.get_nz then (s.at_ j).map (fun p => decide (p.get_inx = (i : Int)))
        else some false).bind fun hit =>
      (if hit then (s.at_ j).map pair_t.get_val else some 0).bind fun a =>
      (if (i : Int) < pol.get_size then pol.at_ i else some 0).bind fun b =>
      if |a - b| > eps then
        some false
      else
        isEqualDenseLoop s pol eps rest (if hit then j + 1 else j)

/-- The method `SparsePolynomial::IsEqual(const Polynomial& pol, eps)`. -/
def IsEqualDense (s : sparse_vector_t) (pol : vector_t ℚ) (eps : ℚ) : Option Bool :=
  let n := if s.get_n > pol.get_size then s.get_n else pol.get_size
  isEqualDenseLoop s pol eps (List.range n.toNat) 0

/-- The method `SparsePolynomial::AverageOfOddDegreeCoefficients`: the loop
accumulates `result` and `counter` over the terms with `get_inx() % 2 != 0`;
the division is guarded by `counter != 0.0`. -/
def AverageOfOddDegreeCoefficients (s : sparse_vector_t) : Option ℚ := do
  let st ← (List.range s.get_nz.toNat).foldlM
    (fun (st : ℚ × ℚ) (i : Nat) => do
      let p ← s.at_ i
      if p.get_inx.tmod 2 ≠ 0 then
        let coef := p.get_val
        pure (st.1 + coef, st.2 + 1)
      else
        pure st)
    (0, 0)
  pure (if st.2 ≠ 0 then st.1 / st.2 else 0)

end SparsePolynomial

namespace SllPolynomial

/-- The loop of `SllPolynomial::IsEqual`, `while (aux1 != NULL && aux2 != NULL)`,
followed by the closing `return !differents`, where `differents` is `false`. -/
def isEqualLoop (eps : ℚ) : List pair_t → List pair_t → Bool
  | a :: as, b :: bs =>
      let differents := false
      if a.get_inx ≠ b.get_inx then
        differents
      else if |a.get_val - b.get_val| > eps then
        differents
      else
        isEqualLoop eps as bs
  | [], _ => !false
  | _ :: _, [] => !false

/-- The method `SllPolynomial::IsEqual(sllpol, eps)`. -/
def IsEqual (p sllpol : sll_t pair_t) (eps : ℚ) : Bool :=
  isEqualLoop eps p.head_ sllpol.head_

end SllPolynomial

/-! ## `vector_t.hpp`: value access; `matrix_t.hpp` -/

namespace vector_t

variable {T : Type}

/-- The getter `get_val(i)`: `assert(i >= 0 && i < get_size())`, then `v_[i]`. -/
def get_val (v : vector_t T) (i : Int) : Option T :=
  if 0 ≤ i ∧ i < v.get_size then v.v_[i.toNat]? else none

/-- The setter `set_val(i, d)`: `assert(i >= 0 && i < get_size())`, then
`v_[i] = d`. -/
def set_val (v : vector_t T) (i : Int) (d : T) : Option (vector_t T) :=
  if 0 ≤ i ∧ i < v.get_size then some ⟨v.v_.set i.toNat d⟩ else none

end vector_t

/-- The class `matrix_t<T>`: `m_` rows, `n_` columns and the linear vector `v_`
of the elements in row-major order. An `int` is an unbounded integer here. -/
structure matrix_t (T : Type) where
  m_ : Int
  n_ : Int
  v_ : vector_t T
deriving DecidableEq, Repr

namespace matrix_t

variable {T : Type}

/-- The constructor `matrix_t(m, n)`: `m_ = m; n_ = n; v_.resize(m_ * n_)`, with
`d` the default-constructed element. -/
def ofSize (d : T) (m n : Int) : matrix_t T := ⟨m, n, vector_t.resize d (m * n)⟩

/-- The method `resize(m, n)`: `assert(m > 0 && n > 0)`, then as the
constructor. -/
def resize (d : T) (m n : Int) : Option (matrix_t T) :=
  if m > 0 ∧ n > 0 then some ⟨m, n, vector_t.resize d (m * n)⟩ else none

/-- The getter `get_m`. -/
def get_m (M : matrix_t T) : Int := M.m_

/-- The getter `get_n`. -/
def get_n (M : matrix_t T) : Int := M.n_

/-- The private method `pos(i, j)`: both range assertions, then
`(i - 1) * get_n() + (j - 1)`. -/
def pos (M : matrix_t T) (i j : Int) : Option Int :=
  if i > 0 ∧ i ≤ M.get_m then
    if j > 0 ∧ j ≤ M.get_n then
      some ((i - 1) * M.get_n + (j - 1))
    else none
  else none

/-- The accessor `at(i, j)` (and `operator()`, which calls it): both range
assertions, then `v_[pos(i, j)]`. -/
def at_ (M : matrix_t T) (i j : Int) : Option T :=
  if i > 0 ∧ i ≤ M.get_m then
    if j > 0 ∧ j ≤ M.get_n then
      (M.pos i j).bind fun k => M.v_.at_ k
    else none
  else none

end matrix_t

/-! ## `rational_t` -/

/-- The class `rational_t` of both practices: numerator and denominator. An
`int` is an unbounded integer here. -/
structure rational_t where
  num_ : Int
  den_ : Int
deriving DecidableEq, Repr

namespace rational_t

/-- The getter `get_num`. -/
def get_num (r : rational_t) : Int := r.num_

/-- The getter `get_den`. -/
def get_den (r : rational_t) : Int := r.den_

end rational_t

/-! ### `1stPractice/rational_t.cpp` -/

namespace rational_t1

/-- The constructor `rational_t(n, d)`: `assert(d != 0)`, then
`num_ = n, den_ = d`. -/
def new (n d : Int) : Option rational_t :=
  if d ≠ 0 then some ⟨n, d⟩ else none

/-- The setter `set_den(d)`: `assert(d != 0)`, then `den_ = d`. -/
def set_den (r : rational_t) (d : Int) : Option rational_t :=
  if d ≠ 0 then some ⟨r.num_, d⟩ else none

/-- The method `divide(r)`: `assert(r.get_num() != 0)`, then
`rational_t(get_num() * r.get_den(), get_den() * r.get_num())`. -/
def divide (a r : rational_t) : Option rational_t :=
  if r.get_num ≠ 0 then
    let new_num := a.get_num * r.get_den
    let new_den := a.get_den * r.get_num
    new new_num new_den
  else none

end rational_t1

/-! ### `Practices/2ndPractice/rational_t.cpp` -/

namespace rational_t2

/-- The constructor `rational_t(n, d)`: `assert(d != 0)`, then `num_ = n;
den_ = d`. -/
def new (n d : Int) : Option rational_t :=
  if d ≠ 0 then some ⟨n, d⟩ else none

/-- The setter `set_den(d)`: `assert(d != 0)`, then `den_ = d`. -/
def set_den (r : rational_t) (d : Int) : Option rational_t :=
  if d ≠ 0 then some ⟨r.num_, d⟩ else none

/-- The method `reciprocal()`: `rational_t(get_den(), get_num())`. -/
def reciprocal (r : rational_t) : Option rational_t :=
  new r.get_den r.get_num

/-- The method `multiply(r)`:
`rational_t(get_num() * r.get_num(), get_den() * r.get_den())`. -/
def multiply (a r : rational_t) : Option rational_t :=
  new (a.get_num * r.get_num) (a.get_den * r.get_den)

/-- The method `divide(r)`: `multiply(r.reciprocal())`. -/
def divide (a r : rational_t) : Option rational_t :=
  (reciprocal r).bind fun q => multiply a q

end rational_t2

/-! ## `polynomial.h`, `sllpolynomial.h`: output and `WeirdSum` -/

namespace Polynomial

/-- The loop of `Polynomial::Write` over `i = 0..n-1`: the text written so far
and the flag `first`, starting from the text `os` and `first = true`. The
coefficient is rendered by `fmt`. -/
def writeLoop (p : vector_t ℚ) (eps : ℚ) (fmt : ℚ → String) (n : Nat) (os : String) :
    Option (String × Bool) :=
  (List.range n).foldlM
    (fun (st : String × Bool) (i : Nat) =>
      (p.at_ i).bind fun x =>
        if IsNotZero x eps then
          some (st.1 ++ (if !st.2 then " + " else "") ++ fmt x ++
              (if (i : Int) > 1 then " x^" else if (i : Int) = 1 then " x" else "") ++
              (if (i : Int) > 1 then toString (i : Int) else ""),
            false)
        else
          some st)
    (os, true)

/-- The method `Polynomial::Write(os, eps)`: the text it writes. -/
def Write (p : vector_t ℚ) (eps : ℚ) (fmt : ℚ → String) : Option String :=
  (writeLoop p eps fmt p.get_size.toNat (toString p.get_size ++ ": [ ")).map
    fun st => st.1 ++ " ]" ++ "\n"

end Polynomial

namespace SparsePolynomial

/-- The loop of `SparsePolynomial::Write` over the positions `0..get_nz()-1`. -/
def writeLoop (s : sparse_vector_t) (fmt : ℚ → String) (n : Nat) (os : String) :
    Option (String × Bool) :=
  (List.range n).foldlM
    (fun (st : String × Bool) (i : Nat) =>
      (s.at_ i).bind fun p =>
        let inx := p.get_inx
        some (st.1 ++ (if !st.2 then " + " else "") ++ fmt p.get_val ++
            (if inx > 1 then " x^" else if inx = 1 then " x" else "") ++
            (if inx > 1 then toString inx else ""),
          false))
    (os, true)

/-- The method `SparsePolynomial::Write(os)`: the text it writes. -/
def Write (s : sparse_vector_t) (fmt : ℚ → String) : Option String :=
  (writeLoop s fmt s.get_nz.toNat
      (toString s.get_n ++ "(" ++ toString s.get_nz ++ "): [ ")).map
    fun st => st.1 ++ " ]" ++ "\n"

end SparsePolynomial

namespace SllPolynomial

/-- The loop of `SllPolynomial::Write` along the chain: the text written so far
and the flag `first`. -/
def writeLoop (fmt : ℚ → String) : List pair_t → String × Bool → String × Bool
  | [], st => st
  | aux :: next, st =>
      let inx := aux.get_inx
      let val := aux.get_val
      let os1 :=
        if val > 0 then
          st.1 ++ (if !st.2 then " + " else "") ++ fmt val
        else
          st.1 ++ (if !st.2 then " - " else "-") ++ fmt |val|
      let os2 := os1 ++ (if inx > 1 then " x^" else if inx = 1 then " x" else "")
      let os3 := if inx > 1 then os2 ++ toString inx else os2
      writeLoop fmt next (os3, false)

/-- The method `SllPolynomial::Write(os)`: the text it writes. -/
def Write (p : sll_t pair_t) (fmt : ℚ → String) : String :=
  (writeLoop fmt p.head_ ("[ ", true)).1 ++ " ]" ++ "\n"

/-- The loop of `SllPolynomial::WeirdSum(c, i)` along the chain, with the
accumulator `result`; the `break` returns the accumulator. -/
def weirdLoop (c : ℚ) (i : Int) : List pair_t → ℚ → ℚ
  | [], result => result
  | aux :: next, result =>
      let inx := aux.get_inx
      let val := aux.get_val
      if inx ≤ i ∧ val > c then
        weirdLoop c i next (result + val)
      else if inx > i then
        result
      else
        weirdLoop c i next result

/-- The method `SllPolynomial::WeirdSum(c, i)`. -/
def WeirdSum (p : sll_t pair_t) (c : ℚ) (i : Int) : ℚ :=
  weirdLoop c i p.head_ 0

end SllPolynomial

/-! ## `rational_t`: value, comparisons, arithmetic; `matrix_t::multiply` -/

namespace rational_t

/-- The method `value()` of both practices: `double(get_num()) / get_den()`, in
exact arithmetic. -/
def value (r : rational_t) : ℚ := (r.get_num : ℚ) / (r.get_den : ℚ)

end rational_t

namespace rational_t1

/-- The method `is_greater(r, precision)` of the first practice:
`value() - r.value() < precision`. -/
def is_greater (a r : rational_t) (precision : ℚ) : Bool :=
  decide (a.value - r.value < precision)

/-- The method `is_less(r, precision)` of the first practice:
`r.value() - value() < precision`. -/
def is_less (a r : rational_t) (precision : ℚ) : Bool :=
  decide (r.value - a.value < precision)

/-- The method `add(r)` of the first practice. -/
def add (a r : rational_t) : Option rational_t :=
  let new_num := a.get_num * r.get_den + r.get_num * a.get_den
  let new_den := a.get_den * r.get_den
  new new_num new_den

/-- The method `substract(r)` of the first practice. -/
def substract (a r : rational_t) : Option rational_t :=
  let new_num := a.get_num * r.get_den - r.get_num * a.get_den
  let new_den := a.get_den * r.get_den
  new new_num new_den

/-- The method `multiply(r)` of the first practice. -/
def multiply (a r : rational_t) : Option rational_t :=
  let new_num := a.get_num * r.get_num
  let new_den := a.get_den * r.get_den
  new new_num new_den

/-- The method `squareOpt1(r)`: the argument is not used,
`rational_t(get_num() * get_num(), get_den() * get_den())`. -/
def squareOpt1 (a _r : rational_t) : Option rational_t :=
  let new_num := a.get_num * a.get_num
  let new_den := a.get_den * a.get_den
  new new_num new_den

/-- The method `squareOpt2(r)`: `return multiply(r)`. -/
def squareOpt2 (a r : rational_t) : Option rational_t :=
  multiply a r

end rational_t1

namespace rational_t2

/-- The method `opposite()`: `rational_t((-1) * get_num(), get_den())`. -/
def opposite (r : rational_t) : Option rational_t :=
  new ((-1) * r.get_num) r.get_den

/-- The method `is_greater(r, precision)` of the second practice:
`(value() - r.value()) > precision`. -/
def is_greater (a r : rational_t) (precision : ℚ) : Bool :=
  decide (a.value - r.value > precision)

/-- The method `is_less(r, precision)` of the second practice:
`r.is_greater(*this, precision)`. -/
def is_less (a r : rational_t) (precision : ℚ) : Bool :=
  is_greater r a precision

/-- The method `add(r)` of the second practice:
`rational_t(get_num() * r.get_den() + get_den() * r.get_num(),
get_den() * r.get_den())`. -/
def add (a r : rational_t) : Option rational_t :=
  new (a.get_num * r.get_den + a.get_den * r.get_num) (a.get_den * r.get_den)

/-- The method `substract(r)` of the second practice: `add(r.opposite())`. -/
def substract (a r : rational_t) : Option rational_t :=
  (opposite r).bind fun q => add a q

end rational_t2

namespace matrix_t

variable {T : Type}

/-- Assignment through the reference returned by `at(i, j)`. -/
def set_at (M : matrix_t T) (i j : Int) (x : T) : Option (matrix_t T) :=
  if i > 0 ∧ i ≤ M.get_m then
    if j > 0 ∧ j ≤ M.get_n then
      (M.pos i j).bind fun k => (M.v_.set_at k x).map fun v => ⟨M.m_, M.n_, v⟩
    else none
  else none

/-- The innermost part of `multiply`: `T sum = A(i, 1) * B(1, j)` and then
`sum = sum + (A(i, k) * B(k, j))` for `k = 2..n`. -/
def multiplySum (A B : matrix_t ℚ) (n : Int) (i j : Int) : Option ℚ :=
  ((A.at_ i 1).bind fun a => (B.at_ 1 j).map fun b => a * b).bind fun sum0 =>
    (List.range' 2 (n.toNat - 1)).foldlM
      (fun (sum : ℚ) (k : Nat) =>
        (A.at_ i k).bind fun a => (B.at_ k j).map fun b => sum + a * b)
      sum0

/-- The loop over `j = 1..p` of `multiply` for the row `i`:
`at(i, j) = sum`. -/
def multiplyRow (A B : matrix_t ℚ) (n p : Int) (i : Int) (C : matrix_t ℚ) :
    Option (matrix_t ℚ) :=
  (List.range' 1 p.toNat).foldlM
    (fun (C : matrix_t ℚ) (j : Nat) =>
      (multiplySum A B n i j).bind fun sum => C.set_at i j sum)
    C

/-- The method `C.multiply(A, B)`: `assert(A.get_n() == B.get_m())`,
`resize(m, p)`, then the loop over `i = 1..m`. The receiver's previous content
is discarded by `resize`; `fill` is the content of the fresh storage. -/
def multiply (fill : ℚ) (A B : matrix_t ℚ) : Option (matrix_t ℚ) :=
  if A.get_n = B.get_m then
    let m := A.get_m
    let n := A.get_n
    let p := B.get_n
    (resize fill m p).bind fun C =>
      (List.range' 1 m.toNat).foldlM
        (fun (C : matrix_t ℚ) (i : Nat) => multiplyRow A B n p i C)
        C
  else none

end matrix_t

/-! ## Vocabulary of the specification -/

/-- The coefficient `v[i]` of a dense vector, read as `0` beyond its length. -/
def coeffAt (v : List ℚ) (i : Nat) : ℚ := v.getD i 0

/-- The term sequence `[(v[i], i) for i = 0..k-1 with |v[i]| > eps]`, in
ascending `i`. -/
def termsBelow (v : List ℚ) (eps : ℚ) (k : Nat) : List pair_t :=
  ((List.range k).filter (fun i => decide (|coeffAt v i| > eps))).map
    (fun i => ⟨coeffAt v i, (i : Int)⟩)

/-- The term sequence `[(v[i], i) for i = 0..size-1 with |v[i]| > eps]`. -/
def sparseTerms (v : List ℚ) (eps : ℚ) : List pair_t := termsBelow v eps v.length

/-- The terms `Sum` pushes onto its destination, in the order in which it
pushes them: the three loops of `Sum` with the destination left out. -/
def sumEmitted (eps : ℚ) : List pair_t → List pair_t → List pair_t
  | a :: as, b :: bs =>
      if a.inx_ = b.inx_ then
        if eps < |a.val_ + b.val_| then
          ⟨a.val_ + b.val_, a.inx_⟩ :: sumEmitted eps as bs
        else
          sumEmitted eps as bs
      else if a.inx_ > b.inx_ then
        b :: sumEmitted eps (a :: as) bs
      else
        a :: sumEmitted eps as (b :: bs)
  | [], bs => bs
  | as, [] => as
termination_by as bs => as.length + bs.length

/-- The indices of a term sequence are strictly ascending in traversal order. -/
def ascending (l : List pair_t) : Prop := l.Pairwise (fun p q => p.inx_ < q.inx_)

instance (l : List pair_t) : Decidable (ascending l) := by
  unfold ascending; infer_instance

/-- The indices of a term sequence are strictly descending in traversal order. -/
def descending (l : List pair_t) : Prop := l.Pairwise (fun p q => p.inx_ > q.inx_)

instance (l : List pair_t) : Decidable (descending l) := by
  unfold descending; infer_instance

/-- The coefficient-wise negation of a term sequence. -/
def negated (l : List pair_t) : List pair_t := l.map (fun p => ⟨-p.val_, p.inx_⟩)

/-- The sparse invariant of a term sequence derived from a dense vector of size
`n` with tolerance `eps`: strictly ascending indices, no index twice, every index
in `[0, n)` and every coefficient above the tolerance in absolute value. -/
def sparseInvariant (l : List pair_t) (eps : ℚ) (n : Int) : Prop :=
  ascending l ∧ (l.map pair_t.get_inx).Nodup ∧
    ∀ p ∈ l, 0 ≤ p.inx_ ∧ p.inx_ < n ∧ eps < |p.val_|

instance (l : List pair_t) (eps : ℚ) (n : Int) : Decidable (sparseInvariant l eps n) := by
  unfold sparseInvariant; infer_instance

/-- The terms the specification expects `A.Sum(B, result, eps)` to emit: `t` is
a term of `A` whose index does not occur in `B`, or a term of `B` whose index
does not occur in `A`, or the sum term of an index present in both whose
coefficient sum exceeds the tolerance. -/
def mergeSpec (eps : ℚ) (A B : List pair_t) (t : pair_t) : Prop :=
  (t ∈ A ∧ ∀ q ∈ B, q.inx_ ≠ t.inx_) ∨
  (t ∈ B ∧ ∀ p ∈ A, p.inx_ ≠ t.inx_) ∨
  (∃ p ∈ A, ∃ q ∈ B, p.inx_ = q.inx_ ∧ eps < |p.val_ + q.val_| ∧
    t = ⟨p.val_ + q.val_, p.inx_⟩)

instance (eps : ℚ) (A B : List pair_t) (t : pair_t) : Decidable (mergeSpec eps A B t) := by
  unfold mergeSpec; infer_instance

/-- The value `Σ coefficient * x^index` of a term sequence. -/
def termSum (l : List pair_t) (x : ℚ) : ℚ := (l.map (fun p => p.val_ * x ^ p.inx_)).sum

/-- The storage invariant every constructor of `sparse_vector_t` establishes:
the term count `nz_` does not exceed the size of the pair array. -/
def storageInvariant (s : sparse_vector_t) : Prop := s.nz_ ≤ s.pv_.get_size

instance (s : sparse_vector_t) : Decidable (storageInvariant s) := by
  unfold storageInvariant; infer_instance

/-- The stored terms of a sparse vector: positions `0..nz_-1` of the pair array. -/
def storedTerms (s : sparse_vector_t) : List pair_t := s.pv_.v_.take s.nz_.toNat

/-- The coefficient a term sequence stores at index `i`, `0` if it stores none. -/
def storedCoeff (l : List pair_t) (i : Int) : ℚ :=
  match l.find? (fun p => decide (p.inx_ = i)) with
  | some p => p.val_
  | none => 0

/-- The list view of the loop of the sparse `IsEqual`: the receiver's terms are
compared position by position with the argument's; `none` is the failed
assertion of `at(i)` when the argument runs out of terms first. -/
def positionalCompare (eps : ℚ) : List pair_t → List pair_t → Option Bool
  | [], _ => some true
  | _ :: _, [] => none
  | a :: as, b :: bs =>
      if a.inx_ ≠ b.inx_ ∨ |a.val_ - b.val_| > eps then
        some false
      else
        positionalCompare eps as bs

/-- The list view of the loop of the sparse-against-dense `IsEqual`: the first
argument holds the stored terms the cursor `j` has not consumed yet, the second
the positions still to visit. -/
def alignedCompare (eps : ℚ) (pol : List ℚ) : List pair_t → List Nat → Bool
  | _, [] => true
  | [], i :: rest =>
      if |0 - coeffAt pol i| > eps then false else alignedCompare eps pol [] rest
  | p :: ps, i :: rest =>
      if p.inx_ = (i : Int) then
        if |p.val_ - coeffAt pol i| > eps then false else alignedCompare eps pol ps rest
      else
        if |0 - coeffAt pol i| > eps then false else alignedCompare eps pol (p :: ps) rest

/-- Two terms agree within the tolerance: same index and values at most `eps`
apart. -/
def termsAgree (eps : ℚ) (a b : pair_t) : Prop := a.inx_ = b.inx_ ∧ |a.val_ - b.val_| ≤ eps

instance (eps : ℚ) (a b : pair_t) : Decidable (termsAgree eps a b) := by
  unfold termsAgree; infer_instance

/-- The stored terms of a sparse vector whose index is odd. -/
def oddTerms (s : sparse_vector_t) : List pair_t :=
  (storedTerms s).filter (fun p => decide (p.inx_ % 2 = 1))

/-- The storage invariant of `matrix_t` that its constructor and `resize`
establish for non-negative dimensions: the linear vector holds `m_ * n_`
elements. -/
def matrixInvariant {T : Type} (M : matrix_t T) : Prop := M.v_.get_size = M.m_ * M.n_

instance {T : Type} (M : matrix_t T) : Decidable (matrixInvariant M) := by
  unfold matrixInvariant; infer_instance

/-- The indices of a term sequence never decrease in traversal order. -/
def nondecreasing (l : List pair_t) : Prop := l.Pairwise (fun p q => p.inx_ ≤ q.inx_)

instance (l : List pair_t) : Decidable (nondecreasing l) := by
  unfold nondecreasing; infer_instance

/-- The sum of the coefficients of the terms with index at most `m` and
coefficient above `c`. -/
def selectedSum (l : List pair_t) (c : ℚ) (m : Int) : ℚ :=
  ((l.filter (fun p => decide (p.inx_ ≤ m ∧ p.val_ > c))).map pair_t.get_val).sum

/-- The rendering of one term: the coefficient alone for index `0`, the
coefficient then `" x"` for index `1`, the coefficient then `" x^<i>"`
otherwise. -/
def renderTerm (fmt : ℚ → String) (t : pair_t) : String :=
  fmt t.val_ ++
    (if t.inx_ = 0 then "" else if t.inx_ = 1 then " x" else " x^" ++ toString t.inx_)

/-- The term list of the stream formats: the renderings joined by `" + "`. -/
def termList (fmt : ℚ → String) (l : List pair_t) : String :=
  " + ".intercalate (l.map (renderTerm fmt))

/-- The rendering of one term by the linked `Write`: a positive coefficient as
its literal, after `" + "` unless the term is the first; any other coefficient
as the literal of its absolute value, after `" - "`, or after `"-"` if the term
is the first; then the index suffix. -/
def signedTerm (fmt : ℚ → String) (first : Bool) (t : pair_t) : String :=
  (if t.val_ > 0 then (if first then "" else " + ") ++ fmt t.val_
    else (if first then "-" else " - ") ++ fmt |t.val_|) ++
    (if t.inx_ = 0 then "" else if t.inx_ = 1 then " x" else " x^" ++ toString t.inx_)

/-- The signed renderings of the terms that follow the first one. -/
def signedTail (fmt : ℚ → String) : List pair_t → String
  | [] => ""
  | t :: ts => signedTerm fmt false t ++ signedTail fmt ts

/-- The term list of the linked `Write`: the signed renderings in sequence. -/
def signedTermList (fmt : ℚ → String) : List pair_t → String
  | [] => ""
  | t :: ts => signedTerm fmt true t ++ signedTail fmt ts

/-- One iteration of the loops of the array-backed `Write` methods on the term
`t`: the separator unless `first`, the coefficient, the index suffix; `first`
becomes `false`. -/
def writeStep (fmt : ℚ → String) (st : String × Bool) (t : pair_t) : String × Bool :=
  (st.1 ++ (if !st.2 then " + " else "") ++ fmt t.val_ ++
      (if t.inx_ > 1 then " x^" else if t.inx_ = 1 then " x" else "") ++
      (if t.inx_ > 1 then toString t.inx_ else ""),
    false)

/-- A rendering of coefficients for the examples: the literal of the rational. -/
def plainLiteral (q : ℚ) : String := toString q

/-- The element `M(i, j)` of a matrix, `0` where the access fails. -/
def matrixEntry (M : matrix_t ℚ) (i j : Int) : ℚ := (M.at_ i j).getD 0

/-- The sum over `k = 1..n` of `A(i, k) * B(k, j)`. -/
def productEntry (A B : matrix_t ℚ) (n : Nat) (i j : Int) : ℚ :=
  ∑ k in Finset.Icc 1 n, matrixEntry A i (k : Int) * matrixEntry B (k : Int) j

/-- The constant `EPSILON` of `rational_t.hpp`, `1e-6`. -/
def EPSILON : ℚ := 1 / 1000000

end DSA

/-! ## Containers: basic facts -/

namespace DSA

theorem vector_at_natCast (v : vector_t ℚ) (i : Nat) (h : i < v.v_.length) :
    v.at_ (i : Int) = some (coeffAt v.v_ i) := by
  have h2 : ((i : Int) < (v.v_.length : Int)) := by exact_mod_cast h
  simp [vector_t.at_, vector_t.get_size, h2, h, coeffAt, List.getD_eq_getElem?_getD]

theorem termsBelow_zero (v : List ℚ) (eps : ℚ) : termsBelow v eps 0 = [] := by
  simp [termsBelow]

theorem termsBelow_succ (v : List ℚ) (eps : ℚ) (k : Nat) :
    termsBelow v eps (k + 1) =
      termsBelow v eps k ++
        (if eps < |coeffAt v k| then [⟨coeffAt v k, (k : Int)⟩] else []) := by
  unfold termsBelow
  rw [List.range_succ, List.filter_append, List.map_append]
  by_cases h : eps < |coeffAt v k| <;> simp [h, List.filter_cons]

theorem termsBelow_length_mono (v : List ℚ) (eps : ℚ) {k n : Nat} (h : k ≤ n) :
    (termsBelow v eps k).length ≤ (termsBelow v eps n).length := by
  induction n with
  | zero =>
      have : k = 0 := Nat.le_zero.mp h
      subst this; exact le_refl _
  | succ m ih =>
      rcases Nat.lt_or_ge k (m + 1) with hk | hk
      · have := ih (Nat.lt_succ_iff.mp hk)
        rw [termsBelow_succ, List.length_append]
        omega
      · have : k = m + 1 := le_antisymm h hk
        subst this; exact le_refl _

theorem countPass_eq (v : vector_t ℚ) (eps : ℚ) (k : Nat) (hk : k ≤ v.v_.length) :
    sparse_vector_t.countPass v eps k = some ((termsBelow v.v_ eps k).length : Int) := by
  induction k with
  | zero => simp [sparse_vector_t.countPass, termsBelow_zero]
  | succ m ih =>
      have hm : m < v.v_.length := hk
      have ih2 := ih (Nat.le_of_lt hm)
      unfold sparse_vector_t.countPass at ih2 ⊢
      rw [List.range_succ, List.foldlM_append, ih2]
      rw [termsBelow_succ]
      simp only [Option.some_bind, List.foldlM_cons, List.foldlM_nil, vector_at_natCast v m hm,
        IsNotZero, Option.bind_eq_bind, Option.pure_def, gt_iff_lt]
      by_cases h : eps < |coeffAt v.v_ m| <;> simp [h]

theorem list_set_length_append {T : Type} (l r : List T) (d x : T) :
    (l ++ d :: r).set l.length x = l ++ x :: r := by
  induction l with
  | nil => rfl
  | cons a l ih => simp [ih]

theorem fillPass_eq (v : vector_t ℚ) (eps : ℚ) (k : Nat) (hk : k ≤ v.v_.length) :
    sparse_vector_t.fillPass v eps k
        (vector_t.resize pair_t.default ((termsBelow v.v_ eps v.v_.length).length : Int)) =
      some (⟨termsBelow v.v_ eps k ++
              List.replicate
                ((termsBelow v.v_ eps v.v_.length).length - (termsBelow v.v_ eps k).length)
                pair_t.default⟩,
            ((termsBelow v.v_ eps k).length : Int)) := by
  induction k with
  | zero => simp [sparse_vector_t.fillPass, termsBelow_zero, vector_t.resize]
  | succ m ih =>
      have hm : m < v.v_.length := hk
      have ih2 := ih (Nat.le_of_lt hm)
      have hmono := termsBelow_length_mono v.v_ eps hk
      unfold sparse_vector_t.fillPass at ih2 ⊢
      rw [List.range_succ, List.foldlM_append, ih2]
      rw [termsBelow_succ] at hmono ⊢
      simp only [Option.some_bind, List.foldlM_cons, List.foldlM_nil, vector_at_natCast v m hm,
        IsNotZero, Option.bind_eq_bind, Option.pure_def, gt_iff_lt]
      by_cases h : eps < |coeffAt v.v_ m|
      · simp only [h, if_true, List.length_append, List.length_singleton, decide_True] at hmono ⊢
        obtain ⟨r, hr⟩ : ∃ r, (termsBelow v.v_ eps v.v_.length).length
            - (termsBelow v.v_ eps m).length = r + 1 := ⟨_, (Nat.succ_pred_eq_of_pos (by omega)).symm⟩
        have hr2 : (termsBelow v.v_ eps v.v_.length).length
            - ((termsBelow v.v_ eps m).length + 1) = r := by omega
        rw [hr, hr2, List.replicate_succ]
        simp [vector_t.at_, vector_t.set_at, vector_t.get_size, list_set_length_append,
          pair_t.set]
      · simp [h]

theorem ofVector_eq (v : vector_t ℚ) (eps : ℚ) :
    sparse_vector_t.ofVector v eps =
      some ⟨⟨sparseTerms v.v_ eps⟩, ((sparseTerms v.v_ eps).length : Int), v.get_size⟩ := by
  unfold sparse_vector_t.ofVector
  simp only [vector_t.get_size, Int.toNat_ofNat, countPass_eq v eps _ (le_refl _),
    fillPass_eq v eps _ (le_refl _), Option.bind_eq_bind, Option.some_bind, Option.pure_def,
    Nat.sub_self, List.replicate_zero, List.append_nil, sparseTerms]

/-- C1: for every dense vector `v` and tolerance `eps` the constructor
`sparse_vector_t(v, eps)` succeeds and stores exactly the terms `(v[i], i)` with
`|v[i]| > eps` in ascending `i`, values unchanged; `get_nz()` is the number of
those terms and `get_n()` the size of `v`. For `[1, 0, 3]` and `eps = 1e-6` the
stored terms are `(1, index 0)` and `(3, index 2)`. -/
theorem sparse_vector_ctor_stores_filtered_terms :
    (∀ (v : vector_t ℚ) (eps : ℚ), ∃ s : sparse_vector_t,
        sparse_vector_t.ofVector v eps = some s ∧
        s.pv_.v_ = sparseTerms v.v_ eps ∧
        s.get_nz = ((sparseTerms v.v_ eps).length : Int) ∧
        s.get_n = v.get_size) ∧
    sparse_vector_t.ofVector ⟨[1, 0, 3]⟩ EPS = some ⟨⟨[⟨1, 0⟩, ⟨3, 2⟩]⟩, 2, 3⟩ := by
  refine ⟨fun v eps => ⟨_, ofVector_eq v eps, rfl, rfl, rfl⟩, ?_⟩
  rw [ofVector_eq]
  norm_num [sparseTerms, termsBelow, List.range_succ, List.filter_cons, coeffAt, EPS,
    vector_t.get_size]

end DSA

/-! ## `Sum`: the destination is the emitted terms, reversed, in front of its
previous contents -/

namespace DSA

theorem sumRest_eq (as : List pair_t) (d : sll_t pair_t) :
    SllPolynomial.sumRest as d = ⟨as.reverse ++ d.head_⟩ := by
  induction as generalizing d with
  | nil => simp [SllPolynomial.sumRest]
  | cons a as ih =>
      simp [SllPolynomial.sumRest, ih, sll_t.push_front, pair_t.get_val, pair_t.get_inx]

theorem sumRest_sumMerge (eps : ℚ) (as bs : List pair_t) (d : sll_t pair_t) :
    SllPolynomial.sumRest (SllPolynomial.sumMerge eps as bs d).2.1
        (SllPolynomial.sumRest (SllPolynomial.sumMerge eps as bs d).1
          (SllPolynomial.sumMerge eps as bs d).2.2) =
      ⟨(sumEmitted eps as bs).reverse ++ d.head_⟩ := by
  induction as, bs using sumEmitted.induct eps generalizing d with
  | case1 a as b bs h1 h2 ih =>
      rw [SllPolynomial.sumMerge, sumEmitted]
      simp only [pair_t.get_inx, pair_t.get_val, h1, h2, if_true, gt_iff_lt]
      rw [ih]
      simp [sll_t.push_front]
  | case2 a as b bs h1 h2 ih =>
      rw [SllPolynomial.sumMerge, sumEmitted]
      simp only [pair_t.get_inx, pair_t.get_val, h1, h2, if_true, if_false, gt_iff_lt]
      rw [ih]
  | case3 a as b bs h1 h2 ih =>
      rw [SllPolynomial.sumMerge, sumEmitted]
      simp only [pair_t.get_inx, pair_t.get_val, h1, h2, if_true, if_false, gt_iff_lt]
      rw [ih]
      simp [sll_t.push_front]
  | case4 a as b bs h1 h2 ih =>
      rw [SllPolynomial.sumMerge, sumEmitted]
      simp only [pair_t.get_inx, pair_t.get_val, h1, h2, if_true, if_false, gt_iff_lt]
      rw [ih]
      simp [sll_t.push_front]
  | case5 bs =>
      rw [SllPolynomial.sumMerge, sumEmitted]
      simp [sumRest_eq, SllPolynomial.sumRest]
  | case6 as h =>
      cases as with
      | nil => exact absurd rfl h
      | cons a as =>
          rw [SllPolynomial.sumMerge, sumEmitted]
          · simp [sumRest_eq, SllPolynomial.sumRest, sll_t.push_front, pair_t.get_val,
              pair_t.get_inx]
          · exact h
          · exact h

theorem Sum_eq (A B D : sll_t pair_t) (eps : ℚ) :
    SllPolynomial.Sum A B D eps = ⟨(sumEmitted eps A.head_ B.head_).reverse ++ D.head_⟩ := by
  unfold SllPolynomial.Sum
  exact sumRest_sumMerge eps A.head_ B.head_ D

end DSA

/-! ## `Sum`: which terms are emitted -/

namespace DSA

theorem sumEmitted_nil_left (eps : ℚ) (bs : List pair_t) : sumEmitted eps [] bs = bs := by
  rw [sumEmitted]

theorem sumEmitted_nil_right (eps : ℚ) (as : List pair_t) : sumEmitted eps as [] = as := by
  cases as with
  | nil => rw [sumEmitted]
  | cons a as => rw [sumEmitted]; all_goals simp

theorem mergeSpec_lt (eps : ℚ) (a b : pair_t) (as bs : List pair_t) (t : pair_t)
    (hab : a.inx_ < b.inx_)
    (hB : ∀ q ∈ bs, b.inx_ < q.inx_) :
    mergeSpec eps (a :: as) (b :: bs) t ↔ t = a ∨ mergeSpec eps as (b :: bs) t := by
  have hB2 : ∀ q ∈ b :: bs, a.inx_ < q.inx_ := by
    intro q hq
    rcases List.mem_cons.mp hq with rfl | hq
    · exact hab
    · exact lt_trans hab (hB q hq)
  unfold mergeSpec
  constructor
  · rintro (⟨ht, h⟩ | ⟨ht, h⟩ | ⟨p, hp, q, hq, hpq, he, rfl⟩)
    · rcases List.mem_cons.mp ht with rfl | ht
      · exact Or.inl rfl
      · exact Or.inr (Or.inl ⟨ht, h⟩)
    · exact Or.inr (Or.inr (Or.inl ⟨ht, fun p hp => h p (List.mem_cons_of_mem _ hp)⟩))
    · rcases List.mem_cons.mp hp with rfl | hp
      · exact absurd hpq (ne_of_lt (hB2 q hq))
      · exact Or.inr (Or.inr (Or.inr ⟨p, hp, q, hq, hpq, he, rfl⟩))
  · rintro (rfl | ⟨ht, h⟩ | ⟨ht, h⟩ | ⟨p, hp, q, hq, hpq, he, rfl⟩)
    · exact Or.inl ⟨List.mem_cons_self _ _, fun q hq => ne_of_gt (hB2 q hq)⟩
    · exact Or.inl ⟨List.mem_cons_of_mem _ ht, h⟩
    · refine Or.inr (Or.inl ⟨ht, fun p hp => ?_⟩)
      rcases List.mem_cons.mp hp with rfl | hp
      · exact ne_of_lt (hB2 t ht)
      · exact h p hp
    · exact Or.inr (Or.inr ⟨p, List.mem_cons_of_mem _ hp, q, hq, hpq, he, rfl⟩)

theorem mergeSpec_comm (eps : ℚ) (A B : List pair_t) (t : pair_t) :
    mergeSpec eps A B t ↔ mergeSpec eps B A t := by
  unfold mergeSpec
  constructor
  · rintro (h | h | ⟨p, hp, q, hq, hpq, he, rfl⟩)
    · exact Or.inr (Or.inl h)
    · exact Or.inl h
    · refine Or.inr (Or.inr ⟨q, hq, p, hp, hpq.symm, by rwa [add_comm], ?_⟩)
      rw [add_comm, hpq]
  · rintro (h | h | ⟨p, hp, q, hq, hpq, he, rfl⟩)
    · exact Or.inr (Or.inl h)
    · exact Or.inl h
    · refine Or.inr (Or.inr ⟨q, hq, p, hp, hpq.symm, by rwa [add_comm], ?_⟩)
      rw [add_comm, hpq]

theorem mergeSpec_gt (eps : ℚ) (a b : pair_t) (as bs : List pair_t) (t : pair_t)
    (hab : b.inx_ < a.inx_)
    (hA : ∀ p ∈ as, a.inx_ < p.inx_) :
    mergeSpec eps (a :: as) (b :: bs) t ↔ t = b ∨ mergeSpec eps (a :: as) bs t := by
  rw [mergeSpec_comm, mergeSpec_lt eps b a bs as t hab hA, mergeSpec_comm eps bs]

theorem mergeSpec_eq (eps : ℚ) (a b : pair_t) (as bs : List pair_t) (t : pair_t)
    (hab : a.inx_ = b.inx_)
    (hA : ∀ p ∈ as, a.inx_ < p.inx_) (hB : ∀ q ∈ bs, b.inx_ < q.inx_) :
    mergeSpec eps (a :: as) (b :: bs) t ↔
      (eps < |a.val_ + b.val_| ∧ t = ⟨a.val_ + b.val_, a.inx_⟩) ∨ mergeSpec eps as bs t := by
  unfold mergeSpec
  constructor
  · rintro (⟨ht, h⟩ | ⟨ht, h⟩ | ⟨p, hp, q, hq, hpq, he, rfl⟩)
    · rcases List.mem_cons.mp ht with rfl | ht
      · exact absurd hab.symm (h b (List.mem_cons_self _ _))
      · exact Or.inr (Or.inl ⟨ht, fun q hq => h q (List.mem_cons_of_mem _ hq)⟩)
    · rcases List.mem_cons.mp ht with rfl | ht
      · exact absurd hab (h a (List.mem_cons_self _ _))
      · exact Or.inr (Or.inr (Or.inl ⟨ht, fun p hp => h p (List.mem_cons_of_mem _ hp)⟩))
    · rcases List.mem_cons.mp hp with rfl | hp <;> rcases List.mem_cons.mp hq with rfl | hq
      · exact Or.inl ⟨he, rfl⟩
      · have := hB q hq
        omega
      · have := hA p hp
        omega
      · exact Or.inr (Or.inr (Or.inr ⟨p, hp, q, hq, hpq, he, rfl⟩))
  · rintro (⟨he, rfl⟩ | ⟨ht, h⟩ | ⟨ht, h⟩ | ⟨p, hp, q, hq, hpq, he, rfl⟩)
    · exact Or.inr (Or.inr ⟨a, List.mem_cons_self _ _, b, List.mem_cons_self _ _, hab, he, rfl⟩)
    · refine Or.inl ⟨List.mem_cons_of_mem _ ht, fun q hq => ?_⟩
      rcases List.mem_cons.mp hq with rfl | hq
      · have := hA t ht
        omega
      · exact h q hq
    · refine Or.inr (Or.inl ⟨List.mem_cons_of_mem _ ht, fun p hp => ?_⟩)
      rcases List.mem_cons.mp hp with rfl | hp
      · have := hB t ht
        omega
      · exact h p hp
    · exact Or.inr (Or.inr ⟨p, List.mem_cons_of_mem _ hp, q, List.mem_cons_of_mem _ hq,
        hpq, he, rfl⟩)

theorem mergeSpec_nil_left (eps : ℚ) (bs : List pair_t) (t : pair_t) :
    mergeSpec eps [] bs t ↔ t ∈ bs := by
  simp [mergeSpec]

theorem mergeSpec_nil_right (eps : ℚ) (as : List pair_t) (t : pair_t) :
    mergeSpec eps as [] t ↔ t ∈ as := by
  simp [mergeSpec]

theorem mem_sumEmitted (eps : ℚ) (as bs : List pair_t) (ha : ascending as)
    (hb : ascending bs) (t : pair_t) :
    t ∈ sumEmitted eps as bs ↔ mergeSpec eps as bs t := by
  induction as, bs using sumEmitted.induct eps with
  | case1 a as b bs h1 h2 ih =>
      have hA := (List.pairwise_cons.mp ha)
      have hB := (List.pairwise_cons.mp hb)
      rw [sumEmitted, if_pos h1, if_pos h2, List.mem_cons, ih hA.2 hB.2,
        mergeSpec_eq eps a b as bs t h1 hA.1 hB.1]
      simp [h2]
  | case2 a as b bs h1 h2 ih =>
      have hA := (List.pairwise_cons.mp ha)
      have hB := (List.pairwise_cons.mp hb)
      rw [sumEmitted, if_pos h1, if_neg h2, ih hA.2 hB.2,
        mergeSpec_eq eps a b as bs t h1 hA.1 hB.1]
      simp [h2]
  | case3 a as b bs h1 h2 ih =>
      have hA := (List.pairwise_cons.mp ha)
      have hB := (List.pairwise_cons.mp hb)
      rw [sumEmitted, if_neg h1, if_pos h2, List.mem_cons, ih ha hB.2,
        mergeSpec_gt eps a b as bs t h2 hA.1]
  | case4 a as b bs h1 h2 ih =>
      have hA := (List.pairwise_cons.mp ha)
      have hB := (List.pairwise_cons.mp hb)
      have hlt : a.inx_ < b.inx_ := by omega
      rw [sumEmitted, if_neg h1, if_neg h2, List.mem_cons, ih hA.2 hb,
        mergeSpec_lt eps a b as bs t hlt hB.1]
  | case5 bs => rw [sumEmitted_nil_left, mergeSpec_nil_left]
  | case6 as h => rw [sumEmitted_nil_right, mergeSpec_nil_right]

end DSA

/-! ## `Sum`: order of the emitted terms, disjoint operands, cancellation -/

namespace DSA

theorem sumEmitted_inx_origin (eps : ℚ) (as bs : List pair_t) (t : pair_t)
    (ht : t ∈ sumEmitted eps as bs) :
    (∃ p ∈ as, p.inx_ = t.inx_) ∨ (∃ q ∈ bs, q.inx_ = t.inx_) := by
  induction as, bs using sumEmitted.induct eps with
  | case1 a as b bs h1 h2 ih =>
      rw [sumEmitted, if_pos h1, if_pos h2, List.mem_cons] at ht
      rcases ht with rfl | ht
      · exact Or.inl ⟨a, List.mem_cons_self _ _, rfl⟩
      · rcases ih ht with ⟨p, hp, e⟩ | ⟨q, hq, e⟩
        · exact Or.inl ⟨p, List.mem_cons_of_mem _ hp, e⟩
        · exact Or.inr ⟨q, List.mem_cons_of_mem _ hq, e⟩
  | case2 a as b bs h1 h2 ih =>
      rw [sumEmitted, if_pos h1, if_neg h2] at ht
      rcases ih ht with ⟨p, hp, e⟩ | ⟨q, hq, e⟩
      · exact Or.inl ⟨p, List.mem_cons_of_mem _ hp, e⟩
      · exact Or.inr ⟨q, List.mem_cons_of_mem _ hq, e⟩
  | case3 a as b bs h1 h2 ih =>
      rw [sumEmitted, if_neg h1, if_pos h2, List.mem_cons] at ht
      rcases ht with rfl | ht
      · exact Or.inr ⟨t, List.mem_cons_self _ _, rfl⟩
      · rcases ih ht with ⟨p, hp, e⟩ | ⟨q, hq, e⟩
        · exact Or.inl ⟨p, hp, e⟩
        · exact Or.inr ⟨q, List.mem_cons_of_mem _ hq, e⟩
  | case4 a as b bs h1 h2 ih =>
      rw [sumEmitted, if_neg h1, if_neg h2, List.mem_cons] at ht
      rcases ht with rfl | ht
      · exact Or.inl ⟨t, List.mem_cons_self _ _, rfl⟩
      · rcases ih ht with ⟨p, hp, e⟩ | ⟨q, hq, e⟩
        · exact Or.inl ⟨p, List.mem_cons_of_mem _ hp, e⟩
        · exact Or.inr ⟨q, hq, e⟩
  | case5 bs =>
      rw [sumEmitted_nil_left] at ht
      exact Or.inr ⟨t, ht, rfl⟩
  | case6 as h =>
      rw [sumEmitted_nil_right] at ht
      exact Or.inl ⟨t, ht, rfl⟩

theorem sumEmitted_inx_lb (eps : ℚ) (as bs : List pair_t) (m : Int)
    (hA : ∀ p ∈ as, m < p.inx_) (hB : ∀ q ∈ bs, m < q.inx_) :
    ∀ t ∈ sumEmitted eps as bs, m < t.inx_ := by
  intro t ht
  rcases sumEmitted_inx_origin eps as bs t ht with ⟨p, hp, e⟩ | ⟨q, hq, e⟩
  · exact e ▸ hA p hp
  · exact e ▸ hB q hq

theorem ascending_sumEmitted (eps : ℚ) (as bs : List pair_t) (ha : ascending as)
    (hb : ascending bs) : ascending (sumEmitted eps as bs) := by
  induction as, bs using sumEmitted.induct eps with
  | case1 a as b bs h1 h2 ih =>
      have hA := (List.pairwise_cons.mp ha)
      have hB := (List.pairwise_cons.mp hb)
      rw [sumEmitted, if_pos h1, if_pos h2]
      refine List.pairwise_cons.mpr ⟨?_, ih hA.2 hB.2⟩
      exact sumEmitted_inx_lb eps as bs a.inx_ hA.1 (fun q hq => h1 ▸ hB.1 q hq)
  | case2 a as b bs h1 h2 ih =>
      have hA := (List.pairwise_cons.mp ha)
      have hB := (List.pairwise_cons.mp hb)
      rw [sumEmitted, if_pos h1, if_neg h2]
      exact ih hA.2 hB.2
  | case3 a as b bs h1 h2 ih =>
      have hA := (List.pairwise_cons.mp ha)
      have hB := (List.pairwise_cons.mp hb)
      rw [sumEmitted, if_neg h1, if_pos h2]
      refine List.pairwise_cons.mpr ⟨?_, ih ha hB.2⟩
      refine sumEmitted_inx_lb eps (a :: as) bs b.inx_ (fun p hp => ?_) hB.1
      rcases List.mem_cons.mp hp with rfl | hp
      · exact h2
      · exact lt_trans h2 (hA.1 p hp)
  | case4 a as b bs h1 h2 ih =>
      have hA := (List.pairwise_cons.mp ha)
      have hB := (List.pairwise_cons.mp hb)
      have hlt : a.inx_ < b.inx_ := by omega
      rw [sumEmitted, if_neg h1, if_neg h2]
      refine List.pairwise_cons.mpr ⟨?_, ih hA.2 hb⟩
      refine sumEmitted_inx_lb eps as (b :: bs) a.inx_ hA.1 (fun q hq => ?_)
      rcases List.mem_cons.mp hq with rfl | hq
      · exact hlt
      · exact lt_trans hlt (hB.1 q hq)
  | case5 bs => rw [sumEmitted_nil_left]; exact hb
  | case6 as h => rw [sumEmitted_nil_right]; exact ha

theorem descending_reverse {l : List pair_t} (h : ascending l) : descending l.reverse := by
  unfold descending
  rw [List.pairwise_reverse]
  exact h

theorem descending_inx_nodup {l : List pair_t} (h : descending l) :
    (l.map pair_t.get_inx).Nodup := by
  unfold List.Nodup
  rw [List.pairwise_map]
  exact h.imp (fun hpq => ne_of_gt hpq)

theorem ascending_inx_nodup {l : List pair_t} (h : ascending l) :
    (l.map pair_t.get_inx).Nodup := by
  unfold List.Nodup
  rw [List.pairwise_map]
  exact h.imp (fun hpq => ne_of_lt hpq)

theorem not_ascending_of_descending {l : List pair_t} (h : descending l)
    (h2 : 2 ≤ l.length) : ¬ ascending l := by
  match l, h, h2 with
  | p :: q :: r, h, _ =>
      intro ha
      have h1 := (List.pairwise_cons.mp h).1 q (List.mem_cons_self _ _)
      have h3 := (List.pairwise_cons.mp ha).1 q (List.mem_cons_self _ _)
      exact absurd h1 (not_lt.mpr (le_of_lt h3))

theorem sumEmitted_perm_of_disjoint (eps : ℚ) (as bs : List pair_t)
    (hd : ∀ p ∈ as, ∀ q ∈ bs, p.inx_ ≠ q.inx_) :
    (sumEmitted eps as bs).Perm (as ++ bs) := by
  induction as, bs using sumEmitted.induct eps with
  | case1 a as b bs h1 h2 ih =>
      exact absurd h1 (hd a (List.mem_cons_self _ _) b (List.mem_cons_self _ _))
  | case2 a as b bs h1 h2 ih =>
      exact absurd h1 (hd a (List.mem_cons_self _ _) b (List.mem_cons_self _ _))
  | case3 a as b bs h1 h2 ih =>
      rw [sumEmitted, if_neg h1, if_pos h2]
      have := ih (fun p hp q hq => hd p hp q (List.mem_cons_of_mem _ hq))
      exact (List.Perm.cons b this).trans (List.perm_middle.symm)
  | case4 a as b bs h1 h2 ih =>
      rw [sumEmitted, if_neg h1, if_neg h2]
      have := ih (fun p hp q hq => hd p (List.mem_cons_of_mem _ hp) q hq)
      exact List.Perm.cons a this
  | case5 bs => rw [sumEmitted_nil_left]; simp
  | case6 as h => rw [sumEmitted_nil_right]; simp

theorem sumEmitted_negated (eps : ℚ) (h : 0 ≤ eps) (as : List pair_t) :
    sumEmitted eps as (negated as) = [] := by
  induction as with
  | nil => rw [negated, List.map_nil, sumEmitted_nil_left]
  | cons a as ih =>
      have hz : ¬ eps < |a.val_ + -a.val_| := by simpa using h
      rw [negated, List.map_cons, sumEmitted, if_pos rfl, if_neg hz]
      exact ih

theorem foldl_add_eq (x : ℚ) (l : List pair_t) (c : ℚ) :
    l.foldl (fun result aux => result + aux.get_val * pow x aux.get_inx) c = c + termSum l x := by
  induction l generalizing c with
  | nil => simp [termSum]
  | cons a l ih =>
      rw [List.foldl_cons, ih]
      simp [termSum, pair_t.get_val, pair_t.get_inx, pow, add_assoc]

theorem SllEval_eq (p : sll_t pair_t) (x : ℚ) : SllPolynomial.Eval p x = termSum p.head_ x := by
  unfold SllPolynomial.Eval
  rw [foldl_add_eq, zero_add]

theorem termSum_perm {l l' : List pair_t} (h : l.Perm l') (x : ℚ) :
    termSum l x = termSum l' x := by
  unfold termSum
  exact (h.map _).sum_eq

theorem termSum_append (l l' : List pair_t) (x : ℚ) :
    termSum (l ++ l') x = termSum l x + termSum l' x := by
  simp [termSum]

end DSA

/-! ## `Sum`: the contract -/

namespace DSA

/-- C2: `Sum` is a sorted merge. For operands with strictly ascending indices
and an empty destination, a term is pushed by `A.Sum(B, result, eps)` exactly
when it is a term of `A` whose index is absent from `B`, a term of `B` whose
index is absent from `A` (coefficient unchanged in both cases), or the term
`(a_i + b_i, i)` of an index present in both with `|a_i + b_i| > eps`; and no
index is pushed twice. -/
theorem Sum_emits_sorted_merge (A B : sll_t pair_t) (eps : ℚ)
    (hA : ascending A.head_) (hB : ascending B.head_) :
    (∀ t, t ∈ (SllPolynomial.Sum A B sll_t.empty_list eps).head_ ↔
        mergeSpec eps A.head_ B.head_ t) ∧
    ((SllPolynomial.Sum A B sll_t.empty_list eps).head_.map pair_t.get_inx).Nodup := by
  rw [Sum_eq]
  refine ⟨fun t => ?_, ?_⟩
  · simp only [sll_t.empty_list, List.append_nil, List.mem_reverse]
    exact mem_sumEmitted eps A.head_ B.head_ hA hB t
  · simp only [sll_t.empty_list, List.append_nil]
    exact descending_inx_nodup (descending_reverse (ascending_sumEmitted eps _ _ hA hB))

theorem Sum_emits_sorted_merge_witness :
    ascending [(⟨1, 0⟩ : pair_t), ⟨2, 3⟩, ⟨5, 7⟩] ∧
    ascending [(⟨1, 1⟩ : pair_t), ⟨-2, 3⟩, ⟨4, 4⟩, ⟨1, 7⟩] ∧
    ((∀ t, t ∈ (SllPolynomial.Sum ⟨[⟨1, 0⟩, ⟨2, 3⟩, ⟨5, 7⟩]⟩
          ⟨[⟨1, 1⟩, ⟨-2, 3⟩, ⟨4, 4⟩, ⟨1, 7⟩]⟩ sll_t.empty_list EPS).head_ ↔
        mergeSpec EPS [⟨1, 0⟩, ⟨2, 3⟩, ⟨5, 7⟩] [⟨1, 1⟩, ⟨-2, 3⟩, ⟨4, 4⟩, ⟨1, 7⟩] t) ∧
      ((SllPolynomial.Sum ⟨[⟨1, 0⟩, ⟨2, 3⟩, ⟨5, 7⟩]⟩
          ⟨[⟨1, 1⟩, ⟨-2, 3⟩, ⟨4, 4⟩, ⟨1, 7⟩]⟩ sll_t.empty_list EPS).head_.map
            pair_t.get_inx).Nodup) :=
  ⟨by decide, by decide,
    Sum_emits_sorted_merge ⟨[⟨1, 0⟩, ⟨2, 3⟩, ⟨5, 7⟩]⟩ ⟨[⟨1, 1⟩, ⟨-2, 3⟩, ⟨4, 4⟩, ⟨1, 7⟩]⟩ EPS
      (by decide) (by decide)⟩

/-- C3: for operands with strictly ascending indices and disjoint index sets,
summing into an empty destination gives `|A| + |B|` terms, and the result
evaluates at every `x` to `A.Eval(x) + B.Eval(x)` (exact arithmetic). The proof
does not use the ordering of the operands. -/
theorem Sum_disjoint_count_and_eval (A B : sll_t pair_t) (eps : ℚ)
    (_hA : ascending A.head_) (_hB : ascending B.head_)
    (hd : ∀ p ∈ A.head_, ∀ q ∈ B.head_, p.inx_ ≠ q.inx_) :
    (SllPolynomial.Sum A B sll_t.empty_list eps).head_.length =
        A.head_.length + B.head_.length ∧
    ∀ x : ℚ, SllPolynomial.Eval (SllPolynomial.Sum A B sll_t.empty_list eps) x =
        SllPolynomial.Eval A x + SllPolynomial.Eval B x := by
  have hperm := sumEmitted_perm_of_disjoint eps A.head_ B.head_ hd
  rw [Sum_eq]
  simp only [sll_t.empty_list, List.append_nil, List.length_reverse]
  refine ⟨?_, fun x => ?_⟩
  · rw [hperm.length_eq, List.length_append]
  · rw [SllEval_eq, SllEval_eq, SllEval_eq,
      termSum_perm ((List.reverse_perm _).trans hperm) x, termSum_append]

theorem Sum_disjoint_count_and_eval_witness :
    ascending [(⟨1, 0⟩ : pair_t), ⟨2, 3⟩] ∧ ascending [(⟨4, 1⟩ : pair_t), ⟨-1, 5⟩] ∧
    (∀ p ∈ [(⟨1, 0⟩ : pair_t), ⟨2, 3⟩], ∀ q ∈ [(⟨4, 1⟩ : pair_t), ⟨-1, 5⟩], p.inx_ ≠ q.inx_) ∧
    ((SllPolynomial.Sum ⟨[⟨1, 0⟩, ⟨2, 3⟩]⟩ ⟨[⟨4, 1⟩, ⟨-1, 5⟩]⟩ sll_t.empty_list EPS).head_.length =
        [(⟨1, 0⟩ : pair_t), ⟨2, 3⟩].length + [(⟨4, 1⟩ : pair_t), ⟨-1, 5⟩].length ∧
      ∀ x : ℚ, SllPolynomial.Eval
          (SllPolynomial.Sum ⟨[⟨1, 0⟩, ⟨2, 3⟩]⟩ ⟨[⟨4, 1⟩, ⟨-1, 5⟩]⟩ sll_t.empty_list EPS) x =
        SllPolynomial.Eval ⟨[⟨1, 0⟩, ⟨2, 3⟩]⟩ x + SllPolynomial.Eval ⟨[⟨4, 1⟩, ⟨-1, 5⟩]⟩ x) :=
  ⟨by decide, by decide, by decide,
    Sum_disjoint_count_and_eval ⟨[⟨1, 0⟩, ⟨2, 3⟩]⟩ ⟨[⟨4, 1⟩, ⟨-1, 5⟩]⟩ EPS
      (by decide) (by decide) (by decide)⟩

/-- C4: cancellation. For every chain `A` with strictly ascending indices and
every `eps >= 0`, summing `A` with its coefficient-wise negation into an empty
destination leaves the destination with no term; in particular `[(2, index 3)]`
plus `[(-2, index 3)]` is empty (default tolerance). -/
theorem Sum_with_negation_is_empty :
    (∀ (A : sll_t pair_t) (eps : ℚ), ascending A.head_ → 0 ≤ eps →
      (SllPolynomial.Sum A ⟨negated A.head_⟩ sll_t.empty_list eps).head_ = []) ∧
    (SllPolynomial.Sum ⟨[⟨2, 3⟩]⟩ ⟨[⟨-2, 3⟩]⟩ sll_t.empty_list EPS).head_ = [] := by
  have key : ∀ (A : sll_t pair_t) (eps : ℚ), 0 ≤ eps →
      (SllPolynomial.Sum A ⟨negated A.head_⟩ sll_t.empty_list eps).head_ = [] := by
    intro A eps h
    rw [Sum_eq]
    simp [sll_t.empty_list, sumEmitted_negated eps h]
  refine ⟨fun A eps _ h => key A eps h, ?_⟩
  have h0 : (0 : ℚ) ≤ EPS := by norm_num [EPS]
  have := key ⟨[⟨2, 3⟩]⟩ EPS h0
  simpa [negated] using this

theorem Sum_with_negation_is_empty_witness :
    ascending [(⟨2, 3⟩ : pair_t), ⟨7, 5⟩] ∧ (0 : ℚ) ≤ 1 / 2 ∧
    (SllPolynomial.Sum ⟨[⟨2, 3⟩, ⟨7, 5⟩]⟩ ⟨negated [⟨2, 3⟩, ⟨7, 5⟩]⟩
      sll_t.empty_list (1 / 2)).head_ = [] :=
  ⟨by decide, by norm_num,
    Sum_with_negation_is_empty.1 ⟨[⟨2, 3⟩, ⟨7, 5⟩]⟩ (1 / 2) (by decide) (by norm_num)⟩

/-- C5: for operands with strictly ascending indices and an empty destination,
the chain `Sum` leaves in the destination has strictly descending indices from
its head, so a result with two or more terms does not have ascending indices. -/
theorem Sum_result_is_descending (A B : sll_t pair_t) (eps : ℚ)
    (hA : ascending A.head_) (hB : ascending B.head_) :
    descending (SllPolynomial.Sum A B sll_t.empty_list eps).head_ ∧
    (2 ≤ (SllPolynomial.Sum A B sll_t.empty_list eps).head_.length →
      ¬ ascending (SllPolynomial.Sum A B sll_t.empty_list eps).head_) := by
  have hdesc : descending (SllPolynomial.Sum A B sll_t.empty_list eps).head_ := by
    rw [Sum_eq]
    simp only [sll_t.empty_list, List.append_nil]
    exact descending_reverse (ascending_sumEmitted eps _ _ hA hB)
  exact ⟨hdesc, not_ascending_of_descending hdesc⟩

theorem Sum_result_is_descending_witness :
    ascending [(⟨1, 0⟩ : pair_t), ⟨2, 3⟩] ∧ ascending [(⟨4, 1⟩ : pair_t), ⟨5, 3⟩] ∧
    descending (SllPolynomial.Sum ⟨[⟨1, 0⟩, ⟨2, 3⟩]⟩ ⟨[⟨4, 1⟩, ⟨5, 3⟩]⟩
      sll_t.empty_list EPS).head_ ∧
    (2 ≤ (SllPolynomial.Sum ⟨[⟨1, 0⟩, ⟨2, 3⟩]⟩ ⟨[⟨4, 1⟩, ⟨5, 3⟩]⟩
        sll_t.empty_list EPS).head_.length →
      ¬ ascending (SllPolynomial.Sum ⟨[⟨1, 0⟩, ⟨2, 3⟩]⟩ ⟨[⟨4, 1⟩, ⟨5, 3⟩]⟩
        sll_t.empty_list EPS).head_) :=
  ⟨by decide, by decide,
    Sum_result_is_descending ⟨[⟨1, 0⟩, ⟨2, 3⟩]⟩ ⟨[⟨4, 1⟩, ⟨5, 3⟩]⟩ EPS (by decide) (by decide)⟩

end DSA

/-! ## The two sparse constructions -/

namespace DSA

theorem ctorLoop_eq (v : vector_t ℚ) (eps : ℚ) (k : Nat) (hk : k ≤ v.v_.length)
    (l : sll_t pair_t) :
    SllPolynomial.ctorLoop v eps k l = some ⟨termsBelow v.v_ eps k ++ l.head_⟩ := by
  induction k generalizing l with
  | zero => simp [SllPolynomial.ctorLoop, termsBelow_zero]
  | succ m ih =>
      have hm : m < v.v_.length := hk
      rw [SllPolynomial.ctorLoop, vector_at_natCast v m hm, termsBelow_succ]
      simp only [Option.bind_eq_bind, Option.some_bind, IsNotZero, gt_iff_lt]
      by_cases h : eps < |coeffAt v.v_ m|
      · simp [h, ih (Nat.le_of_lt hm), sll_t.push_front]
      · simp [h, ih (Nat.le_of_lt hm)]

theorem SllPolynomial_ofVector_eq (v : vector_t ℚ) (eps : ℚ) :
    SllPolynomial.ofVector v eps = some ⟨sparseTerms v.v_ eps⟩ := by
  unfold SllPolynomial.ofVector
  simp only [vector_t.get_size, Int.toNat_ofNat]
  rw [ctorLoop_eq v eps _ (le_refl _)]
  simp [sll_t.empty_list, sparseTerms]

theorem mem_termsBelow (v : List ℚ) (eps : ℚ) (k : Nat) (p : pair_t) :
    p ∈ termsBelow v eps k ↔
      ∃ i, i < k ∧ eps < |coeffAt v i| ∧ p = ⟨coeffAt v i, (i : Int)⟩ := by
  unfold termsBelow
  simp only [List.mem_map, List.mem_filter, List.mem_range, decide_eq_true_eq, gt_iff_lt]
  constructor
  · rintro ⟨i, ⟨h1, h2⟩, rfl⟩
    exact ⟨i, h1, h2, rfl⟩
  · rintro ⟨i, h1, h2, rfl⟩
    exact ⟨i, ⟨h1, h2⟩, rfl⟩

theorem ascending_termsBelow (v : List ℚ) (eps : ℚ) (k : Nat) :
    ascending (termsBelow v eps k) := by
  unfold ascending termsBelow
  rw [List.pairwise_map]
  refine List.Pairwise.imp ?_ (List.Pairwise.filter _ (List.pairwise_lt_range k))
  intro a b hab
  show (a : Int) < (b : Int)
  exact_mod_cast hab

theorem sparseInvariant_sparseTerms (v : List ℚ) (eps : ℚ) :
    sparseInvariant (sparseTerms v eps) eps (v.length : Int) := by
  refine ⟨ascending_termsBelow v eps _, ascending_inx_nodup (ascending_termsBelow v eps _), ?_⟩
  intro p hp
  obtain ⟨i, h1, h2, rfl⟩ := (mem_termsBelow v eps _ p).mp hp
  refine ⟨Int.natCast_nonneg i, ?_, h2⟩
  show (i : Int) < (v.length : Int)
  exact_mod_cast h1

/-- C6: both sparse containers built from a dense vector `v` with tolerance
`eps` (the array-backed `sparse_vector_t` and the linked `SllPolynomial`) are
built successfully and satisfy the sparse invariant: indices strictly increasing
in storage and traversal order, no duplicate index, every index in `[0, size of
v)` and every stored coefficient `c` with `|c| > eps`. -/
theorem sparse_constructions_satisfy_invariant (v : vector_t ℚ) (eps : ℚ) :
    ∃ (s : sparse_vector_t) (l : sll_t pair_t),
      sparse_vector_t.ofVector v eps = some s ∧
      SllPolynomial.ofVector v eps = some l ∧
      sparseInvariant s.pv_.v_ eps v.get_size ∧
      sparseInvariant l.head_ eps v.get_size :=
  ⟨_, _, ofVector_eq v eps, SllPolynomial_ofVector_eq v eps,
    sparseInvariant_sparseTerms v.v_ eps, sparseInvariant_sparseTerms v.v_ eps⟩

/-- C7: for every dense vector `v` and tolerance `eps`, the linked construction
`SllPolynomial(v, eps)` (scan from the highest index down, front insertion)
yields on traversal from the head exactly the ascending sequence
`[(v[i], i) with |v[i]| > eps]`, the same term sequence the array-backed
construction stores for the same `v` and `eps`. -/
theorem linked_construction_matches_array_construction (v : vector_t ℚ) (eps : ℚ) :
    ∃ (l : sll_t pair_t) (s : sparse_vector_t),
      SllPolynomial.ofVector v eps = some l ∧
      sparse_vector_t.ofVector v eps = some s ∧
      l.head_ = sparseTerms v.v_ eps ∧
      l.head_ = s.pv_.v_ :=
  ⟨_, _, SllPolynomial_ofVector_eq v eps, ofVector_eq v eps, rfl, rfl⟩

end DSA

/-! ## Evaluation -/

namespace DSA

theorem Polynomial_Eval_loop (p : vector_t ℚ) (x : ℚ) (k : Nat) (hk : k ≤ p.v_.length) :
    (List.range k).foldlM
        (fun (result : ℚ) (i : Nat) => do
          let c ← p.at_ i
          pure (result + c * pow x i))
        0 =
      some (∑ i in Finset.range k, coeffAt p.v_ i * x ^ i) := by
  induction k with
  | zero => simp
  | succ m ih =>
      have hm : m < p.v_.length := hk
      rw [List.range_succ, List.foldlM_append, ih (Nat.le_of_lt hm)]
      simp [vector_at_natCast p m hm, Finset.sum_range_succ, pow]

theorem vector_get_natCast {T : Type} (v : vector_t T) (i : Nat) (h : i < v.v_.length) :
    v.at_ (i : Int) = some (v.v_.get ⟨i, h⟩) := by
  have h2 : ((i : Int) < (v.v_.length : Int)) := by exact_mod_cast h
  simp [vector_t.at_, vector_t.get_size, h2, h]

theorem SparsePolynomial_Eval_loop (ts : List pair_t) (n : Int) (x : ℚ) (k : Nat)
    (hk : k ≤ ts.length) :
    (List.range k).foldlM
        (fun (result : ℚ) (i : Nat) => do
          let p ← (⟨⟨ts⟩, (ts.length : Int), n⟩ : sparse_vector_t).at_ i
          let index := p.get_inx
          let coef := p.get_val
          pure (result + coef * pow x index))
        0 =
      some (termSum (ts.take k) x) := by
  induction k with
  | zero => simp [termSum]
  | succ m ih =>
      have hm : m < ts.length := hk
      have hm2 : ((m : Int) < (ts.length : Int)) := by exact_mod_cast hm
      rw [List.range_succ, List.foldlM_append, ih (Nat.le_of_lt hm)]
      have hat : (⟨⟨ts⟩, (ts.length : Int), n⟩ : sparse_vector_t).at_ (m : Int) =
          some (ts.get ⟨m, hm⟩) := by
        simp [sparse_vector_t.at_, sparse_vector_t.get_nz, hm2,
          vector_get_natCast (⟨ts⟩ : vector_t pair_t) m hm]
      simp only [List.foldlM_cons, List.foldlM_nil, Option.bind_eq_bind, Option.some_bind, hat,
        Option.pure_def]
      rw [List.take_succ, List.getElem?_eq_getElem hm, termSum_append]
      simp [termSum, pow, pair_t.get_inx, pair_t.get_val]

theorem SparsePolynomial_Eval_eq (ts : List pair_t) (n : Int) (x : ℚ) :
    SparsePolynomial.Eval ⟨⟨ts⟩, (ts.length : Int), n⟩ x = some (termSum ts x) := by
  unfold SparsePolynomial.Eval
  simp only [sparse_vector_t.get_nz, Int.toNat_ofNat]
  rw [SparsePolynomial_Eval_loop ts n x ts.length (le_refl _), List.take_length]

theorem termSum_termsBelow (v : List ℚ) (eps x : ℚ) (k : Nat) :
    termSum (termsBelow v eps k) x =
      ∑ i in Finset.range k, if eps < |coeffAt v i| then coeffAt v i * x ^ i else 0 := by
  induction k with
  | zero => simp [termsBelow_zero, termSum]
  | succ m ih =>
      rw [termsBelow_succ, termSum_append, ih, Finset.sum_range_succ]
      by_cases h : eps < |coeffAt v m| <;> simp [h, termSum]

theorem dense_minus_sparse (v : List ℚ) (eps x : ℚ) (n : Nat) :
    (∑ i in Finset.range n, coeffAt v i * x ^ i) - termSum (termsBelow v eps n) x =
      ∑ i in (Finset.range n).filter (fun i => |coeffAt v i| ≤ eps), coeffAt v i * x ^ i := by
  rw [termSum_termsBelow, ← Finset.sum_sub_distrib, Finset.sum_filter]
  refine Finset.sum_congr rfl (fun i _ => ?_)
  by_cases h : eps < |coeffAt v i|
  · simp [h, not_le.mpr h]
  · simp [h, not_lt.mp h]

theorem denseEval_eq_powerSum (P : vector_t ℚ) (x : ℚ) :
    Polynomial.Eval P x = some (∑ i in Finset.range P.v_.length, coeffAt P.v_ i * x ^ i) := by
  unfold Polynomial.Eval
  simp only [vector_t.get_size, Int.toNat_ofNat]
  exact Polynomial_Eval_loop P x _ (le_refl _)

/-- C8: for every dense polynomial `P` of length `n` and every `x`,
`Polynomial::Eval(x)` returns `Σ P[i] * x^i` over `i` in `[0, n)` in exact
arithmetic, with `x^0 = 1` also at `x = 0` (a constant polynomial evaluates to
its constant at `0`). -/
theorem Polynomial_Eval_is_power_sum :
    (∀ (P : vector_t ℚ) (x : ℚ),
      Polynomial.Eval P x = some (∑ i in Finset.range P.v_.length, coeffAt P.v_ i * x ^ i)) ∧
    (∀ c : ℚ, Polynomial.Eval ⟨[c]⟩ 0 = some c) := by
  refine ⟨denseEval_eq_powerSum, fun c => ?_⟩
  rw [denseEval_eq_powerSum]
  simp [coeffAt]

/-- C9: the array-backed sparse construction preserves evaluation. For every
dense polynomial `P`, tolerance `eps` and point `x`, both evaluations succeed
and, in exact arithmetic, `P.Eval(x)` minus the evaluation of the sparse
polynomial built from `P` with `eps` is the sum of the omitted terms
`P[i] * x^i` over the indices with `|P[i]| <= eps`; the two evaluations are
equal whenever every coefficient with `|P[i]| <= eps` is `0`. `[1, 0, 3]`
evaluates to `13` at `x = 2` in both forms. -/
theorem sparse_construction_preserves_eval :
    (∀ (P : vector_t ℚ) (eps x : ℚ), ∃ (s : sparse_vector_t) (d e : ℚ),
      sparse_vector_t.ofVector P eps = some s ∧
      Polynomial.Eval P x = some d ∧
      SparsePolynomial.Eval s x = some e ∧
      d - e = ∑ i in (Finset.range P.v_.length).filter (fun i => |coeffAt P.v_ i| ≤ eps),
                coeffAt P.v_ i * x ^ i ∧
      ((∀ i, i < P.v_.length → |coeffAt P.v_ i| ≤ eps → coeffAt P.v_ i = 0) → d = e)) ∧
    (Polynomial.Eval ⟨[1, 0, 3]⟩ 2 = some 13 ∧
      ∃ s, SparsePolynomial.ofPolynomial ⟨[1, 0, 3]⟩ = some s ∧
        SparsePolynomial.Eval s 2 = some 13) := by
  have key : ∀ (P : vector_t ℚ) (eps x : ℚ), ∃ (s : sparse_vector_t) (d e : ℚ),
      sparse_vector_t.ofVector P eps = some s ∧
      Polynomial.Eval P x = some d ∧
      SparsePolynomial.Eval s x = some e ∧
      d - e = ∑ i in (Finset.range P.v_.length).filter (fun i => |coeffAt P.v_ i| ≤ eps),
                coeffAt P.v_ i * x ^ i ∧
      ((∀ i, i < P.v_.length → |coeffAt P.v_ i| ≤ eps → coeffAt P.v_ i = 0) → d = e) := by
    intro P eps x
    refine ⟨_, _, _, ofVector_eq P eps, denseEval_eq_powerSum P x,
      SparsePolynomial_Eval_eq _ _ x, dense_minus_sparse P.v_ eps x _, fun h0 => ?_⟩
    have hd := dense_minus_sparse P.v_ eps x P.v_.length
    have hz : ∑ i in (Finset.range P.v_.length).filter (fun i => |coeffAt P.v_ i| ≤ eps),
        coeffAt P.v_ i * x ^ i = 0 := by
      refine Finset.sum_eq_zero (fun i hi => ?_)
      rw [Finset.mem_filter, Finset.mem_range] at hi
      rw [h0 i hi.1 hi.2, zero_mul]
    rw [hz] at hd
    exact sub_eq_zero.mp hd
  refine ⟨key, ?_, ?_⟩
  · rw [denseEval_eq_powerSum]
    norm_num [Finset.sum_range_succ, coeffAt]
  · refine ⟨_, ofVector_eq _ EPS, ?_⟩
    rw [SparsePolynomial_Eval_eq, sparseTerms, termSum_termsBelow]
    norm_num [Finset.sum_range_succ, coeffAt, EPS]

theorem sparse_construction_preserves_eval_witness :
    ∃ (s : sparse_vector_t) (d e : ℚ),
      sparse_vector_t.ofVector ⟨[1, 0, 3]⟩ EPS = some s ∧
      Polynomial.Eval ⟨[1, 0, 3]⟩ 2 = some d ∧
      SparsePolynomial.Eval s 2 = some e ∧ d = e := by
  obtain ⟨s, d, e, h1, h2, h3, _, h5⟩ :=
    sparse_construction_preserves_eval.1 ⟨[1, 0, 3]⟩ EPS 2
  refine ⟨s, d, e, h1, h2, h3, h5 ?_⟩
  intro i hi habs
  have hi3 : i < 3 := by simpa using hi
  interval_cases i
  · norm_num [coeffAt, EPS] at habs
  · simp [coeffAt]
  · norm_num [coeffAt, EPS] at habs

theorem termSum_termsBelow_at_zero (v : List ℚ) (eps : ℚ) (n : Nat) :
    termSum (termsBelow v eps n) 0 =
      if 0 < n ∧ eps < |coeffAt v 0| then coeffAt v 0 else 0 := by
  rw [termSum_termsBelow]
  cases n with
  | zero => simp
  | succ m =>
      rw [Finset.sum_range_succ']
      have hz : ∑ i in Finset.range m,
          (if eps < |coeffAt v (i + 1)| then coeffAt v (i + 1) * (0 : ℚ) ^ (i + 1) else 0) = 0 := by
        refine Finset.sum_eq_zero (fun i _ => ?_)
        simp
      rw [hz]
      simp

/-- C10: for every dense polynomial `P` and tolerance `eps`, the sparse
polynomial built from `P` with `eps` is built successfully and its `Eval(0)`
returns the constant term `P[0]` when `P` is non-empty and `|P[0]| > eps`, and
`0.0` otherwise. -/
theorem sparse_eval_at_zero_is_constant_term (P : vector_t ℚ) (eps : ℚ) :
    ∃ s : sparse_vector_t,
      sparse_vector_t.ofVector P eps = some s ∧
      SparsePolynomial.Eval s 0 =
        some (if 0 < P.get_size ∧ eps < |coeffAt P.v_ 0| then coeffAt P.v_ 0 else 0) := by
  refine ⟨_, ofVector_eq P eps, ?_⟩
  rw [SparsePolynomial_Eval_eq, sparseTerms, termSum_termsBelow_at_zero]
  simp [vector_t.get_size]

end DSA

/-! ## Stored terms of a sparse vector -/

namespace DSA

theorem storedTerms_length (s : sparse_vector_t) (h : storageInvariant s) :
    (storedTerms s).length = s.nz_.toNat := by
  unfold storedTerms storageInvariant vector_t.get_size at *
  rw [List.length_take]
  omega

theorem sparse_at_natCast (s : sparse_vector_t) (h : storageInvariant s) (i : Nat) :
    s.at_ (i : Int) = (storedTerms s)[i]? := by
  unfold storageInvariant vector_t.get_size at h
  unfold sparse_vector_t.at_ sparse_vector_t.get_nz storedTerms
  by_cases hi : (i : Int) < s.nz_
  · have h1 : i < s.nz_.toNat := by omega
    have h2 : (i : Int) < (s.pv_.v_.length : Int) := by omega
    have h3 : i < s.pv_.v_.length := by omega
    rw [List.getElem?_take_of_lt h1]
    simp [hi, vector_t.at_, vector_t.get_size, h2, h3]
  · have h1 : s.nz_.toNat ≤ i := by omega
    have h2 : (s.pv_.v_.take s.nz_.toNat).length ≤ i :=
      le_trans (List.length_take_le _ _) h1
    rw [List.getElem?_eq_none h2]
    simp [hi]

theorem storedTerms_mk (ts : List pair_t) (n : Int) :
    storedTerms ⟨⟨ts⟩, (ts.length : Int), n⟩ = ts := by
  simp [storedTerms]

theorem storageInvariant_mk (ts : List pair_t) (n : Int) :
    storageInvariant ⟨⟨ts⟩, (ts.length : Int), n⟩ := by
  simp [storageInvariant, vector_t.get_size]

theorem storageInvariant_ofSize (n : Int) : storageInvariant (sparse_vector_t.ofSize n) := by
  simp [storageInvariant, sparse_vector_t.ofSize, vector_t.get_size]

theorem foldlM_range_at {σ : Type} (s : sparse_vector_t) (h : storageInvariant s)
    (f : σ → pair_t → Option σ) (init : σ) (k : Nat) (hk : k ≤ (storedTerms s).length) :
    (List.range k).foldlM (fun st (i : Nat) => (s.at_ (i : Int)).bind (f st)) init =
      ((storedTerms s).take k).foldlM f init := by
  induction k with
  | zero => simp
  | succ m ih =>
      have hm : m < (storedTerms s).length := hk
      rw [List.range_succ, List.foldlM_append, ih (Nat.le_of_lt hm), List.take_succ,
        List.foldlM_append, List.getElem?_eq_getElem hm]
      cases hfold : List.foldlM f init (List.take m (storedTerms s)) with
      | none => simp
      | some st =>
          simp [sparse_at_natCast s h, List.getElem?_eq_getElem hm]

end DSA

/-! ## Tolerance-based equality: the dense comparator -/

namespace DSA

theorem padded_read (p : vector_t ℚ) (i : Nat) :
    (if (i : Int) < p.get_size then p.at_ (i : Int) else some 0) = some (coeffAt p.v_ i) := by
  by_cases h : i < p.v_.length
  · have h2 : (i : Int) < p.get_size := by
      unfold vector_t.get_size
      exact_mod_cast h
    rw [if_pos h2, vector_at_natCast p i h]
  · have h2 : ¬ (i : Int) < p.get_size := by
      unfold vector_t.get_size
      exact_mod_cast h
    rw [if_neg h2]
    simp [coeffAt, List.getD_eq_getElem?_getD, List.getElem?_eq_none (not_lt.mp h)]

theorem dense_isEqualLoop_eq (p q : vector_t ℚ) (eps : ℚ) (L : List Nat) :
    Polynomial.isEqualLoop p q eps L =
      some (decide (∀ i ∈ L, |coeffAt p.v_ i - coeffAt q.v_ i| ≤ eps)) := by
  induction L with
  | nil => simp [Polynomial.isEqualLoop]
  | cons i rest ih =>
      rw [Polynomial.isEqualLoop, padded_read, padded_read]
      simp only [Option.bind_eq_bind, Option.some_bind, gt_iff_lt, Option.pure_def]
      by_cases h : eps < |coeffAt p.v_ i - coeffAt q.v_ i|
      · simp [h]
      · rw [if_neg h, ih]
        simp [not_lt.mp h]

theorem dense_IsEqual_eq (p q : vector_t ℚ) (eps : ℚ) :
    Polynomial.IsEqual p q eps =
      some (decide (∀ i, i < max p.v_.length q.v_.length →
        |coeffAt p.v_ i - coeffAt q.v_ i| ≤ eps)) := by
  unfold Polynomial.IsEqual
  rw [dense_isEqualLoop_eq]
  have hn : (if p.get_size > q.get_size then p.get_size else q.get_size).toNat =
      max p.v_.length q.v_.length := by
    unfold vector_t.get_size
    split_ifs with h <;> omega
  simp only [hn, List.mem_range]

/-- C13: for every two dense polynomials `A` and `B` and every `eps`,
`A.IsEqual(B, eps)` returns (no `at` assertion fails, so no operand is read out
of bounds) and returns `true` if and only if `|a_i - b_i| <= eps` at every index
`i` below `max(len A, len B)`, positions beyond an operand's stored length
being read as `0.0`. -/
theorem dense_IsEqual_iff_within_tolerance (A B : vector_t ℚ) (eps : ℚ) :
    ∃ r : Bool, Polynomial.IsEqual A B eps = some r ∧
      (r = true ↔ ∀ i, i < max A.v_.length B.v_.length →
        |coeffAt A.v_ i - coeffAt B.v_ i| ≤ eps) := by
  refine ⟨_, dense_IsEqual_eq A B eps, ?_⟩
  simp

/-! ## Tolerance-based equality: the linked comparator -/

theorem sll_isEqualLoop_refl (eps : ℚ) (h : 0 ≤ eps) (l : List pair_t) :
    SllPolynomial.isEqualLoop eps l l = true := by
  induction l with
  | nil => simp [SllPolynomial.isEqualLoop]
  | cons a as ih =>
      rw [SllPolynomial.isEqualLoop]
      simp [ih, not_lt.mpr h]

/-! ## Tolerance-based equality: the sparse comparator -/

theorem sparse_isEqualLoop_eq (s t : sparse_vector_t) (hs : storageInvariant s)
    (ht : storageInvariant t) (eps : ℚ) (m k : Nat) (hm : k + m = (storedTerms s).length) :
    SparsePolynomial.isEqualLoop s t eps (List.range' k m) =
      positionalCompare eps ((storedTerms s).drop k) ((storedTerms t).drop k) := by
  induction m generalizing k with
  | zero =>
      have hk : (storedTerms s).length ≤ k := by omega
      simp [SparsePolynomial.isEqualLoop, List.drop_eq_nil_of_le hk, positionalCompare]
  | succ m ih =>
      have hk : k < (storedTerms s).length := by omega
      rw [List.range'_succ, SparsePolynomial.isEqualLoop, sparse_at_natCast s hs,
        sparse_at_natCast t ht, List.getElem?_eq_getElem hk, List.drop_eq_getElem_cons hk]
      by_cases hk2 : k < (storedTerms t).length
      · rw [List.getElem?_eq_getElem hk2, List.drop_eq_getElem_cons hk2, positionalCompare,
          ← ih (k + 1) (by omega)]
        simp [pair_t.get_inx, pair_t.get_val]
      · rw [List.getElem?_eq_none (not_lt.mp hk2), List.drop_eq_nil_of_le (not_lt.mp hk2),
          positionalCompare]
        simp

theorem sparse_IsEqual_eq (s t : sparse_vector_t) (hs : storageInvariant s)
    (ht : storageInvariant t) (eps : ℚ) :
    SparsePolynomial.IsEqual s t eps = positionalCompare eps (storedTerms s) (storedTerms t) := by
  unfold SparsePolynomial.IsEqual sparse_vector_t.get_nz
  rw [List.range_eq_range', sparse_isEqualLoop_eq s t hs ht eps _ 0
    (by rw [storedTerms_length s hs]; omega)]
  simp

theorem positionalCompare_refl (eps : ℚ) (h : 0 ≤ eps) (l : List pair_t) :
    positionalCompare eps l l = some true := by
  induction l with
  | nil => simp [positionalCompare]
  | cons a as ih =>
      rw [positionalCompare]
      simp [ih, not_lt.mpr h]

end DSA

/-! ## Evaluation and equality across the representations -/

namespace DSA

/-- C11: evaluation behaves identically in the two sparse representations. For
every dense vector `v`, tolerance `eps` and point `x`, both constructions
succeed, `SllPolynomial(v, eps).Eval(x)` equals the `Eval(x)` of the array-backed
sparse polynomial built from `v` with `eps`, and both are the sum of
`value * x^index` over the stored terms, which are in ascending index order. -/
theorem sparse_representations_evaluate_alike (v : vector_t ℚ) (eps x : ℚ) :
    ∃ (l : sll_t pair_t) (s : sparse_vector_t),
      SllPolynomial.ofVector v eps = some l ∧
      sparse_vector_t.ofVector v eps = some s ∧
      SparsePolynomial.Eval s x = some (SllPolynomial.Eval l x) ∧
      SllPolynomial.Eval l x = termSum l.head_ x ∧
      SparsePolynomial.Eval s x = some (termSum (storedTerms s) x) ∧
      ascending l.head_ ∧ ascending (storedTerms s) := by
  refine ⟨_, _, SllPolynomial_ofVector_eq v eps, ofVector_eq v eps, ?_, SllEval_eq _ x, ?_,
    ascending_termsBelow v.v_ eps _, ?_⟩
  · rw [SparsePolynomial_Eval_eq, SllEval_eq]
  · rw [SparsePolynomial_Eval_eq, storedTerms_mk]
  · rw [storedTerms_mk]
    exact ascending_termsBelow v.v_ eps _

/-- C12: `IsEqual` is reflexive in all three representations. For every
tolerance `eps >= 0` (the default `1e-6` is one), `P.IsEqual(P, eps)` returns
`true` for every dense polynomial `P`, `S.IsEqual(S, eps)` returns `true` for
every array-backed sparse polynomial `S` (a sparse vector whose term count lies
within its pair array, as every constructor leaves it), and `L.IsEqual(L, eps)`
returns `true` for every linked polynomial `L`. -/
theorem IsEqual_is_reflexive :
    (∀ (P : vector_t ℚ) (eps : ℚ), 0 ≤ eps → Polynomial.IsEqual P P eps = some true) ∧
    (∀ (S : sparse_vector_t) (eps : ℚ), storageInvariant S → 0 ≤ eps →
      SparsePolynomial.IsEqual S S eps = some true) ∧
    (∀ (L : sll_t pair_t) (eps : ℚ), 0 ≤ eps → SllPolynomial.IsEqual L L eps = true) ∧
    0 ≤ EPS := by
  refine ⟨fun P eps h => ?_, fun S eps hS h => ?_, fun L eps h => ?_, by norm_num [EPS]⟩
  · rw [dense_IsEqual_eq]
    simp [h]
  · rw [sparse_IsEqual_eq S S hS hS, positionalCompare_refl eps h]
  · exact sll_isEqualLoop_refl eps h L.head_

theorem IsEqual_is_reflexive_witness :
    (0 : ℚ) ≤ 1 / 1000000 ∧ storageInvariant ⟨⟨[⟨1, 0⟩, ⟨3, 2⟩]⟩, 2, 3⟩ ∧
    Polynomial.IsEqual ⟨[1, 0, 3]⟩ ⟨[1, 0, 3]⟩ (1 / 1000000) = some true ∧
    SparsePolynomial.IsEqual ⟨⟨[⟨1, 0⟩, ⟨3, 2⟩]⟩, 2, 3⟩ ⟨⟨[⟨1, 0⟩, ⟨3, 2⟩]⟩, 2, 3⟩
      (1 / 1000000) = some true ∧
    SllPolynomial.IsEqual ⟨[⟨1, 0⟩, ⟨3, 2⟩]⟩ ⟨[⟨1, 0⟩, ⟨3, 2⟩]⟩ (1 / 1000000) = true :=
  ⟨by norm_num, by decide,
    IsEqual_is_reflexive.1 ⟨[1, 0, 3]⟩ (1 / 1000000) (by norm_num),
    IsEqual_is_reflexive.2.1 ⟨⟨[⟨1, 0⟩, ⟨3, 2⟩]⟩, 2, 3⟩ (1 / 1000000) (by decide) (by norm_num),
    IsEqual_is_reflexive.2.2.1 ⟨[⟨1, 0⟩, ⟨3, 2⟩]⟩ (1 / 1000000) (by norm_num)⟩

/-- C14: the array-backed sparse `IsEqual` does not compare the term counts. For
the sparse polynomials built from `[1]` (one term) and `[1, 5]` (two terms) with
the default tolerance, `A.IsEqual(B)` returns `true` although the term counts
differ, and `B.IsEqual(A)` does not return: `A.at(1)` fails its assertion. -/
theorem sparse_IsEqual_at_different_term_counts :
    sparse_vector_t.ofVector ⟨[1]⟩ EPS = some ⟨⟨[⟨1, 0⟩]⟩, 1, 1⟩ ∧
    sparse_vector_t.ofVector ⟨[1, 5]⟩ EPS = some ⟨⟨[⟨1, 0⟩, ⟨5, 1⟩]⟩, 2, 2⟩ ∧
    SparsePolynomial.IsEqual ⟨⟨[⟨1, 0⟩]⟩, 1, 1⟩ ⟨⟨[⟨1, 0⟩, ⟨5, 1⟩]⟩, 2, 2⟩ EPS = some true ∧
    SparsePolynomial.IsEqual ⟨⟨[⟨1, 0⟩, ⟨5, 1⟩]⟩, 2, 2⟩ ⟨⟨[⟨1, 0⟩]⟩, 1, 1⟩ EPS = none := by
  refine ⟨?_, ?_, ?_, ?_⟩
  · rw [ofVector_eq]
    norm_num [sparseTerms, termsBelow, List.range_succ, List.filter_cons, coeffAt, EPS,
      vector_t.get_size]
  · rw [ofVector_eq]
    norm_num [sparseTerms, termsBelow, List.range_succ, List.filter_cons, coeffAt, EPS,
      vector_t.get_size]
  · rw [sparse_IsEqual_eq _ _ (by decide) (by decide)]
    norm_num [storedTerms, positionalCompare, EPS]
  · rw [sparse_IsEqual_eq _ _ (by decide) (by decide)]
    norm_num [storedTerms, positionalCompare, EPS]

/-- C15: the linked `IsEqual` returns `true` as soon as one chain is exhausted.
For `A = [(1, index 0)]` and `B = [(1, index 0), (2, index 1)]`, a proper prefix
and its extension, `A.IsEqual(B)` and `B.IsEqual(A)` both return `true`, and the
empty polynomial compares equal to `B`. -/
theorem linked_IsEqual_at_proper_prefix :
    SllPolynomial.IsEqual ⟨[⟨1, 0⟩]⟩ ⟨[⟨1, 0⟩, ⟨2, 1⟩]⟩ EPS = true ∧
    SllPolynomial.IsEqual ⟨[⟨1, 0⟩, ⟨2, 1⟩]⟩ ⟨[⟨1, 0⟩]⟩ EPS = true ∧
    SllPolynomial.IsEqual sll_t.empty_list ⟨[⟨1, 0⟩, ⟨2, 1⟩]⟩ EPS = true := by
  refine ⟨?_, ?_, ?_⟩ <;>
    norm_num [SllPolynomial.IsEqual, SllPolynomial.isEqualLoop, sll_t.empty_list, EPS,
      pair_t.get_inx, pair_t.get_val]

end DSA

/-! ## Tolerance-based equality: sparse against dense -/

namespace DSA

theorem storedCoeff_nil (i : Int) : storedCoeff [] i = 0 := by
  simp [storedCoeff]

theorem storedCoeff_cons_eq (p : pair_t) (ps : List pair_t) (i : Int) (h : p.inx_ = i) :
    storedCoeff (p :: ps) i = p.val_ := by
  simp [storedCoeff, List.find?_cons, h]

theorem storedCoeff_cons_ne (p : pair_t) (ps : List pair_t) (i : Int) (h : p.inx_ ≠ i) :
    storedCoeff (p :: ps) i = storedCoeff ps i := by
  simp [storedCoeff, List.find?_cons, h]

theorem storedCoeff_eq_zero (l : List pair_t) (i : Int) (h : ∀ q ∈ l, q.inx_ ≠ i) :
    storedCoeff l i = 0 := by
  induction l with
  | nil => exact storedCoeff_nil i
  | cons p ps ih =>
      rw [storedCoeff_cons_ne p ps i (h p (List.mem_cons_self _ _))]
      exact ih (fun q hq => h q (List.mem_cons_of_mem _ hq))

theorem storedCoeff_of_mem (l : List pair_t) (hasc : ascending l) (p : pair_t) (hp : p ∈ l) :
    storedCoeff l p.inx_ = p.val_ := by
  induction l with
  | nil => exact absurd hp (List.not_mem_nil _)
  | cons q qs ih =>
      have hq := List.pairwise_cons.mp hasc
      rcases List.mem_cons.mp hp with rfl | hmem
      · exact storedCoeff_cons_eq _ _ _ rfl
      · rw [storedCoeff_cons_ne q qs _ (ne_of_lt (hq.1 p hmem))]
        exact ih hq.2 hmem

theorem isEqualDenseLoop_eq (s : sparse_vector_t) (hs : storageInvariant s) (pol : vector_t ℚ)
    (eps : ℚ) (L : List Nat) (j : Nat) :
    SparsePolynomial.isEqualDenseLoop s pol eps L (j : Int) =
      some (alignedCompare eps pol.v_ ((storedTerms s).drop j) L) := by
  induction L generalizing j with
  | nil => simp [SparsePolynomial.isEqualDenseLoop, alignedCompare]
  | cons i rest ih =>
      rw [SparsePolynomial.isEqualDenseLoop, padded_read, sparse_at_natCast s hs]
      have hlen := storedTerms_length s hs
      by_cases hj : j < (storedTerms s).length
      · have hj2 : (j : Int) < s.get_nz := by
          unfold sparse_vector_t.get_nz
          omega
        rw [if_pos hj2, List.getElem?_eq_getElem hj, List.drop_eq_getElem_cons hj,
          alignedCompare]
        by_cases hit : ((storedTerms s)[j]).inx_ = (i : Int)
        · have h1 := ih (j + 1)
          push_cast at h1
          by_cases hgt : eps < |((storedTerms s)[j]).val_ - coeffAt pol.v_ i|
          · simp [hit, hgt, pair_t.get_inx, pair_t.get_val]
          · simp [hit, hgt, pair_t.get_inx, pair_t.get_val, h1]
        · have h1 := ih j
          rw [List.drop_eq_getElem_cons hj] at h1
          by_cases hgt : eps < |coeffAt pol.v_ i|
          · simp [hit, hgt, pair_t.get_inx]
          · simp [hit, hgt, pair_t.get_inx, h1]
      · have hj2 : ¬ (j : Int) < s.get_nz := by
          unfold sparse_vector_t.get_nz
          omega
        have h1 := ih j
        rw [List.drop_eq_nil_of_le (not_lt.mp hj)] at h1 ⊢
        rw [if_neg hj2, alignedCompare]
        by_cases hgt : eps < |coeffAt pol.v_ i|
        · simp [hgt]
        · simp [hgt, h1]

theorem alignedCompare_eq (eps : ℚ) (pol : List ℚ) (m : Nat) (i0 : Nat) (R : List pair_t)
    (hasc : ascending R) (hlb : ∀ p ∈ R, (i0 : Int) ≤ p.inx_) :
    alignedCompare eps pol R (List.range' i0 m) =
      decide (∀ i ∈ List.range' i0 m, |storedCoeff R (i : Int) - coeffAt pol i| ≤ eps) := by
  induction m generalizing i0 R with
  | zero => simp [alignedCompare]
  | succ m ih =>
      rw [List.range'_succ]
      have hshift : ∀ (R' : List pair_t),
          (∀ i ∈ List.range' (i0 + 1) m, storedCoeff R' (i : Int) = storedCoeff R (i : Int)) →
          ((∀ i ∈ List.range' (i0 + 1) m, |storedCoeff R' (i : Int) - coeffAt pol i| ≤ eps) ↔
            (∀ i ∈ List.range' (i0 + 1) m, |storedCoeff R (i : Int) - coeffAt pol i| ≤ eps)) := by
        intro R' h
        constructor
        · intro h2 i hi
          rw [← h i hi]
          exact h2 i hi
        · intro h2 i hi
          rw [h i hi]
          exact h2 i hi
      cases R with
      | nil =>
          rw [alignedCompare, ih (i0 + 1) [] hasc (fun p hp => absurd hp (List.not_mem_nil _))]
          simp only [List.forall_mem_cons, storedCoeff_nil, gt_iff_lt]
          by_cases hgt : eps < |coeffAt pol i0|
          · simp [hgt]
          · simp [hgt, not_lt.mp hgt]
      | cons p ps =>
          have hp := List.pairwise_cons.mp hasc
          rw [alignedCompare]
          by_cases hit : p.inx_ = (i0 : Int)
          · have hps : ∀ q ∈ ps, ((i0 + 1 : Nat) : Int) ≤ q.inx_ := by
              intro q hq
              have := hp.1 q hq
              push_cast
              omega
            have hcongr : ∀ i ∈ List.range' (i0 + 1) m,
                storedCoeff ps (i : Int) = storedCoeff (p :: ps) (i : Int) := by
              intro i hi
              have hi2 := (List.mem_range'_1.mp hi).1
              rw [storedCoeff_cons_ne p ps _ (by omega)]
            rw [if_pos hit, ih (i0 + 1) ps hp.2 hps]
            simp only [List.forall_mem_cons, storedCoeff_cons_eq p ps _ hit, gt_iff_lt,
              hshift ps hcongr]
            by_cases hgt : eps < |p.val_ - coeffAt pol i0|
            · simp [hgt]
            · simp [hgt, not_lt.mp hgt]
          · have hlt : (i0 : Int) < p.inx_ :=
              lt_of_le_of_ne (hlb p (List.mem_cons_self _ _)) (Ne.symm hit)
            have hR : ∀ q ∈ p :: ps, ((i0 + 1 : Nat) : Int) ≤ q.inx_ := by
              intro q hq
              push_cast
              rcases List.mem_cons.mp hq with rfl | hq
              · omega
              · have := hp.1 q hq
                omega
            have hzero : storedCoeff (p :: ps) (i0 : Int) = 0 := by
              refine storedCoeff_eq_zero _ _ (fun q hq => ?_)
              have := hR q hq
              push_cast at this
              omega
            rw [if_neg hit, ih (i0 + 1) (p :: ps) hasc hR]
            simp only [List.forall_mem_cons, hzero, gt_iff_lt]
            by_cases hgt : eps < |coeffAt pol i0|
            · simp [hgt]
            · simp [hgt, not_lt.mp hgt]

theorem IsEqualDense_eq (s : sparse_vector_t) (hs : storageInvariant s) (pol : vector_t ℚ)
    (eps : ℚ) (hasc : ascending (storedTerms s)) (hlb : ∀ p ∈ storedTerms s, 0 ≤ p.inx_) :
    SparsePolynomial.IsEqualDense s pol eps =
      some (decide (∀ i, i < (max s.get_n pol.get_size).toNat →
        |storedCoeff (storedTerms s) (i : Int) - coeffAt pol.v_ i| ≤ eps)) := by
  unfold SparsePolynomial.IsEqualDense
  have h0 := isEqualDenseLoop_eq s hs pol eps
    (List.range (if s.get_n > pol.get_size then s.get_n else pol.get_size).toNat) 0
  simp only [Nat.cast_zero, List.drop_zero] at h0
  rw [h0, List.range_eq_range', alignedCompare_eq eps pol.v_ _ 0 _ hasc
    (fun p hp => by simpa using hlb p hp)]
  have hn : (if s.get_n > pol.get_size then s.get_n else pol.get_size) =
      max s.get_n pol.get_size := by
    split_ifs with h
    · exact (max_eq_left (le_of_lt h)).symm
    · exact (max_eq_right (not_lt.mp h)).symm
  rw [hn]
  congr 1
  apply decide_eq_decide.mpr
  constructor
  · intro h i hi
    exact h i (List.mem_range'_1.mpr ⟨Nat.zero_le _, by omega⟩)
  · intro h i hi
    exact h i (by have := (List.mem_range'_1.mp hi).2; omega)

/-- C16: for every array-backed sparse polynomial `S` whose stored indices are
strictly ascending and lie in `[0, get_n())`, every dense polynomial `P` and
every `eps`, `S.IsEqual(P, eps)` returns, and returns `true` if and only if
`|s_i - p_i| <= eps` at every position `i` below `max(S.get_n(), P.get_size())`,
where `s_i` is the coefficient `S` stores at index `i` (`0` if none) and `p_i`
is `P[i]` (`0` beyond the length of `P`). -/
theorem sparse_IsEqual_dense_iff_within_tolerance (S : sparse_vector_t) (P : vector_t ℚ)
    (eps : ℚ) (hS : storageInvariant S) (hasc : ascending (storedTerms S))
    (hidx : ∀ p ∈ storedTerms S, 0 ≤ p.inx_ ∧ p.inx_ < S.get_n) :
    ∃ r : Bool, SparsePolynomial.IsEqualDense S P eps = some r ∧
      (r = true ↔ ∀ i : Nat, (i : Int) < max S.get_n P.get_size →
        |storedCoeff (storedTerms S) (i : Int) - coeffAt P.v_ i| ≤ eps) := by
  refine ⟨_, IsEqualDense_eq S hS P eps hasc (fun p hp => (hidx p hp).1), ?_⟩
  rw [decide_eq_true_iff]
  constructor
  · intro h i hi
    exact h i (by omega)
  · intro h i hi
    exact h i (by omega)

theorem sparse_IsEqual_dense_iff_within_tolerance_witness :
    storageInvariant ⟨⟨[⟨1, 0⟩, ⟨3, 2⟩]⟩, 2, 3⟩ ∧
    ascending (storedTerms ⟨⟨[⟨1, 0⟩, ⟨3, 2⟩]⟩, 2, 3⟩) ∧
    (∀ p ∈ storedTerms ⟨⟨[⟨1, 0⟩, ⟨3, 2⟩]⟩, 2, 3⟩,
      0 ≤ p.inx_ ∧ p.inx_ < sparse_vector_t.get_n ⟨⟨[⟨1, 0⟩, ⟨3, 2⟩]⟩, 2, 3⟩) ∧
    ∃ r : Bool, SparsePolynomial.IsEqualDense ⟨⟨[⟨1, 0⟩, ⟨3, 2⟩]⟩, 2, 3⟩ ⟨[1, 0, 3, 7]⟩ EPS = some r ∧
      (r = true ↔ ∀ i : Nat,
        (i : Int) < max (sparse_vector_t.get_n ⟨⟨[⟨1, 0⟩, ⟨3, 2⟩]⟩, 2, 3⟩)
          (vector_t.get_size (⟨[1, 0, 3, 7]⟩ : vector_t ℚ)) →
        |storedCoeff (storedTerms ⟨⟨[⟨1, 0⟩, ⟨3, 2⟩]⟩, 2, 3⟩) (i : Int) -
          coeffAt [1, 0, 3, 7] i| ≤ EPS) :=
  ⟨by decide, by decide, by decide,
    sparse_IsEqual_dense_iff_within_tolerance ⟨⟨[⟨1, 0⟩, ⟨3, 2⟩]⟩, 2, 3⟩ ⟨[1, 0, 3, 7]⟩ EPS
      (by decide) (by decide) (by decide)⟩

end DSA

/-! ## Equality of a sparse polynomial with its source and with its extensions -/

namespace DSA

theorem storedCoeff_termsBelow (v : List ℚ) (eps : ℚ) (k i : Nat) :
    storedCoeff (termsBelow v eps k) (i : Int) =
      if i < k ∧ eps < |coeffAt v i| then coeffAt v i else 0 := by
  by_cases h : i < k ∧ eps < |coeffAt v i|
  · rw [if_pos h]
    have hmem : (⟨coeffAt v i, (i : Int)⟩ : pair_t) ∈ termsBelow v eps k :=
      (mem_termsBelow v eps k _).mpr ⟨i, h.1, h.2, rfl⟩
    exact storedCoeff_of_mem _ (ascending_termsBelow v eps k) _ hmem
  · rw [if_neg h]
    refine storedCoeff_eq_zero _ _ (fun q hq => ?_)
    obtain ⟨j, hj1, hj2, rfl⟩ := (mem_termsBelow v eps k q).mp hq
    intro hji
    have hji1 : (j : Int) = (i : Int) := hji
    have hji2 : j = i := by exact_mod_cast hji1
    subst hji2
    exact h ⟨hj1, hj2⟩

/-- C17: a sparse polynomial compares equal to the dense polynomial it was
derived from. For every dense polynomial `P` and every `eps >= 0`, the sparse
polynomial built from `P` with `eps` is built successfully and its
`IsEqual(P, eps)` returns `true`. -/
theorem sparse_IsEqual_its_dense_source (P : vector_t ℚ) (eps : ℚ) (h : 0 ≤ eps) :
    ∃ s : sparse_vector_t, sparse_vector_t.ofVector P eps = some s ∧
      SparsePolynomial.IsEqualDense s P eps = some true := by
  refine ⟨_, ofVector_eq P eps, ?_⟩
  have hterms := storedTerms_mk (sparseTerms P.v_ eps) P.get_size
  rw [IsEqualDense_eq _ (storageInvariant_mk _ _) P eps
    (by rw [hterms]; exact ascending_termsBelow _ _ _)
    (by
      rw [hterms]
      intro p hp
      exact ((sparseInvariant_sparseTerms P.v_ eps).2.2 p hp).1)]
  rw [hterms]
  congr 1
  rw [decide_eq_true_iff]
  intro i _
  rw [sparseTerms, storedCoeff_termsBelow]
  by_cases hc : i < P.v_.length ∧ eps < |coeffAt P.v_ i|
  · rw [if_pos hc, sub_self, abs_zero]
    exact h
  · rw [if_neg hc, zero_sub, abs_neg]
    by_cases hi : i < P.v_.length
    · exact not_lt.mp (fun hlt => hc ⟨hi, hlt⟩)
    · have : coeffAt P.v_ i = 0 := by
        simp [coeffAt, List.getD_eq_getElem?_getD, List.getElem?_eq_none (not_lt.mp hi)]
      rw [this, abs_zero]
      exact h

theorem sparse_IsEqual_its_dense_source_witness :
    (0 : ℚ) ≤ 1 / 2 ∧
    ∃ s : sparse_vector_t, sparse_vector_t.ofVector ⟨[1, 1 / 4, 3]⟩ (1 / 2) = some s ∧
      SparsePolynomial.IsEqualDense s ⟨[1, 1 / 4, 3]⟩ (1 / 2) = some true :=
  ⟨by norm_num, sparse_IsEqual_its_dense_source ⟨[1, 1 / 4, 3]⟩ (1 / 2) (by norm_num)⟩

theorem termsBelow_congr (v w : List ℚ) (eps : ℚ) (k : Nat)
    (h : ∀ i, i < k → coeffAt v i = coeffAt w i) :
    termsBelow v eps k = termsBelow w eps k := by
  induction k with
  | zero => rw [termsBelow_zero, termsBelow_zero]
  | succ m ih =>
      rw [termsBelow_succ, termsBelow_succ, ih (fun i hi => h i (Nat.lt_succ_of_lt hi)),
        h m (Nat.lt_succ_self m)]

theorem termsBelow_negligible_tail (v : List ℚ) (eps : ℚ) (k m : Nat)
    (h : ∀ i, k ≤ i → i < k + m → |coeffAt v i| ≤ eps) :
    termsBelow v eps (k + m) = termsBelow v eps k := by
  induction m with
  | zero => rfl
  | succ m ih =>
      have hneg : ¬ eps < |coeffAt v (k + m)| :=
        not_lt.mpr (h (k + m) (Nat.le_add_right _ _) (by omega))
      rw [← Nat.add_assoc, termsBelow_succ, if_neg hneg, List.append_nil]
      exact ih (fun i h1 h2 => h i h1 (by omega))

theorem coeffAt_append_left (P E : List ℚ) (i : Nat) (h : i < P.length) :
    coeffAt (P ++ E) i = coeffAt P i := by
  simp [coeffAt, List.getD_eq_getElem?_getD, List.getElem?_append_left h]

theorem coeffAt_append_right (P E : List ℚ) (i : Nat) (h : P.length ≤ i) :
    coeffAt (P ++ E) i = coeffAt E (i - P.length) := by
  simp [coeffAt, List.getD_eq_getElem?_getD, List.getElem?_append_right h]

theorem coeffAt_negligible (E : List ℚ) (eps : ℚ) (h0 : 0 ≤ eps) (hE : ∀ c ∈ E, |c| ≤ eps)
    (i : Nat) : |coeffAt E i| ≤ eps := by
  by_cases hi : i < E.length
  · have : coeffAt E i = E[i] := by
      simp [coeffAt, List.getD_eq_getElem?_getD, List.getElem?_eq_getElem hi]
    rw [this]
    exact hE _ (List.getElem_mem _)
  · have : coeffAt E i = 0 := by
      simp [coeffAt, List.getD_eq_getElem?_getD, List.getElem?_eq_none (not_lt.mp hi)]
    rw [this, abs_zero]
    exact h0

theorem sparseTerms_append_negligible (P E : List ℚ) (eps : ℚ) (h0 : 0 ≤ eps)
    (hE : ∀ c ∈ E, |c| ≤ eps) :
    sparseTerms (P ++ E) eps = sparseTerms P eps := by
  unfold sparseTerms
  rw [List.length_append, termsBelow_negligible_tail (P ++ E) eps P.length E.length
    (fun i h1 _ => by
      rw [coeffAt_append_right P E i h1]
      exact coeffAt_negligible E eps h0 hE _)]
  exact termsBelow_congr _ _ eps _ (fun i hi => coeffAt_append_left P E i hi)

/-- C18: array-backed sparse equality ignores the total length. For every dense
polynomial `P`, every `Q = P ++ E` obtained by appending negligible
coefficients (`|c| <= eps`) and every `eps >= 0`, the sparse polynomials built
from `P` and from `Q` with `eps` compare equal in both directions, although
their `get_n()` differ as soon as something was appended. -/
theorem sparse_IsEqual_ignores_total_length (P : vector_t ℚ) (E : List ℚ) (eps : ℚ)
    (h0 : 0 ≤ eps) (hE : ∀ c ∈ E, |c| ≤ eps) :
    ∃ s t : sparse_vector_t,
      sparse_vector_t.ofVector P eps = some s ∧
      sparse_vector_t.ofVector ⟨P.v_ ++ E⟩ eps = some t ∧
      SparsePolynomial.IsEqual s t eps = some true ∧
      SparsePolynomial.IsEqual t s eps = some true ∧
      (E ≠ [] → s.get_n ≠ t.get_n) := by
  refine ⟨_, _, ofVector_eq P eps, ofVector_eq _ eps, ?_, ?_, ?_⟩
  · rw [sparse_IsEqual_eq _ _ (storageInvariant_mk _ _) (storageInvariant_mk _ _),
      storedTerms_mk, storedTerms_mk, sparseTerms_append_negligible P.v_ E eps h0 hE]
    exact positionalCompare_refl eps h0 _
  · rw [sparse_IsEqual_eq _ _ (storageInvariant_mk _ _) (storageInvariant_mk _ _),
      storedTerms_mk, storedTerms_mk, sparseTerms_append_negligible P.v_ E eps h0 hE]
    exact positionalCompare_refl eps h0 _
  · intro hne
    have hlen : 0 < E.length := List.length_pos.mpr hne
    simp only [sparse_vector_t.get_n, vector_t.get_size, List.length_append, ne_eq]
    omega

theorem sparse_IsEqual_ignores_total_length_witness :
    (0 : ℚ) ≤ 1 / 2 ∧ (∀ c ∈ [(1 / 4 : ℚ), 0], |c| ≤ 1 / 2) ∧
    ∃ s t : sparse_vector_t,
      sparse_vector_t.ofVector ⟨[1, 0, 3]⟩ (1 / 2) = some s ∧
      sparse_vector_t.ofVector ⟨[1, 0, 3] ++ [1 / 4, 0]⟩ (1 / 2) = some t ∧
      SparsePolynomial.IsEqual s t (1 / 2) = some true ∧
      SparsePolynomial.IsEqual t s (1 / 2) = some true ∧
      ([(1 / 4 : ℚ), 0] ≠ [] → s.get_n ≠ t.get_n) :=
  ⟨by norm_num, by norm_num [abs_le],
    sparse_IsEqual_ignores_total_length ⟨[1, 0, 3]⟩ [1 / 4, 0] (1 / 2) (by norm_num)
      (by norm_num [abs_le])⟩

end DSA

/-! ## Equality across the dense and the sparse representation -/

namespace DSA

theorem positionalCompare_of_length_eq (eps : ℚ) (A B : List pair_t)
    (h : A.length = B.length) :
    ∃ b : Bool, positionalCompare eps A B = some b ∧
      (b = true ↔ List.Forall₂ (termsAgree eps) A B) := by
  induction A generalizing B with
  | nil =>
      cases B with
      | nil => exact ⟨true, by simp [positionalCompare], by simp⟩
      | cons b bs => simp at h
  | cons a as ih =>
      cases B with
      | nil => simp at h
      | cons b bs =>
          obtain ⟨r, hr1, hr2⟩ := ih bs (by simpa using h)
          rw [positionalCompare]
          by_cases hab : a.inx_ ≠ b.inx_ ∨ |a.val_ - b.val_| > eps
          · refine ⟨false, by rw [if_pos hab], ?_⟩
            simp only [List.forall₂_cons, termsAgree, Bool.false_eq_true, false_iff, not_and]
            intro h1 _
            rcases hab with h2 | h2
            · exact h2 h1.1
            · exact absurd h1.2 (not_le.mpr h2)
          · refine ⟨r, by rw [if_neg hab, hr1], ?_⟩
            rw [hr2, List.forall₂_cons]
            have hagree : termsAgree eps a b := by
              unfold termsAgree
              constructor
              · by_contra hne
                exact hab (Or.inl hne)
              · by_contra hgt
                exact hab (Or.inr (not_le.mp hgt))
            exact ⟨fun h2 => ⟨hagree, h2⟩, fun h2 => h2.2⟩

theorem forall₂_exists_right {R : pair_t → pair_t → Prop} {A B : List pair_t}
    (h : List.Forall₂ R A B) : ∀ a ∈ A, ∃ b ∈ B, R a b := by
  induction h with
  | nil => intro a ha; exact absurd ha (List.not_mem_nil _)
  | cons hab _ ih =>
      intro a ha
      rcases List.mem_cons.mp ha with rfl | ha
      · exact ⟨_, List.mem_cons_self _ _, hab⟩
      · obtain ⟨b, hb, hr⟩ := ih a ha
        exact ⟨b, List.mem_cons_of_mem _ hb, hr⟩

theorem forall₂_exists_left {R : pair_t → pair_t → Prop} {A B : List pair_t}
    (h : List.Forall₂ R A B) : ∀ b ∈ B, ∃ a ∈ A, R a b := by
  induction h with
  | nil => intro b hb; exact absurd hb (List.not_mem_nil _)
  | cons hab _ ih =>
      intro b hb
      rcases List.mem_cons.mp hb with rfl | hb
      · exact ⟨_, List.mem_cons_self _ _, hab⟩
      · obtain ⟨a, ha, hr⟩ := ih b hb
        exact ⟨a, List.mem_cons_of_mem _ ha, hr⟩

theorem coeffAt_exact (v : List ℚ) (eps : ℚ) (hv : ∀ c ∈ v, c = 0 ∨ eps < |c|) (i : Nat) :
    coeffAt v i = 0 ∨ eps < |coeffAt v i| := by
  by_cases hi : i < v.length
  · have : coeffAt v i = v[i] := by
      simp [coeffAt, List.getD_eq_getElem?_getD, List.getElem?_eq_getElem hi]
    rw [this]
    exact hv _ (List.getElem_mem _)
  · left
    simp [coeffAt, List.getD_eq_getElem?_getD, List.getElem?_eq_none (not_lt.mp hi)]

theorem coeffAt_beyond (v : List ℚ) (i : Nat) (hi : v.length ≤ i) : coeffAt v i = 0 := by
  simp [coeffAt, List.getD_eq_getElem?_getD, List.getElem?_eq_none hi]

theorem mem_sparseTerms_of_stored (v : List ℚ) (eps : ℚ) (h0 : 0 ≤ eps) (i : Nat)
    (hi : eps < |coeffAt v i|) : (⟨coeffAt v i, (i : Int)⟩ : pair_t) ∈ sparseTerms v eps := by
  refine (mem_termsBelow v eps _ _).mpr ⟨i, ?_, hi, rfl⟩
  by_contra hlen
  rw [coeffAt_beyond v i (not_lt.mp hlen), abs_zero] at hi
  exact absurd hi (not_lt.mpr h0)

theorem sparseTerms_eq_termsBelow (v : List ℚ) (eps : ℚ) (h0 : 0 ≤ eps) (N : Nat)
    (hN : v.length ≤ N) : sparseTerms v eps = termsBelow v eps N := by
  obtain ⟨m, rfl⟩ := Nat.exists_eq_add_of_le hN
  rw [termsBelow_negligible_tail v eps v.length m (fun i h1 _ => by
    rw [coeffAt_beyond v i h1, abs_zero]
    exact h0)]
  rfl

theorem forall₂_termsBelow (P Q : List ℚ) (eps : ℚ)
    (hP : ∀ i, coeffAt P i = 0 ∨ eps < |coeffAt P i|)
    (hQ : ∀ i, coeffAt Q i = 0 ∨ eps < |coeffAt Q i|) (k : Nat)
    (hD : ∀ i, i < k → |coeffAt P i - coeffAt Q i| ≤ eps) :
    List.Forall₂ (termsAgree eps) (termsBelow P eps k) (termsBelow Q eps k) := by
  induction k with
  | zero =>
      rw [termsBelow_zero, termsBelow_zero]
      exact List.Forall₂.nil
  | succ m ih =>
      have hm := hD m (Nat.lt_succ_self m)
      rw [termsBelow_succ, termsBelow_succ]
      refine List.rel_append (ih (fun i hi => hD i (Nat.lt_succ_of_lt hi))) ?_
      by_cases h1 : eps < |coeffAt P m| <;> by_cases h2 : eps < |coeffAt Q m|
      · rw [if_pos h1, if_pos h2]
        exact List.Forall₂.cons ⟨rfl, hm⟩ List.Forall₂.nil
      · rcases hQ m with hz | hz
        · rw [hz, sub_zero] at hm
          exact absurd hm (not_le.mpr h1)
        · exact absurd hz h2
      · rcases hP m with hz | hz
        · rw [hz, zero_sub, abs_neg] at hm
          exact absurd hm (not_le.mpr h2)
        · exact absurd hz h1
      · rw [if_neg h1, if_neg h2]
        exact List.Forall₂.nil

theorem within_tolerance_of_forall₂ (P Q : List ℚ) (eps : ℚ) (h0 : 0 ≤ eps)
    (hP : ∀ i, coeffAt P i = 0 ∨ eps < |coeffAt P i|)
    (hQ : ∀ i, coeffAt Q i = 0 ∨ eps < |coeffAt Q i|)
    (h : List.Forall₂ (termsAgree eps) (sparseTerms P eps) (sparseTerms Q eps)) (i : Nat) :
    |coeffAt P i - coeffAt Q i| ≤ eps := by
  rcases hP i with hp | hp
  · rcases hQ i with hq | hq
    · rw [hp, hq, sub_zero, abs_zero]
      exact h0
    · obtain ⟨a, ha, hagree⟩ := forall₂_exists_left h _ (mem_sparseTerms_of_stored Q eps h0 i hq)
      obtain ⟨j, _, _, rfl⟩ := (mem_termsBelow P eps _ a).mp ha
      have hji1 : (j : Int) = (i : Int) := hagree.1
      have hji : j = i := by exact_mod_cast hji1
      subst hji
      exact hagree.2
  · obtain ⟨b, hb, hagree⟩ := forall₂_exists_right h _ (mem_sparseTerms_of_stored P eps h0 i hp)
    obtain ⟨j, _, _, rfl⟩ := (mem_termsBelow Q eps _ b).mp hb
    have hji1 : (i : Int) = (j : Int) := hagree.1
    have hji : i = j := by exact_mod_cast hji1
    subst hji
    exact hagree.2

/-- C19 (counterexample): with the default tolerance `1e-6`, the dense
polynomials `[0.6e-6, 1.2e-6]` and `[1.2e-6, 0.6e-6]` compare equal
(`|a_i - b_i| = 0.6e-6` at both positions), while their sparse forms store the
single terms `(1.2e-6, index 1)` and `(1.2e-6, index 0)` and compare unequal. -/
theorem sparse_and_dense_IsEqual_disagree :
    sparse_vector_t.ofVector ⟨[6 / 10000000, 12 / 10000000]⟩ EPS =
      some ⟨⟨[⟨12 / 10000000, 1⟩]⟩, 1, 2⟩ ∧
    sparse_vector_t.ofVector ⟨[12 / 10000000, 6 / 10000000]⟩ EPS =
      some ⟨⟨[⟨12 / 10000000, 0⟩]⟩, 1, 2⟩ ∧
    SparsePolynomial.IsEqual ⟨⟨[⟨12 / 10000000, 1⟩]⟩, 1, 2⟩ ⟨⟨[⟨12 / 10000000, 0⟩]⟩, 1, 2⟩ EPS =
      some false ∧
    Polynomial.IsEqual ⟨[6 / 10000000, 12 / 10000000]⟩ ⟨[12 / 10000000, 6 / 10000000]⟩ EPS =
      some true := by
  refine ⟨?_, ?_, ?_, ?_⟩
  · rw [ofVector_eq]
    norm_num [sparseTerms, termsBelow, List.range_succ, List.filter_cons, coeffAt, EPS,
      vector_t.get_size, abs_of_pos]
  · rw [ofVector_eq]
    norm_num [sparseTerms, termsBelow, List.range_succ, List.filter_cons, coeffAt, EPS,
      vector_t.get_size, abs_of_pos]
  · rw [sparse_IsEqual_eq _ _ (by decide) (by decide)]
    norm_num [storedTerms, positionalCompare, EPS]
  · rw [dense_IsEqual_eq]
    congr 1
    rw [decide_eq_true_iff]
    intro i hi
    have hi2 : i < 2 := by simpa using hi
    interval_cases i <;> norm_num [coeffAt, EPS, abs_le]

/-- C19 (amended): for every two dense polynomials `P` and `Q` whose
coefficients are each exactly `0` or above `eps` in absolute value, and every
`eps >= 0`, both sparse forms are built, and whenever they store the same number
of terms the sparse `IsEqual` returns, with the same verdict as
`P.IsEqual(Q, eps)`. -/
theorem sparse_and_dense_IsEqual_agree_on_exact_zeros (P Q : vector_t ℚ) (eps : ℚ)
    (h0 : 0 ≤ eps) (hP : ∀ c ∈ P.v_, c = 0 ∨ eps < |c|) (hQ : ∀ c ∈ Q.v_, c = 0 ∨ eps < |c|) :
    ∃ s t : sparse_vector_t,
      sparse_vector_t.ofVector P eps = some s ∧
      sparse_vector_t.ofVector Q eps = some t ∧
      (s.get_nz = t.get_nz →
        ∃ b : Bool, SparsePolynomial.IsEqual s t eps = some b ∧
          Polynomial.IsEqual P Q eps = some b) := by
  refine ⟨_, _, ofVector_eq P eps, ofVector_eq Q eps, fun hnz => ?_⟩
  have hlen : (sparseTerms P.v_ eps).length = (sparseTerms Q.v_ eps).length := by
    simp only [sparse_vector_t.get_nz] at hnz
    exact_mod_cast hnz
  obtain ⟨b, hb1, hb2⟩ := positionalCompare_of_length_eq eps _ _ hlen
  refine ⟨b, ?_, ?_⟩
  · rw [sparse_IsEqual_eq _ _ (storageInvariant_mk _ _) (storageInvariant_mk _ _),
      storedTerms_mk, storedTerms_mk]
    exact hb1
  · rw [dense_IsEqual_eq]
    congr 1
    have hPi := coeffAt_exact P.v_ eps hP
    have hQi := coeffAt_exact Q.v_ eps hQ
    rw [Bool.eq_iff_iff, decide_eq_true_iff, hb2]
    constructor
    · intro hD
      rw [sparseTerms_eq_termsBelow P.v_ eps h0 _ (le_max_left P.v_.length Q.v_.length),
        sparseTerms_eq_termsBelow Q.v_ eps h0 _ (le_max_right P.v_.length Q.v_.length)]
      exact forall₂_termsBelow P.v_ Q.v_ eps hPi hQi _ hD
    · intro hF i _
      exact within_tolerance_of_forall₂ P.v_ Q.v_ eps h0 hPi hQi hF i

theorem sparse_and_dense_IsEqual_agree_on_exact_zeros_witness :
    ∃ s t : sparse_vector_t,
      sparse_vector_t.ofVector ⟨[1, 0, 3]⟩ (1 / 2) = some s ∧
      sparse_vector_t.ofVector ⟨[1, 0, 2, 0]⟩ (1 / 2) = some t ∧
      ∃ b : Bool, SparsePolynomial.IsEqual s t (1 / 2) = some b ∧
        Polynomial.IsEqual ⟨[1, 0, 3]⟩ ⟨[1, 0, 2, 0]⟩ (1 / 2) = some b := by
  obtain ⟨s, t, hs, ht, h⟩ :=
    sparse_and_dense_IsEqual_agree_on_exact_zeros ⟨[1, 0, 3]⟩ ⟨[1, 0, 2, 0]⟩ (1 / 2)
      (by norm_num) (by norm_num) (by norm_num)
  refine ⟨s, t, hs, ht, h ?_⟩
  rw [ofVector_eq] at hs ht
  rw [← Option.some.inj hs, ← Option.some.inj ht]
  norm_num [sparse_vector_t.get_nz, sparseTerms, termsBelow, List.range_succ, List.filter_cons,
    coeffAt]

end DSA

/-! ## `AverageOfOddDegreeCoefficients` -/

namespace DSA

theorem tmod_two_ne_zero_iff (x : Int) : x.tmod 2 ≠ 0 ↔ x % 2 = 1 := by
  rw [Ne, ← Int.dvd_iff_tmod_eq_zero, Int.dvd_iff_emod_eq_zero]
  omega

theorem oddLoop_eq (l : List pair_t) (a c : ℚ) :
    l.foldlM
        (fun (st : ℚ × ℚ) (p : pair_t) =>
          if p.get_inx.tmod 2 ≠ 0 then some (st.1 + p.get_val, st.2 + 1) else some st)
        (a, c) =
      some (a + ((l.filter (fun p => decide (p.inx_ % 2 = 1))).map pair_t.get_val).sum,
        c + ((l.filter (fun p => decide (p.inx_ % 2 = 1))).length : ℚ)) := by
  induction l generalizing a c with
  | nil => simp
  | cons p ps ih =>
      rw [List.foldlM_cons]
      by_cases h : p.inx_ % 2 = 1
      · have h2 : p.get_inx.tmod 2 ≠ 0 := (tmod_two_ne_zero_iff _).mpr h
        rw [if_pos h2]
        simp only [Option.bind_eq_bind, Option.some_bind]
        rw [ih, List.filter_cons_of_pos (by simpa using h)]
        simp only [List.map_cons, List.sum_cons, List.length_cons, Nat.cast_add, Nat.cast_one]
        congr 2 <;> ring
      · have h2 : ¬ p.get_inx.tmod 2 ≠ 0 := fun h3 => h ((tmod_two_ne_zero_iff _).mp h3)
        rw [if_neg h2]
        simp only [Option.bind_eq_bind, Option.some_bind]
        rw [ih, List.filter_cons_of_neg (by simpa using h)]

theorem AverageOfOdd_eq (s : sparse_vector_t) (hs : storageInvariant s) :
    SparsePolynomial.AverageOfOddDegreeCoefficients s =
      some (if oddTerms s = [] then 0
        else ((oddTerms s).map pair_t.get_val).sum / ((oddTerms s).length : ℚ)) := by
  unfold SparsePolynomial.AverageOfOddDegreeCoefficients
  have hloop := foldlM_range_at s hs
    (fun (st : ℚ × ℚ) (p : pair_t) =>
      if p.get_inx.tmod 2 ≠ 0 then some (st.1 + p.get_val, st.2 + 1) else some st)
    (0, 0) (storedTerms s).length (le_refl _)
  rw [List.take_length, oddLoop_eq, storedTerms_length s hs] at hloop
  have hfun : (fun (st : ℚ × ℚ) (i : Nat) => do
        let p ← s.at_ (i : Int)
        if p.get_inx.tmod 2 ≠ 0 then
          let coef := p.get_val
          pure (st.1 + coef, st.2 + 1)
        else
          pure st) =
      (fun (st : ℚ × ℚ) (i : Nat) => (s.at_ (i : Int)).bind
        (fun (p : pair_t) =>
          if p.get_inx.tmod 2 ≠ 0 then some (st.1 + p.get_val, st.2 + 1) else some st)) := rfl
  rw [sparse_vector_t.get_nz, hfun, hloop]
  simp only [Option.bind_eq_bind, Option.some_bind, Option.pure_def, zero_add, oddTerms]
  congr 1
  by_cases hnil : List.filter (fun p => decide (p.inx_ % 2 = 1)) (storedTerms s) = []
  · simp [hnil]
  · have hpos : ((List.filter (fun p => decide (p.inx_ % 2 = 1)) (storedTerms s)).length : ℚ)
        ≠ 0 := by
      exact_mod_cast (List.length_pos.mpr hnil).ne'
    rw [if_pos hpos, if_neg hnil]

/-- C20: for every array-backed sparse polynomial,
`AverageOfOddDegreeCoefficients` returns the arithmetic mean of the values of the
stored terms whose index is odd, and `0.0` (through the guard, not through a
division) when no stored term has an odd index; for the terms
`(index 1, 4.0), (index 2, 6.0), (index 3, 2.0)` it returns `3.0`. -/
theorem average_of_odd_degree_coefficients :
    (∀ S : sparse_vector_t, storageInvariant S →
      SparsePolynomial.AverageOfOddDegreeCoefficients S =
        some (if oddTerms S = [] then 0
          else ((oddTerms S).map pair_t.get_val).sum / ((oddTerms S).length : ℚ))) ∧
    SparsePolynomial.AverageOfOddDegreeCoefficients ⟨⟨[⟨4, 1⟩, ⟨6, 2⟩, ⟨2, 3⟩]⟩, 3, 4⟩ =
      some 3 := by
  refine ⟨AverageOfOdd_eq, ?_⟩
  have hodd : oddTerms ⟨⟨[⟨4, 1⟩, ⟨6, 2⟩, ⟨2, 3⟩]⟩, 3, 4⟩ = [⟨4, 1⟩, ⟨2, 3⟩] := by decide
  rw [AverageOfOdd_eq _ (by decide), hodd, if_neg (List.cons_ne_nil _ _)]
  norm_num [pair_t.get_val]

theorem average_of_odd_degree_coefficients_witness :
    storageInvariant ⟨⟨[⟨4, 1⟩, ⟨6, 2⟩, ⟨5, 4⟩]⟩, 3, 5⟩ ∧
    SparsePolynomial.AverageOfOddDegreeCoefficients ⟨⟨[⟨4, 1⟩, ⟨6, 2⟩, ⟨5, 4⟩]⟩, 3, 5⟩ =
      some (if oddTerms ⟨⟨[⟨4, 1⟩, ⟨6, 2⟩, ⟨5, 4⟩]⟩, 3, 5⟩ = [] then 0
        else ((oddTerms ⟨⟨[⟨4, 1⟩, ⟨6, 2⟩, ⟨5, 4⟩]⟩, 3, 5⟩).map pair_t.get_val).sum /
          ((oddTerms ⟨⟨[⟨4, 1⟩, ⟨6, 2⟩, ⟨5, 4⟩]⟩, 3, 5⟩).length : ℚ)) :=
  ⟨by decide, average_of_odd_degree_coefficients.1 ⟨⟨[⟨4, 1⟩, ⟨6, 2⟩, ⟨5, 4⟩]⟩, 3, 5⟩ (by decide)⟩

end DSA

/-! ## `WeirdSum` -/

namespace DSA

theorem selectedSum_cons (a : pair_t) (l : List pair_t) (c : ℚ) (m : Int) :
    selectedSum (a :: l) c m =
      (if a.inx_ ≤ m ∧ a.val_ > c then a.val_ else 0) + selectedSum l c m := by
  unfold selectedSum
  by_cases h : a.inx_ ≤ m ∧ a.val_ > c
  · rw [List.filter_cons_of_pos (by simpa using h), if_pos h]
    simp [pair_t.get_val]
  · rw [List.filter_cons_of_neg (by simpa using h), if_neg h, zero_add]

theorem selectedSum_eq_zero (l : List pair_t) (c : ℚ) (m : Int) (h : ∀ p ∈ l, m < p.inx_) :
    selectedSum l c m = 0 := by
  induction l with
  | nil => simp [selectedSum]
  | cons a l ih =>
      have ha : ¬ (a.inx_ ≤ m ∧ a.val_ > c) := fun h2 =>
        absurd (h a (List.mem_cons_self _ _)) (not_lt.mpr h2.1)
      rw [selectedSum_cons, if_neg ha, zero_add]
      exact ih (fun p hp => h p (List.mem_cons_of_mem _ hp))

theorem weirdLoop_eq (c : ℚ) (m : Int) (l : List pair_t) (hl : nondecreasing l) (r : ℚ) :
    SllPolynomial.weirdLoop c m l r = r + selectedSum l c m := by
  induction l generalizing r with
  | nil => simp [SllPolynomial.weirdLoop, selectedSum]
  | cons a l ih =>
      have ha := List.pairwise_cons.mp hl
      rw [SllPolynomial.weirdLoop, selectedSum_cons]
      simp only [pair_t.get_inx, pair_t.get_val]
      by_cases h1 : a.inx_ ≤ m ∧ a.val_ > c
      · rw [if_pos h1, if_pos h1, ih ha.2, add_assoc]
      · rw [if_neg h1, if_neg h1, zero_add]
        by_cases h2 : a.inx_ > m
        · rw [if_pos h2, selectedSum_eq_zero l c m
            (fun p hp => lt_of_lt_of_le h2 (ha.1 p hp)), add_zero]
        · rw [if_neg h2, ih ha.2]

theorem weirdLoop_stops (c : ℚ) (m : Int) (pre : List pair_t) (t : pair_t)
    (post : List pair_t) (hpre : ∀ p ∈ pre, p.inx_ ≤ m) (ht : t.inx_ > m) (r : ℚ) :
    SllPolynomial.weirdLoop c m (pre ++ t :: post) r = SllPolynomial.weirdLoop c m pre r := by
  induction pre generalizing r with
  | nil =>
      have h1 : ¬ (t.inx_ ≤ m ∧ t.val_ > c) := fun h => absurd ht (not_lt.mpr h.1)
      simp only [List.nil_append, SllPolynomial.weirdLoop, pair_t.get_inx, pair_t.get_val]
      rw [if_neg h1, if_pos ht]
  | cons a pre ih =>
      have hrest : ∀ p ∈ pre, p.inx_ ≤ m := fun p hp => hpre p (List.mem_cons_of_mem _ hp)
      have ha : ¬ a.inx_ > m := not_lt.mpr (hpre a (List.mem_cons_self _ _))
      rw [List.cons_append, SllPolynomial.weirdLoop, SllPolynomial.weirdLoop]
      simp only [pair_t.get_inx, pair_t.get_val]
      by_cases h1 : a.inx_ ≤ m ∧ a.val_ > c
      · rw [if_pos h1, if_pos h1, ih hrest]
      · rw [if_neg h1, if_neg h1, if_neg ha, if_neg ha, ih hrest]

/-- C21: for every linked polynomial whose indices are ascending (never
decreasing suffices), every threshold `c` and every bound `m`, `WeirdSum(c, m)`
returns the sum of the coefficients of exactly the terms with index `<= m` and
coefficient `> c`; in any chain, nothing located after the first term with index
`> m` is added; over `(0, 0.5), (1, 2.0), (2, 1.5), (3, 10.0)` with `c = 1.0`
and `m = 2` it returns `3.5`. -/
theorem WeirdSum_selects_and_stops :
    (∀ (L : sll_t pair_t) (c : ℚ) (m : Int), nondecreasing L.head_ →
      SllPolynomial.WeirdSum L c m = selectedSum L.head_ c m) ∧
    (∀ (pre : List pair_t) (t : pair_t) (post : List pair_t) (c : ℚ) (m : Int),
      (∀ p ∈ pre, p.inx_ ≤ m) → t.inx_ > m →
      SllPolynomial.WeirdSum ⟨pre ++ t :: post⟩ c m = SllPolynomial.WeirdSum ⟨pre⟩ c m) ∧
    SllPolynomial.WeirdSum ⟨[⟨1 / 2, 0⟩, ⟨2, 1⟩, ⟨3 / 2, 2⟩, ⟨10, 3⟩]⟩ 1 2 = 7 / 2 := by
  refine ⟨fun L c m h => ?_, fun pre t post c m h1 h2 => ?_, ?_⟩
  · unfold SllPolynomial.WeirdSum
    rw [weirdLoop_eq c m _ h, zero_add]
  · exact weirdLoop_stops c m pre t post h1 h2 0
  · norm_num [SllPolynomial.WeirdSum, SllPolynomial.weirdLoop, pair_t.get_inx, pair_t.get_val]

theorem WeirdSum_selects_and_stops_witness :
    nondecreasing [(⟨3, 0⟩ : pair_t), ⟨1, 2⟩, ⟨5, 4⟩] ∧
    SllPolynomial.WeirdSum ⟨[⟨3, 0⟩, ⟨1, 2⟩, ⟨5, 4⟩]⟩ 2 3 =
      selectedSum [⟨3, 0⟩, ⟨1, 2⟩, ⟨5, 4⟩] 2 3 ∧
    (∀ p ∈ [(⟨3, 0⟩ : pair_t), ⟨1, 2⟩], p.inx_ ≤ 3) ∧ (⟨5, 4⟩ : pair_t).inx_ > 3 ∧
    SllPolynomial.WeirdSum ⟨[⟨3, 0⟩, ⟨1, 2⟩] ++ ⟨5, 4⟩ :: [⟨9, 1⟩]⟩ 2 3 =
      SllPolynomial.WeirdSum ⟨[⟨3, 0⟩, ⟨1, 2⟩]⟩ 2 3 :=
  ⟨by decide,
    WeirdSum_selects_and_stops.1 ⟨[⟨3, 0⟩, ⟨1, 2⟩, ⟨5, 4⟩]⟩ 2 3 (by decide),
    by decide, by decide,
    WeirdSum_selects_and_stops.2.1 [⟨3, 0⟩, ⟨1, 2⟩] ⟨5, 4⟩ [⟨9, 1⟩] 2 3 (by decide) (by decide)⟩

/-! ## `Sum` never fails -/

theorem sumEmitted_length_le (eps : ℚ) (as bs : List pair_t) :
    (sumEmitted eps as bs).length ≤ as.length + bs.length := by
  induction as, bs using sumEmitted.induct eps with
  | case1 a as b bs h1 h2 ih =>
      rw [sumEmitted, if_pos h1, if_pos h2]
      simp only [List.length_cons]
      omega
  | case2 a as b bs h1 h2 ih =>
      rw [sumEmitted, if_pos h1, if_neg h2]
      simp only [List.length_cons]
      omega
  | case3 a as b bs h1 h2 ih =>
      rw [sumEmitted, if_neg h1, if_pos h2]
      simp only [List.length_cons] at ih ⊢
      omega
  | case4 a as b bs h1 h2 ih =>
      rw [sumEmitted, if_neg h1, if_neg h2]
      simp only [List.length_cons] at ih ⊢
      omega
  | case5 bs => rw [sumEmitted_nil_left]; simp
  | case6 as h => rw [sumEmitted_nil_right]; simp

/-- C22 (counterexample): the chain `[(1, index 5), (1, index 2)]` is not in
ascending index order, and summing it with `[(1, index 3)]` into an empty
destination returns the chain `[(1, index 2), (1, index 5), (1, index 3)]`:
`Sum` does not halt. -/
theorem Sum_returns_on_unordered_operand :
    ¬ ascending [(⟨1, 5⟩ : pair_t), ⟨1, 2⟩] ∧
    SllPolynomial.Sum ⟨[⟨1, 5⟩, ⟨1, 2⟩]⟩ ⟨[⟨1, 3⟩]⟩ sll_t.empty_list EPS =
      ⟨[⟨1, 2⟩, ⟨1, 5⟩, ⟨1, 3⟩]⟩ := by
  refine ⟨by decide, ?_⟩
  rw [Sum_eq]
  simp [sumEmitted, sll_t.empty_list]

/-- C22 (amended): `Sum` contains no check of the merge-order precondition. When
an operand chain is not in strictly ascending index order, `Sum` still returns a
destination, and every term it has pushed carries an index that occurs in one of
the operands. -/
theorem Sum_returns_without_order_check (A B : sll_t pair_t) (eps : ℚ)
    (_h : ¬ ascending A.head_ ∨ ¬ ascending B.head_) :
    ∃ r : sll_t pair_t, SllPolynomial.Sum A B sll_t.empty_list eps = r ∧
      ∀ t ∈ r.head_, (∃ p ∈ A.head_, p.inx_ = t.inx_) ∨ (∃ q ∈ B.head_, q.inx_ = t.inx_) := by
  refine ⟨_, rfl, ?_⟩
  rw [Sum_eq]
  intro t ht
  simp only [sll_t.empty_list, List.append_nil, List.mem_reverse] at ht
  exact sumEmitted_inx_origin eps _ _ t ht

theorem Sum_returns_without_order_check_witness :
    (¬ ascending [(⟨1, 5⟩ : pair_t), ⟨1, 2⟩] ∨ ¬ ascending [(⟨1, 3⟩ : pair_t)]) ∧
    ∃ r : sll_t pair_t,
      SllPolynomial.Sum ⟨[⟨1, 5⟩, ⟨1, 2⟩]⟩ ⟨[⟨1, 3⟩]⟩ sll_t.empty_list EPS = r ∧
      ∀ t ∈ r.head_, (∃ p ∈ [(⟨1, 5⟩ : pair_t), ⟨1, 2⟩], p.inx_ = t.inx_) ∨
        (∃ q ∈ [(⟨1, 3⟩ : pair_t)], q.inx_ = t.inx_) :=
  ⟨Or.inl (by decide),
    Sum_returns_without_order_check ⟨[⟨1, 5⟩, ⟨1, 2⟩]⟩ ⟨[⟨1, 3⟩]⟩ EPS (Or.inl (by decide))⟩

/-- C23: `Sum` is total. For every pair of term chains, ascending or not, every
destination and every `eps`, `Sum` returns, and the destination it returns is
its previous content preceded by at most `|A| + |B|` pushed terms. -/
theorem Sum_is_total (A B D : sll_t pair_t) (eps : ℚ) :
    ∃ pushed : List pair_t,
      (SllPolynomial.Sum A B D eps).head_ = pushed ++ D.head_ ∧
      pushed.length ≤ A.head_.length + B.head_.length := by
  refine ⟨(sumEmitted eps A.head_ B.head_).reverse, by rw [Sum_eq], ?_⟩
  rw [List.length_reverse]
  exact sumEmitted_length_le eps _ _

end DSA

/-! ## Degenerate inputs, `rational_t`, index range checks -/

namespace DSA

/-- C27: degenerate inputs give the sentinel instead of failing. For the
zero-length dense polynomial and for the array-backed and linked sparse
polynomials built from it (any tolerance), `Eval(x)` returns `0.0` for every `x`
with no assertion failing, and `AverageOfOddDegreeCoefficients` of the empty
sparse polynomial, built from the empty dense one or with `SparsePolynomial(0)`,
returns `0.0`. -/
theorem degenerate_inputs_return_zero (eps x : ℚ) :
    Polynomial.Eval ⟨[]⟩ x = some 0 ∧
    (∃ s : sparse_vector_t, sparse_vector_t.ofVector ⟨[]⟩ eps = some s ∧
      SparsePolynomial.Eval s x = some 0 ∧
      SparsePolynomial.AverageOfOddDegreeCoefficients s = some 0) ∧
    (∃ l : sll_t pair_t, SllPolynomial.ofVector ⟨[]⟩ eps = some l ∧
      SllPolynomial.Eval l x = 0) ∧
    SparsePolynomial.Eval (sparse_vector_t.ofSize 0) x = some 0 ∧
    SparsePolynomial.AverageOfOddDegreeCoefficients (sparse_vector_t.ofSize 0) = some 0 := by
  have hterms : sparseTerms [] eps = [] := by simp [sparseTerms, termsBelow_zero]
  refine ⟨?_, ⟨_, ofVector_eq _ eps, ?_, ?_⟩, ⟨_, SllPolynomial_ofVector_eq _ eps, ?_⟩, ?_, ?_⟩
  · rw [denseEval_eq_powerSum]
    simp
  · rw [SparsePolynomial_Eval_eq, hterms]
    simp [termSum]
  · rw [AverageOfOdd_eq _ (storageInvariant_mk _ _)]
    simp [oddTerms, storedTerms, hterms]
  · rw [SllEval_eq, hterms]
    simp [termSum]
  · simp [SparsePolynomial.Eval, sparse_vector_t.ofSize, sparse_vector_t.get_nz]
  · rw [AverageOfOdd_eq _ (storageInvariant_ofSize 0)]
    simp [oddTerms, storedTerms, sparse_vector_t.ofSize]

/-- C28 (counterexample): in both implementations, constructing `rational_t(1,
-2)` and calling `set_den(-2)` on `1/3` succeed: a negative denominator passes
`assert(d != 0)`. -/
theorem rational_accepts_negative_denominator :
    rational_t1.new 1 (-2) = some ⟨1, -2⟩ ∧ rational_t2.new 1 (-2) = some ⟨1, -2⟩ ∧
    rational_t1.set_den ⟨1, 3⟩ (-2) = some ⟨1, -2⟩ ∧
    rational_t2.set_den ⟨1, 3⟩ (-2) = some ⟨1, -2⟩ := by
  decide

/-- C28 (amended): in both `rational_t` implementations, constructing with, or
setting through `set_den`, a denominator equal to zero halts execution, and
every non-zero denominator, negative ones included, is accepted and stored. -/
theorem rational_rejects_only_zero_denominator (n d : Int) (r : rational_t) :
    rational_t1.new n d = (if d = 0 then none else some ⟨n, d⟩) ∧
    rational_t2.new n d = (if d = 0 then none else some ⟨n, d⟩) ∧
    rational_t1.set_den r d = (if d = 0 then none else some ⟨r.num_, d⟩) ∧
    rational_t2.set_den r d = (if d = 0 then none else some ⟨r.num_, d⟩) := by
  by_cases h : d = 0 <;>
    simp [rational_t1.new, rational_t2.new, rational_t1.set_den, rational_t2.set_den, h]

/-- C29: in both `rational_t` implementations, for `a = n1/d1` and `r = n2/d2`
with non-zero denominators, `a.divide(r)` halts execution if and only if
`n2 = 0`, and otherwise returns numerator `n1 * d2` over denominator `d1 * n2`
(unbounded integers); the two implementations agree on every such input. -/
theorem rational_divide_contract (a r : rational_t) (ha : a.den_ ≠ 0) (_hr : r.den_ ≠ 0) :
    rational_t1.divide a r =
      (if r.num_ = 0 then none else some ⟨a.num_ * r.den_, a.den_ * r.num_⟩) ∧
    rational_t2.divide a r =
      (if r.num_ = 0 then none else some ⟨a.num_ * r.den_, a.den_ * r.num_⟩) ∧
    rational_t1.divide a r = rational_t2.divide a r := by
  have h1 : rational_t1.divide a r =
      (if r.num_ = 0 then none else some ⟨a.num_ * r.den_, a.den_ * r.num_⟩) := by
    by_cases h : r.num_ = 0
    · simp [rational_t1.divide, rational_t.get_num, h]
    · simp [rational_t1.divide, rational_t1.new, rational_t.get_num, rational_t.get_den, h, ha]
  have h2 : rational_t2.divide a r =
      (if r.num_ = 0 then none else some ⟨a.num_ * r.den_, a.den_ * r.num_⟩) := by
    by_cases h : r.num_ = 0
    · simp [rational_t2.divide, rational_t2.reciprocal, rational_t2.new, rational_t.get_num, h]
    · simp [rational_t2.divide, rational_t2.reciprocal, rational_t2.multiply, rational_t2.new,
        rational_t.get_num, rational_t.get_den, h, ha]
  exact ⟨h1, h2, h1.trans h2.symm⟩

theorem rational_divide_contract_witness :
    (⟨1, 2⟩ : rational_t).den_ ≠ 0 ∧ (⟨3, -4⟩ : rational_t).den_ ≠ 0 ∧
    rational_t1.divide ⟨1, 2⟩ ⟨3, -4⟩ =
      (if (⟨3, -4⟩ : rational_t).num_ = 0 then none
        else some ⟨(⟨1, 2⟩ : rational_t).num_ * (⟨3, -4⟩ : rational_t).den_,
          (⟨1, 2⟩ : rational_t).den_ * (⟨3, -4⟩ : rational_t).num_⟩) ∧
    rational_t2.divide ⟨1, 2⟩ ⟨3, -4⟩ =
      (if (⟨3, -4⟩ : rational_t).num_ = 0 then none
        else some ⟨(⟨1, 2⟩ : rational_t).num_ * (⟨3, -4⟩ : rational_t).den_,
          (⟨1, 2⟩ : rational_t).den_ * (⟨3, -4⟩ : rational_t).num_⟩) ∧
    rational_t1.divide ⟨1, 2⟩ ⟨3, -4⟩ = rational_t2.divide ⟨1, 2⟩ ⟨3, -4⟩ :=
  ⟨by decide, by decide, rational_divide_contract ⟨1, 2⟩ ⟨3, -4⟩ (by decide) (by decide)⟩

theorem vector_at_eq_none_iff {T : Type} (v : vector_t T) (i : Int) :
    v.at_ i = none ↔ i < 0 ∨ i ≥ v.get_size := by
  unfold vector_t.at_
  by_cases h : 0 ≤ i ∧ i < v.get_size
  · have h2 : i.toNat < v.v_.length := by
      unfold vector_t.get_size at h
      omega
    rw [if_pos h, List.getElem?_eq_getElem h2]
    constructor
    · intro hcon
      exact Option.noConfusion hcon
    · intro hcon
      omega
  · rw [if_neg h]
    simp only [true_iff]
    omega

theorem matrix_pos_bounds (m n i j : Int) (hi : 0 < i ∧ i ≤ m) (hj : 0 < j ∧ j ≤ n) :
    0 ≤ (i - 1) * n + (j - 1) ∧ (i - 1) * n + (j - 1) < m * n := by
  have h1 : 0 ≤ (i - 1) * n := mul_nonneg (by omega) (by omega)
  have h2 : (i - 1) * n ≤ (m - 1) * n := mul_le_mul_of_nonneg_right (by omega) (by omega)
  constructor
  · omega
  · have h3 : (m - 1) * n = m * n - n := by ring
    omega

theorem matrix_pos_injective (n i j i' j' : Int) (hj : 0 < j ∧ j ≤ n) (hj' : 0 < j' ∧ j' ≤ n)
    (h : (i - 1) * n + (j - 1) = (i' - 1) * n + (j' - 1)) : i = i' ∧ j = j' := by
  have hi : i = i' := by
    by_contra hne
    rcases lt_or_gt_of_ne hne with hlt | hgt
    · have h1 : i * n ≤ (i' - 1) * n := mul_le_mul_of_nonneg_right (by omega) (by omega)
      have h2 : (i - 1) * n = i * n - n := by ring
      omega
    · have h1 : i' * n ≤ (i - 1) * n := mul_le_mul_of_nonneg_right (by omega) (by omega)
      have h2 : (i' - 1) * n = i' * n - n := by ring
      omega
  subst hi
  exact ⟨rfl, by omega⟩

theorem matrixInvariant_ofSize {T : Type} (d : T) (m n : Int) (hm : 0 ≤ m) (hn : 0 ≤ n) :
    matrixInvariant (matrix_t.ofSize d m n) := by
  have h := mul_nonneg hm hn
  simp only [matrixInvariant, matrix_t.ofSize, vector_t.resize, vector_t.get_size,
    List.length_replicate]
  omega

theorem matrixInvariant_resize {T : Type} (d : T) (m n : Int) (M : matrix_t T)
    (h : matrix_t.resize d m n = some M) : matrixInvariant M := by
  unfold matrix_t.resize at h
  by_cases hmn : m > 0 ∧ n > 0
  · rw [if_pos hmn] at h
    rw [← Option.some.inj h]
    exact matrixInvariant_ofSize d m n (le_of_lt hmn.1) (le_of_lt hmn.2)
  · rw [if_neg hmn] at h
    exact Option.noConfusion h

theorem vector_get_val_eq_at {T : Type} (v : vector_t T) (i : Int) : v.get_val i = v.at_ i := rfl

theorem vector_set_val_eq_none_iff {T : Type} (v : vector_t T) (i : Int) (x : T) :
    v.set_val i x = none ↔ i < 0 ∨ i ≥ v.get_size := by
  unfold vector_t.set_val
  by_cases h : 0 ≤ i ∧ i < v.get_size
  · rw [if_pos h]
    constructor
    · intro hcon
      exact Option.noConfusion hcon
    · intro hcon
      omega
  · rw [if_neg h]
    simp only [true_iff]
    omega

theorem sparse_at_eq_none_iff (s : sparse_vector_t) (hs : storageInvariant s) (i : Int) :
    s.at_ i = none ↔ i < 0 ∨ i ≥ s.get_nz := by
  unfold sparse_vector_t.at_
  by_cases h : 0 ≤ i ∧ i < s.get_nz
  · rw [if_pos h, vector_at_eq_none_iff]
    unfold storageInvariant at hs
    unfold sparse_vector_t.get_nz at h ⊢
    omega
  · rw [if_neg h]
    simp only [true_iff]
    omega

theorem matrix_at_eq_none_iff {T : Type} (M : matrix_t T) (hM : matrixInvariant M) (i j : Int) :
    M.at_ i j = none ↔ ¬ (1 ≤ i ∧ i ≤ M.get_m ∧ 1 ≤ j ∧ j ≤ M.get_n) := by
  unfold matrix_t.at_ matrix_t.pos
  by_cases hi : i > 0 ∧ i ≤ M.get_m
  · by_cases hj : j > 0 ∧ j ≤ M.get_n
    · have hb := matrix_pos_bounds M.get_m M.get_n i j hi hj
      rw [if_pos hi, if_pos hj, if_pos hi, if_pos hj, Option.some_bind, vector_at_eq_none_iff]
      unfold matrixInvariant at hM
      unfold matrix_t.get_m matrix_t.get_n at *
      rw [hM]
      omega
    · rw [if_pos hi, if_neg hj]
      simp only [true_iff]
      omega
  · rw [if_neg hi]
    simp only [true_iff]
    omega

/-- C30: out-of-range index access is fatal and in-range access is safe.
`vector_t::at(i)`, `get_val(i)` and `set_val(i, x)` fail if and only if `i < 0`
or `i >= get_size()`; `sparse_vector_t::at(i)` fails if and only if `i < 0` or
`i >= get_nz()`; `matrix_t::at(i, j)` fails if and only if not
(`1 <= i <= m` and `1 <= j <= n`); for every in-range `(i, j)` the row-major
position `(i-1)*n + (j-1)` lies in `[0, m*n)` and differs for different
`(i, j)`. The sparse vector and the matrix are taken with the storage their
constructors give them (`nz_` within the pair array, `m_ * n_` elements). -/
theorem index_access_fails_iff_out_of_range :
    (∀ (T : Type) (v : vector_t T) (i : Int) (x : T),
      (v.at_ i = none ↔ i < 0 ∨ i ≥ v.get_size) ∧
      (v.get_val i = none ↔ i < 0 ∨ i ≥ v.get_size) ∧
      (v.set_val i x = none ↔ i < 0 ∨ i ≥ v.get_size)) ∧
    (∀ (s : sparse_vector_t) (i : Int), storageInvariant s →
      (s.at_ i = none ↔ i < 0 ∨ i ≥ s.get_nz)) ∧
    (∀ (T : Type) (M : matrix_t T) (i j : Int), matrixInvariant M →
      (M.at_ i j = none ↔ ¬ (1 ≤ i ∧ i ≤ M.get_m ∧ 1 ≤ j ∧ j ≤ M.get_n))) ∧
    (∀ (T : Type) (M : matrix_t T) (i j : Int),
      1 ≤ i ∧ i ≤ M.get_m ∧ 1 ≤ j ∧ j ≤ M.get_n →
      M.pos i j = some ((i - 1) * M.get_n + (j - 1)) ∧
      0 ≤ (i - 1) * M.get_n + (j - 1) ∧ (i - 1) * M.get_n + (j - 1) < M.get_m * M.get_n) ∧
    (∀ (T : Type) (M : matrix_t T) (i j i' j' : Int),
      1 ≤ i ∧ i ≤ M.get_m ∧ 1 ≤ j ∧ j ≤ M.get_n →
      1 ≤ i' ∧ i' ≤ M.get_m ∧ 1 ≤ j' ∧ j' ≤ M.get_n →
      M.pos i j = M.pos i' j' → i = i' ∧ j = j') := by
  refine ⟨fun T v i x => ⟨vector_at_eq_none_iff v i, ?_, vector_set_val_eq_none_iff v i x⟩,
    fun s i hs => sparse_at_eq_none_iff s hs i,
    fun T M i j hM => matrix_at_eq_none_iff M hM i j, ?_, ?_⟩
  · rw [vector_get_val_eq_at]
    exact vector_at_eq_none_iff v i
  · intro T M i j h
    have hi : i > 0 ∧ i ≤ M.get_m := ⟨by omega, h.2.1⟩
    have hj : j > 0 ∧ j ≤ M.get_n := ⟨by omega, h.2.2.2⟩
    refine ⟨?_, matrix_pos_bounds M.get_m M.get_n i j hi hj⟩
    unfold matrix_t.pos
    rw [if_pos hi, if_pos hj]
  · intro T M i j i' j' h h' heq
    have hi : i > 0 ∧ i ≤ M.get_m := ⟨by omega, h.2.1⟩
    have hj : j > 0 ∧ j ≤ M.get_n := ⟨by omega, h.2.2.2⟩
    have hi' : i' > 0 ∧ i' ≤ M.get_m := ⟨by omega, h'.2.1⟩
    have hj' : j' > 0 ∧ j' ≤ M.get_n := ⟨by omega, h'.2.2.2⟩
    unfold matrix_t.pos at heq
    rw [if_pos hi, if_pos hj, if_pos hi', if_pos hj'] at heq
    exact matrix_pos_injective M.get_n i j i' j' hj hj' (Option.some.inj heq)

theorem index_access_fails_iff_out_of_range_witness :
    storageInvariant ⟨⟨[⟨1, 0⟩, ⟨3, 2⟩]⟩, 2, 3⟩ ∧
    matrixInvariant (matrix_t.ofSize (0 : ℚ) 2 3) ∧
    (sparse_vector_t.at_ ⟨⟨[⟨1, 0⟩, ⟨3, 2⟩]⟩, 2, 3⟩ 2 = none ↔
      (2 : Int) < 0 ∨ (2 : Int) ≥ sparse_vector_t.get_nz ⟨⟨[⟨1, 0⟩, ⟨3, 2⟩]⟩, 2, 3⟩) ∧
    ((matrix_t.ofSize (0 : ℚ) 2 3).at_ 2 3 = none ↔
      ¬ ((1 : Int) ≤ 2 ∧ 2 ≤ (matrix_t.ofSize (0 : ℚ) 2 3).get_m ∧
        (1 : Int) ≤ 3 ∧ 3 ≤ (matrix_t.ofSize (0 : ℚ) 2 3).get_n)) ∧
    ((matrix_t.ofSize (0 : ℚ) 2 3).pos 2 3 =
        some ((2 - 1) * (matrix_t.ofSize (0 : ℚ) 2 3).get_n + (3 - 1)) ∧
      0 ≤ (2 - 1) * (matrix_t.ofSize (0 : ℚ) 2 3).get_n + (3 - 1) ∧
      (2 - 1) * (matrix_t.ofSize (0 : ℚ) 2 3).get_n + (3 - 1) <
        (matrix_t.ofSize (0 : ℚ) 2 3).get_m * (matrix_t.ofSize (0 : ℚ) 2 3).get_n) :=
  ⟨by decide, by decide,
    index_access_fails_iff_out_of_range.2.1 ⟨⟨[⟨1, 0⟩, ⟨3, 2⟩]⟩, 2, 3⟩ 2 (by decide),
    index_access_fails_iff_out_of_range.2.2.1 ℚ (matrix_t.ofSize (0 : ℚ) 2 3) 2 3 (by decide),
    index_access_fails_iff_out_of_range.2.2.2.1 ℚ (matrix_t.ofSize (0 : ℚ) 2 3) 2 3 (by decide)⟩

end DSA

/-! ## Output formats -/

namespace DSA

theorem intercalate_go_eq (s : String) (as : List String) (acc : String) :
    String.intercalate.go acc s as = acc ++ String.intercalate.go "" s as := by
  induction as generalizing acc with
  | nil => simp [String.intercalate.go]
  | cons a as ih =>
      rw [String.intercalate.go, ih, String.intercalate.go, ih ("" ++ s ++ a)]
      simp [String.append_assoc]

theorem renderTerm_eq_code (fmt : ℚ → String) (t : pair_t) (h : 0 ≤ t.inx_) :
    fmt t.val_ ++ (if t.inx_ > 1 then " x^" else if t.inx_ = 1 then " x" else "") ++
        (if t.inx_ > 1 then toString t.inx_ else "") = renderTerm fmt t := by
  unfold renderTerm
  by_cases h1 : t.inx_ > 1
  · have h2 : ¬ t.inx_ = 0 := by omega
    have h3 : ¬ t.inx_ = 1 := by omega
    simp [h1, h2, h3, String.append_assoc]
  · by_cases h3 : t.inx_ = 1
    · simp [h3]
    · have h2 : t.inx_ = 0 := by omega
      simp [h2]

theorem writeStep_eq (fmt : ℚ → String) (st : String × Bool) (t : pair_t) (h : 0 ≤ t.inx_) :
    writeStep fmt st t = (st.1 ++ (if !st.2 then " + " else "") ++ renderTerm fmt t, false) := by
  unfold writeStep
  rw [← renderTerm_eq_code fmt t h]
  simp [String.append_assoc]

theorem writeStep_foldl_false (fmt : ℚ → String) (l : List pair_t) (h : ∀ t ∈ l, 0 ≤ t.inx_)
    (os : String) :
    l.foldl (writeStep fmt) (os, false) =
      (os ++ String.intercalate.go "" " + " (l.map (renderTerm fmt)), false) := by
  induction l generalizing os with
  | nil => simp [String.intercalate.go]
  | cons t ts ih =>
      rw [List.foldl_cons, writeStep_eq fmt _ t (h t (List.mem_cons_self _ _)),
        ih (fun u hu => h u (List.mem_cons_of_mem _ hu)), List.map_cons, String.intercalate.go,
        intercalate_go_eq " + " _ ("" ++ " + " ++ renderTerm fmt t)]
      simp [String.append_assoc]

theorem writeStep_foldl_true (fmt : ℚ → String) (l : List pair_t) (h : ∀ t ∈ l, 0 ≤ t.inx_)
    (os : String) :
    l.foldl (writeStep fmt) (os, true) = (os ++ termList fmt l, l.isEmpty) := by
  cases l with
  | nil => simp [termList, String.intercalate]
  | cons t ts =>
      rw [List.foldl_cons, writeStep_eq fmt _ t (h t (List.mem_cons_self _ _))]
      simp only [Bool.not_true, Bool.false_eq_true, if_false, String.append_empty]
      rw [writeStep_foldl_false fmt ts (fun u hu => h u (List.mem_cons_of_mem _ hu)), termList,
        List.map_cons, String.intercalate, intercalate_go_eq " + " _ (renderTerm fmt t)]
      simp [String.append_assoc]

theorem dense_writeLoop_eq (p : vector_t ℚ) (eps : ℚ) (fmt : ℚ → String) (os : String)
    (k : Nat) (hk : k ≤ p.v_.length) :
    Polynomial.writeLoop p eps fmt k os =
      some ((termsBelow p.v_ eps k).foldl (writeStep fmt) (os, true)) := by
  induction k with
  | zero => simp [Polynomial.writeLoop, termsBelow_zero]
  | succ m ih =>
      have hm : m < p.v_.length := hk
      have ih2 := ih (Nat.le_of_lt hm)
      unfold Polynomial.writeLoop at ih2 ⊢
      rw [List.range_succ, List.foldlM_append, ih2, termsBelow_succ, List.foldl_append]
      simp only [Option.bind_eq_bind, Option.some_bind, List.foldlM_cons, List.foldlM_nil,
        vector_at_natCast p m hm, IsNotZero, gt_iff_lt, Option.pure_def]
      by_cases h : eps < |coeffAt p.v_ m|
      · simp [h, writeStep]
      · simp [h]

theorem foldlM_some {σ α : Type} (f : σ → α → σ) (l : List α) (init : σ) :
    l.foldlM (fun st a => some (f st a)) init = some (l.foldl f init) := by
  induction l generalizing init with
  | nil => rfl
  | cons a l ih => simp [List.foldlM_cons, ih]

theorem sparse_writeLoop_eq (s : sparse_vector_t) (hs : storageInvariant s)
    (fmt : ℚ → String) (os : String) :
    SparsePolynomial.writeLoop s fmt s.get_nz.toNat os =
      some ((storedTerms s).foldl (writeStep fmt) (os, true)) := by
  have hloop := foldlM_range_at s hs (fun st p => some (writeStep fmt st p)) (os, true)
    (storedTerms s).length (le_refl _)
  rw [List.take_length, foldlM_some, storedTerms_length s hs] at hloop
  unfold SparsePolynomial.writeLoop
  exact hloop

theorem sll_writeLoop_false (fmt : ℚ → String) (l : List pair_t) (h : ∀ t ∈ l, 0 ≤ t.inx_)
    (os : String) :
    SllPolynomial.writeLoop fmt l (os, false) = (os ++ signedTail fmt l, false) := by
  induction l generalizing os with
  | nil => simp [SllPolynomial.writeLoop, signedTail]
  | cons t ts ih =>
      have ht := h t (List.mem_cons_self _ _)
      rw [SllPolynomial.writeLoop]
      simp only [pair_t.get_inx, pair_t.get_val]
      rw [signedTail, signedTerm]
      by_cases h1 : t.inx_ > 1
      · have h2 : ¬ t.inx_ = 0 := by omega
        have h3 : ¬ t.inx_ = 1 := by omega
        rw [if_pos h1, ih (fun u hu => h u (List.mem_cons_of_mem _ hu))]
        by_cases hv : t.val_ > 0 <;> simp [h1, h2, h3, hv, String.append_assoc]
      · rw [if_neg h1, ih (fun u hu => h u (List.mem_cons_of_mem _ hu))]
        by_cases h3 : t.inx_ = 1
        · by_cases hv : t.val_ > 0 <;> simp [h3, hv, String.append_assoc]
        · have h2 : t.inx_ = 0 := by omega
          by_cases hv : t.val_ > 0 <;> simp [h2, hv, String.append_assoc]

theorem sll_writeLoop_true (fmt : ℚ → String) (l : List pair_t) (h : ∀ t ∈ l, 0 ≤ t.inx_)
    (os : String) :
    SllPolynomial.writeLoop fmt l (os, true) = (os ++ signedTermList fmt l, l.isEmpty) := by
  cases l with
  | nil => simp [SllPolynomial.writeLoop, signedTermList]
  | cons t ts =>
      have ht := h t (List.mem_cons_self _ _)
      have hts := sll_writeLoop_false fmt ts (fun u hu => h u (List.mem_cons_of_mem _ hu))
      rw [SllPolynomial.writeLoop]
      simp only [pair_t.get_inx, pair_t.get_val]
      rw [signedTermList, signedTerm]
      by_cases h1 : t.inx_ > 1
      · have h2 : ¬ t.inx_ = 0 := by omega
        have h3 : ¬ t.inx_ = 1 := by omega
        rw [if_pos h1, hts]
        by_cases hv : t.val_ > 0 <;> simp [h1, h2, h3, hv, String.append_assoc]
      · rw [if_neg h1, hts]
        by_cases h3 : t.inx_ = 1
        · by_cases hv : t.val_ > 0 <;> simp [h3, hv, String.append_assoc]
        · have h2 : t.inx_ = 0 := by omega
          by_cases hv : t.val_ > 0 <;> simp [h2, hv, String.append_assoc]

theorem signedTail_of_positive (fmt : ℚ → String) (l : List pair_t) (h : ∀ t ∈ l, t.val_ > 0) :
    signedTail fmt l = String.intercalate.go "" " + " (l.map (renderTerm fmt)) := by
  induction l with
  | nil => simp [signedTail, String.intercalate.go]
  | cons t ts ih =>
      rw [signedTail, ih (fun u hu => h u (List.mem_cons_of_mem _ hu)), List.map_cons,
        String.intercalate.go, intercalate_go_eq " + " _ ("" ++ " + " ++ renderTerm fmt t),
        signedTerm, if_pos (h t (List.mem_cons_self _ _))]
      simp [renderTerm, String.append_assoc]

theorem signedTermList_of_positive (fmt : ℚ → String) (l : List pair_t)
    (h : ∀ t ∈ l, t.val_ > 0) : signedTermList fmt l = termList fmt l := by
  cases l with
  | nil => simp [signedTermList, termList, String.intercalate]
  | cons t ts =>
      rw [signedTermList, signedTail_of_positive fmt ts (fun u hu => h u (List.mem_cons_of_mem _ hu)),
        termList, List.map_cons, String.intercalate,
        intercalate_go_eq " + " _ (renderTerm fmt t), signedTerm,
        if_pos (h t (List.mem_cons_self _ _))]
      simp [renderTerm, String.append_assoc]

theorem sparseTerms_inx_nonneg (v : List ℚ) (eps : ℚ) : ∀ t ∈ sparseTerms v eps, 0 ≤ t.inx_ :=
  fun t ht => ((sparseInvariant_sparseTerms v eps).2.2 t ht).1

theorem dense_Write_eq (P : vector_t ℚ) (eps : ℚ) (fmt : ℚ → String) :
    Polynomial.Write P eps fmt =
      some (toString P.get_size ++ ": [ " ++ termList fmt (sparseTerms P.v_ eps) ++
        " ]" ++ "\n") := by
  unfold Polynomial.Write
  have hn : P.get_size.toNat = P.v_.length := by simp [vector_t.get_size]
  rw [hn, dense_writeLoop_eq P eps fmt _ _ (le_refl _)]
  have := writeStep_foldl_true fmt (sparseTerms P.v_ eps) (sparseTerms_inx_nonneg P.v_ eps)
    (toString P.get_size ++ ": [ ")
  unfold sparseTerms at this
  rw [this]
  rfl

theorem sparse_Write_eq (s : sparse_vector_t) (hs : storageInvariant s)
    (hidx : ∀ t ∈ storedTerms s, 0 ≤ t.inx_) (fmt : ℚ → String) :
    SparsePolynomial.Write s fmt =
      some (toString s.get_n ++ "(" ++ toString s.get_nz ++ "): [ " ++
        termList fmt (storedTerms s) ++ " ]" ++ "\n") := by
  unfold SparsePolynomial.Write
  rw [sparse_writeLoop_eq s hs, writeStep_foldl_true fmt _ hidx]
  rfl

end DSA

/-! ## Output formats: the contract -/

namespace DSA

/-- C24: for every dense polynomial `P` of size `n`, every `eps` and every
rendering `fmt` of coefficients, `Polynomial::Write` emits exactly `"<n>: [ "`,
then the renderings of the terms with `|P[i]| > eps` in ascending `i` joined by
`" + "`, then `" ]"` and a newline; a term is the coefficient alone for index
`0`, the coefficient then `" x"` for index `1` and the coefficient then
`" x^<i>"` for a larger index. Negligible terms leave no trace, and the body is
empty when no term exceeds `eps`. -/
theorem dense_Write_format :
    (∀ (P : vector_t ℚ) (eps : ℚ) (fmt : ℚ → String),
      Polynomial.Write P eps fmt =
        some (toString P.get_size ++ ": [ " ++ termList fmt (sparseTerms P.v_ eps) ++
          " ]" ++ "\n")) ∧
    (∀ fmt : ℚ → String, termList fmt [] = "") ∧
    Polynomial.Write ⟨[1, 0, 3, -2]⟩ EPS plainLiteral = some "4: [ 1 + 3 x^2 + -2 x^3 ]\n" ∧
    Polynomial.Write ⟨[0, 0]⟩ EPS plainLiteral = some "2: [  ]\n" := by
  refine ⟨dense_Write_eq, fun fmt => rfl, ?_, ?_⟩
  · have h : sparseTerms [1, 0, 3, -2] EPS = [⟨1, 0⟩, ⟨3, 2⟩, ⟨-2, 3⟩] := by
      norm_num [sparseTerms, termsBelow, List.range_succ, List.filter_cons, coeffAt, EPS]
    rw [dense_Write_eq, h]
    decide
  · have h : sparseTerms [0, 0] EPS = [] := by
      norm_num [sparseTerms, termsBelow, List.range_succ, List.filter_cons, coeffAt, EPS]
    rw [dense_Write_eq, h]
    decide

/-- C25: for every dense polynomial `P`, every `eps` and every rendering `fmt`,
the `Write` of the sparse polynomial built from `P` with `eps` emits
`"<total_length>(<non_zero_count>): [ "`, a term list, `" ]"` and a newline, and
that term list is character for character the term list `Polynomial::Write`
emits for `P` with the same `eps`. -/
theorem sparse_Write_matches_dense_term_list (P : vector_t ℚ) (eps : ℚ) (fmt : ℚ → String) :
    ∃ (s : sparse_vector_t) (dtext stext : String),
      sparse_vector_t.ofVector P eps = some s ∧
      Polynomial.Write P eps fmt = some dtext ∧
      SparsePolynomial.Write s fmt = some stext ∧
      s.get_n = P.get_size ∧ s.get_nz = ((sparseTerms P.v_ eps).length : Int) ∧
      stext = toString s.get_n ++ "(" ++ toString s.get_nz ++ "): [ " ++
        termList fmt (sparseTerms P.v_ eps) ++ " ]" ++ "\n" ∧
      dtext = toString P.get_size ++ ": [ " ++ termList fmt (sparseTerms P.v_ eps) ++
        " ]" ++ "\n" := by
  refine ⟨_, _, _, ofVector_eq P eps, dense_Write_eq P eps fmt, ?_, rfl, rfl, rfl, rfl⟩
  rw [sparse_Write_eq _ (storageInvariant_mk _ _)
    (by rw [storedTerms_mk]; exact sparseTerms_inx_nonneg P.v_ eps), storedTerms_mk]

/-- C26 (counterexample): for the dense vector `[1, -3]` and the default
tolerance, the linked `Write` emits `"[ 1 - 3 x ]"` and a newline, while the
array-backed sparse `Write` emits `"2(2): [ 1 + -3 x ]"` and a newline: the
linked text has no `"<total_length>(<non_zero_count>): "` in front, and the
negative coefficient is joined by `" - "` and written as its absolute value. -/
theorem linked_Write_differs_from_sparse_Write :
    SllPolynomial.ofVector ⟨[1, -3]⟩ EPS = some ⟨[⟨1, 0⟩, ⟨-3, 1⟩]⟩ ∧
    sparse_vector_t.ofVector ⟨[1, -3]⟩ EPS = some ⟨⟨[⟨1, 0⟩, ⟨-3, 1⟩]⟩, 2, 2⟩ ∧
    SllPolynomial.Write ⟨[⟨1, 0⟩, ⟨-3, 1⟩]⟩ plainLiteral = "[ 1 - 3 x ]\n" ∧
    SparsePolynomial.Write ⟨⟨[⟨1, 0⟩, ⟨-3, 1⟩]⟩, 2, 2⟩ plainLiteral =
      some "2(2): [ 1 + -3 x ]\n" := by
  have h : sparseTerms [1, -3] EPS = [⟨1, 0⟩, ⟨-3, 1⟩] := by
    norm_num [sparseTerms, termsBelow, List.range_succ, List.filter_cons, coeffAt, EPS]
  refine ⟨?_, ?_, by decide, by decide⟩
  · rw [SllPolynomial_ofVector_eq, h]
  · rw [ofVector_eq, h]
    rfl

/-- C26 (amended): for every dense vector `v`, every `eps` and every rendering
`fmt`, the `Write` of the linked polynomial built from `v` emits `"[ "`, its
terms and `" ]"` plus a newline, with no `"<total_length>(<non_zero_count>): "`
in front; a positive coefficient is written as its literal, after `" + "` unless
it is the first term, any other coefficient as the literal of its absolute
value, after `" - "` (`"-"` for the first term), each followed by the index
suffix. When every stored coefficient is positive, the text of the array-backed
sparse `Write` is `"<total_length>(<non_zero_count>): "` followed by exactly the
text of the linked `Write`. -/
theorem linked_Write_format (v : vector_t ℚ) (eps : ℚ) (fmt : ℚ → String) :
    ∃ (l : sll_t pair_t) (s : sparse_vector_t) (stext : String),
      SllPolynomial.ofVector v eps = some l ∧
      sparse_vector_t.ofVector v eps = some s ∧
      SparsePolynomial.Write s fmt = some stext ∧
      SllPolynomial.Write l fmt = "[ " ++ signedTermList fmt l.head_ ++ " ]" ++ "\n" ∧
      ((∀ t ∈ l.head_, t.val_ > 0) →
        stext = toString s.get_n ++ "(" ++ toString s.get_nz ++ "): " ++
          SllPolynomial.Write l fmt) := by
  have hidx := sparseTerms_inx_nonneg v.v_ eps
  have hsll : SllPolynomial.Write ⟨sparseTerms v.v_ eps⟩ fmt =
      "[ " ++ signedTermList fmt (sparseTerms v.v_ eps) ++ " ]" ++ "\n" := by
    unfold SllPolynomial.Write
    rw [sll_writeLoop_true fmt _ hidx]
  refine ⟨_, _, _, SllPolynomial_ofVector_eq v eps, ofVector_eq v eps,
    sparse_Write_eq _ (storageInvariant_mk _ _) (by rw [storedTerms_mk]; exact hidx) fmt,
    hsll, fun hpos => ?_⟩
  have hlit : ("): [ " : String) = "): " ++ "[ " := by decide
  rw [hsll, signedTermList_of_positive fmt _ hpos, storedTerms_mk, hlit]
  simp only [String.append_assoc]

theorem linked_Write_format_witness :
    ∃ (l : sll_t pair_t) (s : sparse_vector_t) (stext : String),
      SllPolynomial.ofVector ⟨[1, 0, 3]⟩ EPS = some l ∧
      sparse_vector_t.ofVector ⟨[1, 0, 3]⟩ EPS = some s ∧
      SparsePolynomial.Write s plainLiteral = some stext ∧
      SllPolynomial.Write l plainLiteral =
        "[ " ++ signedTermList plainLiteral l.head_ ++ " ]" ++ "\n" ∧
      stext = toString s.get_n ++ "(" ++ toString s.get_nz ++ "): " ++
        SllPolynomial.Write l plainLiteral := by
  obtain ⟨l, s, stext, hl, hs, hw, hf, hpos⟩ := linked_Write_format ⟨[1, 0, 3]⟩ EPS plainLiteral
  refine ⟨l, s, stext, hl, hs, hw, hf, hpos ?_⟩
  have h : sparseTerms [1, 0, 3] EPS = [⟨1, 0⟩, ⟨3, 2⟩] := by
    norm_num [sparseTerms, termsBelow, List.range_succ, List.filter_cons, coeffAt, EPS]
  rw [SllPolynomial_ofVector_eq, h] at hl
  rw [← Option.some.inj hl]
  decide

end DSA

/-! ## `matrix_t::multiply` -/

namespace DSA

theorem matrix_at_some (M : matrix_t ℚ) (hM : matrixInvariant M) (i j : Int)
    (hi : 1 ≤ i ∧ i ≤ M.get_m) (hj : 1 ≤ j ∧ j ≤ M.get_n) :
    M.at_ i j = some (matrixEntry M i j) := by
  have hne : M.at_ i j ≠ none := fun h =>
    ((matrix_at_eq_none_iff M hM i j).mp h) ⟨hi.1, hi.2, hj.1, hj.2⟩
  unfold matrixEntry
  cases h : M.at_ i j with
  | none => exact absurd h hne
  | some x => rfl

theorem multiplySum_loop (A B : matrix_t ℚ) (hA : matrixInvariant A) (hB : matrixInvariant B)
    (hnq : A.get_n = B.get_m) (i j : Int)
    (hi : 1 ≤ i ∧ i ≤ A.get_m) (hj : 1 ≤ j ∧ j ≤ B.get_n) (t : Nat)
    (ht : t + 1 ≤ A.get_n.toNat) :
    (List.range' 2 t).foldlM
        (fun (sum : ℚ) (k : Nat) =>
          (A.at_ i k).bind fun a => (B.at_ k j).map fun b => sum + a * b)
        (∑ k in Finset.Icc 1 1, matrixEntry A i (k : Int) * matrixEntry B (k : Int) j) =
      some (∑ k in Finset.Icc 1 (t + 1),
        matrixEntry A i (k : Int) * matrixEntry B (k : Int) j) := by
  induction t with
  | zero => rfl
  | succ t ih =>
      have hk1 : (1 : Int) ≤ ((2 + 1 * t : Nat) : Int) := by omega
      have hk2 : ((2 + 1 * t : Nat) : Int) ≤ A.get_n := by omega
      have hk3 : ((2 + 1 * t : Nat) : Int) ≤ B.get_m := by omega
      rw [List.range'_concat, List.foldlM_append, ih (by omega)]
      simp only [List.foldlM_cons, List.foldlM_nil, Option.bind_eq_bind, Option.some_bind,
        Option.pure_def, matrix_at_some A hA i _ hi ⟨hk1, hk2⟩,
        matrix_at_some B hB _ j ⟨hk1, hk3⟩ hj, Option.map_some']
      have h2 : 2 + 1 * t = t + 1 + 1 := by omega
      rw [h2, Finset.sum_Icc_succ_top (show 1 ≤ t + 1 + 1 by omega)]

theorem multiplySum_eq (A B : matrix_t ℚ) (hA : matrixInvariant A) (hB : matrixInvariant B)
    (hnq : A.get_n = B.get_m) (hn : 0 < A.get_n) (i j : Int)
    (hi : 1 ≤ i ∧ i ≤ A.get_m) (hj : 1 ≤ j ∧ j ≤ B.get_n) :
    matrix_t.multiplySum A B A.get_n i j = some (productEntry A B A.get_n.toNat i j) := by
  have h1 : (1 : Int) ≤ A.get_n := hn
  have h1B : (1 : Int) ≤ B.get_m := hnq ▸ h1
  have hs : A.get_n.toNat - 1 + 1 = A.get_n.toNat := by omega
  have hloop := multiplySum_loop A B hA hB hnq i j hi hj (A.get_n.toNat - 1) (by omega)
  rw [hs] at hloop
  unfold matrix_t.multiplySum productEntry
  rw [matrix_at_some A hA i 1 hi ⟨le_refl _, h1⟩, matrix_at_some B hB 1 j ⟨le_refl _, h1B⟩ hj]
  simp only [Option.some_bind, Option.map_some']
  rw [← hloop]
  simp

theorem matrix_set_at (C : matrix_t ℚ) (hC : matrixInvariant C) (i j : Int) (x : ℚ)
    (hi : 1 ≤ i ∧ i ≤ C.get_m) (hj : 1 ≤ j ∧ j ≤ C.get_n) :
    ∃ C2, C.set_at i j x = some C2 ∧ C2.get_m = C.get_m ∧ C2.get_n = C.get_n ∧
      matrixInvariant C2 ∧ C2.at_ i j = some x ∧
      ∀ i2 j2 : Int, 1 ≤ i2 ∧ i2 ≤ C.get_m → 1 ≤ j2 ∧ j2 ≤ C.get_n → (i2 ≠ i ∨ j2 ≠ j) →
        C2.at_ i2 j2 = C.at_ i2 j2 := by
  have hi0 : i > 0 ∧ i ≤ C.get_m := ⟨by omega, hi.2⟩
  have hj0 : j > 0 ∧ j ≤ C.get_n := ⟨by omega, hj.2⟩
  have hb := matrix_pos_bounds C.get_m C.get_n i j hi0 hj0
  have hlen : (C.v_.v_.length : Int) = C.get_m * C.get_n := hC
  have hbv : 0 ≤ (i - 1) * C.get_n + (j - 1) ∧ (i - 1) * C.get_n + (j - 1) < C.v_.get_size := by
    unfold vector_t.get_size
    rw [hlen]
    exact hb
  refine ⟨⟨C.m_, C.n_, ⟨C.v_.v_.set ((i - 1) * C.get_n + (j - 1)).toNat x⟩⟩, ?_, rfl, rfl, ?_, ?_,
    ?_⟩
  · unfold matrix_t.set_at matrix_t.pos
    rw [if_pos hi0, if_pos hj0, if_pos hi0, if_pos hj0, Option.some_bind]
    unfold vector_t.set_at
    rw [if_pos hbv]
    rfl
  · unfold matrixInvariant vector_t.get_size
    rw [List.length_set]
    exact hC
  · unfold matrix_t.at_ matrix_t.pos
    have hi1 : i > 0 ∧ i ≤ (⟨C.m_, C.n_,
        ⟨C.v_.v_.set ((i - 1) * C.get_n + (j - 1)).toNat x⟩⟩ : matrix_t ℚ).get_m := hi0
    have hj1 : j > 0 ∧ j ≤ (⟨C.m_, C.n_,
        ⟨C.v_.v_.set ((i - 1) * C.get_n + (j - 1)).toNat x⟩⟩ : matrix_t ℚ).get_n := hj0
    rw [if_pos hi1, if_pos hj1, if_pos hi1, if_pos hj1, Option.some_bind]
    unfold vector_t.at_ vector_t.get_size
    have hb2 : 0 ≤ (i - 1) * C.get_n + (j - 1) ∧
        (i - 1) * C.get_n + (j - 1) < ((C.v_.v_.set ((i - 1) * C.get_n + (j - 1)).toNat x).length : Int) := by
      rw [List.length_set, hlen]
      exact hb
    have hlt : ((i - 1) * C.get_n + (j - 1)).toNat < C.v_.v_.length := by
      have := hb.2
      omega
    show (if 0 ≤ (i - 1) * C.get_n + (j - 1) ∧
        (i - 1) * C.get_n + (j - 1) <
          ((C.v_.v_.set ((i - 1) * C.get_n + (j - 1)).toNat x).length : Int) then
        (C.v_.v_.set ((i - 1) * C.get_n + (j - 1)).toNat x)[((i - 1) * C.get_n + (j - 1)).toNat]?
      else none) = some x
    rw [if_pos hb2, List.getElem?_set, if_pos rfl, if_pos hlt]
  · intro i2 j2 hi2 hj2 hne
    have hi3 : i2 > 0 ∧ i2 ≤ C.get_m := ⟨by omega, hi2.2⟩
    have hj3 : j2 > 0 ∧ j2 ≤ C.get_n := ⟨by omega, hj2.2⟩
    have hb3 := matrix_pos_bounds C.get_m C.get_n i2 j2 hi3 hj3
    have hpos : ((i - 1) * C.get_n + (j - 1)).toNat ≠ ((i2 - 1) * C.get_n + (j2 - 1)).toNat := by
      intro heq
      have heq2 : (i - 1) * C.get_n + (j - 1) = (i2 - 1) * C.get_n + (j2 - 1) := by
        have h1 := hb.1
        have h2 := hb3.1
        omega
      have := matrix_pos_injective C.get_n i j i2 j2 hj0 hj3 heq2
      rcases hne with h | h
      · exact h this.1.symm
      · exact h this.2.symm
    unfold matrix_t.at_ matrix_t.pos
    have hi1 : i2 > 0 ∧ i2 ≤ (⟨C.m_, C.n_,
        ⟨C.v_.v_.set ((i - 1) * C.get_n + (j - 1)).toNat x⟩⟩ : matrix_t ℚ).get_m := hi3
    have hj1 : j2 > 0 ∧ j2 ≤ (⟨C.m_, C.n_,
        ⟨C.v_.v_.set ((i - 1) * C.get_n + (j - 1)).toNat x⟩⟩ : matrix_t ℚ).get_n := hj3
    rw [if_pos hi1, if_pos hj1, if_pos hi1, if_pos hj1, if_pos hi3, if_pos hj3, if_pos hi3,
      if_pos hj3, Option.some_bind, Option.some_bind]
    unfold vector_t.at_ vector_t.get_size
    show (if 0 ≤ (i2 - 1) * C.get_n + (j2 - 1) ∧
        (i2 - 1) * C.get_n + (j2 - 1) <
          ((C.v_.v_.set ((i - 1) * C.get_n + (j - 1)).toNat x).length : Int) then
        (C.v_.v_.set ((i - 1) * C.get_n + (j - 1)).toNat x)[((i2 - 1) * C.get_n + (j2 - 1)).toNat]?
      else none) = _
    rw [List.length_set, List.getElem?_set, if_neg hpos]

theorem multiplyRow_loop (A B : matrix_t ℚ) (n p : Int) (i : Int) (g : Int → ℚ)
    (hsum : ∀ j : Int, 1 ≤ j ∧ j ≤ p → matrix_t.multiplySum A B n i j = some (g j))
    (C : matrix_t ℚ) (hC : matrixInvariant C) (hp : C.get_n = p)
    (hi : 1 ≤ i ∧ i ≤ C.get_m) (t : Nat) (ht : (t : Int) ≤ p) :
    ∃ C2, (List.range' 1 t).foldlM
        (fun (C : matrix_t ℚ) (j : Nat) =>
          (matrix_t.multiplySum A B n i j).bind fun sum => C.set_at i j sum) C = some C2 ∧
      C2.get_m = C.get_m ∧ C2.get_n = C.get_n ∧ matrixInvariant C2 ∧
      (∀ j : Int, 1 ≤ j ∧ j ≤ t → C2.at_ i j = some (g j)) ∧
      ∀ i2 j2 : Int, 1 ≤ i2 ∧ i2 ≤ C.get_m → 1 ≤ j2 ∧ j2 ≤ C.get_n → i2 ≠ i →
        C2.at_ i2 j2 = C.at_ i2 j2 := by
  induction t with
  | zero =>
      refine ⟨C, rfl, rfl, rfl, hC, fun j hj => ?_, fun _ _ _ _ _ => rfl⟩
      have := hj.2
      omega
  | succ t ih =>
      obtain ⟨C1, h1, hm1, hn1, hinv1, hrow1, hoth1⟩ := ih (by omega)
      have hj1 : (1 : Int) ≤ ((1 + 1 * t : Nat) : Int) ∧ ((1 + 1 * t : Nat) : Int) ≤ p := by omega
      have hj2 : (1 : Int) ≤ ((1 + 1 * t : Nat) : Int) ∧
          ((1 + 1 * t : Nat) : Int) ≤ C1.get_n := by
        rw [hn1, hp]
        exact hj1
      have hi2 : 1 ≤ i ∧ i ≤ C1.get_m := by
        rw [hm1]
        exact hi
      obtain ⟨C2, hset, hm2, hn2, hinv2, hnew, hold⟩ :=
        matrix_set_at C1 hinv1 i ((1 + 1 * t : Nat) : Int) (g ((1 + 1 * t : Nat) : Int)) hi2 hj2
      refine ⟨C2, ?_, hm2.trans hm1, hn2.trans hn1, hinv2, fun j hj => ?_,
        fun i2 j2 hi3 hj3 hne => ?_⟩
      · rw [List.range'_concat, List.foldlM_append, h1]
        simp only [List.foldlM_cons, List.foldlM_nil, Option.bind_eq_bind, Option.some_bind,
          Option.pure_def, hsum _ hj1, hset]
      · by_cases hjt : j = ((1 + 1 * t : Nat) : Int)
        · rw [hjt]
          exact hnew
        · have hjle : j ≤ (t : Int) := by
            have := hj.2
            omega
          rw [hold i j hi2 ⟨hj.1, by rw [hn1, hp]; omega⟩ (Or.inr hjt)]
          exact hrow1 j ⟨hj.1, hjle⟩
      · rw [hold i2 j2 (by rw [hm1]; exact hi3) (by rw [hn1]; exact hj3) (Or.inl hne)]
        exact hoth1 i2 j2 hi3 hj3 hne

theorem multiply_loop (A B : matrix_t ℚ) (m n p : Int) (g : Int → Int → ℚ)
    (hsum : ∀ i j : Int, 1 ≤ i ∧ i ≤ m → 1 ≤ j ∧ j ≤ p →
      matrix_t.multiplySum A B n i j = some (g i j))
    (hp0 : 0 ≤ p) (C : matrix_t ℚ) (hC : matrixInvariant C) (hm : C.get_m = m)
    (hp : C.get_n = p) (t : Nat) (ht : (t : Int) ≤ m) :
    ∃ C2, (List.range' 1 t).foldlM
        (fun (C : matrix_t ℚ) (i : Nat) => matrix_t.multiplyRow A B n p i C) C = some C2 ∧
      C2.get_m = m ∧ C2.get_n = p ∧ matrixInvariant C2 ∧
      ∀ i j : Int, 1 ≤ i ∧ i ≤ t → 1 ≤ j ∧ j ≤ p → C2.at_ i j = some (g i j) := by
  induction t with
  | zero =>
      refine ⟨C, rfl, hm, hp, hC, fun i j hi _ => ?_⟩
      have := hi.2
      omega
  | succ t ih =>
      obtain ⟨C1, h1, hm1, hn1, hinv1, hdone1⟩ := ih (by omega)
      have hi1 : (1 : Int) ≤ ((1 + 1 * t : Nat) : Int) ∧ ((1 + 1 * t : Nat) : Int) ≤ m := by omega
      obtain ⟨C2, hrow, hm2, hn2, hinv2, hnew, hold⟩ :=
        multiplyRow_loop A B n p ((1 + 1 * t : Nat) : Int) (g ((1 + 1 * t : Nat) : Int))
          (fun j hj => hsum _ j hi1 hj) C1 hinv1 hn1 (by rw [hm1]; exact hi1) p.toNat
          (by rw [Int.toNat_of_nonneg hp0])
      refine ⟨C2, ?_, hm2.trans hm1, hn2.trans hn1, hinv2, fun i j hi hj => ?_⟩
      · rw [List.range'_concat, List.foldlM_append, h1]
        simp only [List.foldlM_cons, List.foldlM_nil, Option.bind_eq_bind, Option.some_bind,
          Option.pure_def]
        unfold matrix_t.multiplyRow
        rw [hrow]
        rfl
      · by_cases hit : i = ((1 + 1 * t : Nat) : Int)
        · rw [hit]
          exact hnew j ⟨hj.1, by rw [Int.toNat_of_nonneg hp0]; exact hj.2⟩
        · have hile : i ≤ (t : Int) := by
            have := hi.2
            omega
          rw [hold i j ⟨hi.1, by rw [hm1]; omega⟩ (by rw [hn1]; exact hj) hit]
          exact hdone1 i j ⟨hi.1, hile⟩ hj

/-- C31: `C.multiply(A, B)` halts when the number of columns of `A` differs
from the number of rows of `B`. When they are equal and `m`, `n`, `p` are all
positive, for `A` an `m x n` and `B` an `n x p` matrix (each with `m_ * n_`
stored elements), the call succeeds and makes `C` an `m x p` matrix in which
`C(i, j)` is the sum over `k = 1..n` of `A(i, k) * B(k, j)` for every
`1 <= i <= m` and `1 <= j <= p`, where every `A(i, k)` and `B(k, j)` of the sum
is an element read successfully. The previous content of `C` plays no role. -/
theorem matrix_multiply_contract :
    (∀ (fill : ℚ) (A B : matrix_t ℚ), A.get_n ≠ B.get_m →
      matrix_t.multiply fill A B = none) ∧
    (∀ (fill : ℚ) (A B : matrix_t ℚ), matrixInvariant A → matrixInvariant B →
      A.get_n = B.get_m → 0 < A.get_m → 0 < A.get_n → 0 < B.get_n →
      ∃ C, matrix_t.multiply fill A B = some C ∧ C.get_m = A.get_m ∧ C.get_n = B.get_n ∧
        matrixInvariant C ∧
        ∀ i j : Int, 1 ≤ i ∧ i ≤ A.get_m → 1 ≤ j ∧ j ≤ B.get_n →
          C.at_ i j = some (productEntry A B A.get_n.toNat i j) ∧
          ∀ k : Nat, 1 ≤ k ∧ (k : Int) ≤ A.get_n →
            A.at_ i k = some (matrixEntry A i k) ∧ B.at_ k j = some (matrixEntry B k j)) := by
  constructor
  · intro fill A B h
    unfold matrix_t.multiply
    rw [if_neg h]
  · intro fill A B hA hB hnq hm hn hp
    have hres : matrix_t.resize fill A.get_m B.get_n =
        some ⟨A.get_m, B.get_n, vector_t.resize fill (A.get_m * B.get_n)⟩ := by
      unfold matrix_t.resize
      rw [if_pos ⟨hm, hp⟩]
    obtain ⟨C, hC, hCm, hCn, hCinv, hCat⟩ :=
      multiply_loop A B A.get_m A.get_n B.get_n (fun i j => productEntry A B A.get_n.toNat i j)
        (fun i j hi hj => multiplySum_eq A B hA hB hnq hn i j hi hj) (le_of_lt hp)
        ⟨A.get_m, B.get_n, vector_t.resize fill (A.get_m * B.get_n)⟩
        (matrixInvariant_resize fill A.get_m B.get_n _ hres) rfl rfl A.get_m.toNat
        (by rw [Int.toNat_of_nonneg (le_of_lt hm)])
    refine ⟨C, ?_, hCm, hCn, hCinv, fun i j hi hj => ⟨?_, fun k hk => ⟨?_, ?_⟩⟩⟩
    · unfold matrix_t.multiply
      rw [if_pos hnq]
      simp only [hres, Option.some_bind]
      exact hC
    · exact hCat i j ⟨hi.1, by rw [Int.toNat_of_nonneg (le_of_lt hm)]; exact hi.2⟩ hj
    · exact matrix_at_some A hA i k hi ⟨by omega, hk.2⟩
    · exact matrix_at_some B hB k j ⟨by omega, by rw [← hnq]; exact hk.2⟩ hj

theorem matrix_multiply_contract_witness :
    ((⟨2, 3, ⟨[1, 2, 3, 4, 5, 6]⟩⟩ : matrix_t ℚ).get_n ≠
        (⟨2, 3, ⟨[1, 2, 3, 4, 5, 6]⟩⟩ : matrix_t ℚ).get_m ∧
      matrix_t.multiply 0 ⟨2, 3, ⟨[1, 2, 3, 4, 5, 6]⟩⟩ ⟨2, 3, ⟨[1, 2, 3, 4, 5, 6]⟩⟩ = none) ∧
    (matrixInvariant (⟨2, 3, ⟨[1, 2, 3, 4, 5, 6]⟩⟩ : matrix_t ℚ) ∧
      matrixInvariant (⟨3, 2, ⟨[1, 0, 0, 1, 2, 2]⟩⟩ : matrix_t ℚ) ∧
      (⟨2, 3, ⟨[1, 2, 3, 4, 5, 6]⟩⟩ : matrix_t ℚ).get_n =
        (⟨3, 2, ⟨[1, 0, 0, 1, 2, 2]⟩⟩ : matrix_t ℚ).get_m ∧
      ∃ C, matrix_t.multiply 0 ⟨2, 3, ⟨[1, 2, 3, 4, 5, 6]⟩⟩ ⟨3, 2, ⟨[1, 0, 0, 1, 2, 2]⟩⟩ = some C ∧
        C.get_m = 2 ∧ C.get_n = 2 ∧ matrixInvariant C ∧
        ∀ i j : Int, 1 ≤ i ∧ i ≤ 2 → 1 ≤ j ∧ j ≤ 2 →
          C.at_ i j = some (productEntry ⟨2, 3, ⟨[1, 2, 3, 4, 5, 6]⟩⟩
              ⟨3, 2, ⟨[1, 0, 0, 1, 2, 2]⟩⟩ 3 i j) ∧
          ∀ k : Nat, 1 ≤ k ∧ (k : Int) ≤ 3 →
            (⟨2, 3, ⟨[1, 2, 3, 4, 5, 6]⟩⟩ : matrix_t ℚ).at_ i k =
                some (matrixEntry ⟨2, 3, ⟨[1, 2, 3, 4, 5, 6]⟩⟩ i k) ∧
              (⟨3, 2, ⟨[1, 0, 0, 1, 2, 2]⟩⟩ : matrix_t ℚ).at_ k j =
                some (matrixEntry ⟨3, 2, ⟨[1, 0, 0, 1, 2, 2]⟩⟩ k j)) :=
  ⟨⟨by decide, matrix_multiply_contract.1 0 ⟨2, 3, ⟨[1, 2, 3, 4, 5, 6]⟩⟩ ⟨2, 3, ⟨[1, 2, 3, 4, 5, 6]⟩⟩
      (by decide)⟩,
    by decide, by decide, by decide,
    matrix_multiply_contract.2 0 ⟨2, 3, ⟨[1, 2, 3, 4, 5, 6]⟩⟩ ⟨3, 2, ⟨[1, 0, 0, 1, 2, 2]⟩⟩
      (by decide) (by decide) (by decide) (by decide) (by decide) (by decide)⟩

theorem multiply_example :
    matrix_t.multiply 99 ⟨2, 3, ⟨[1, 2, 3, 4, 5, 6]⟩⟩ ⟨3, 2, ⟨[1, 0, 0, 1, 2, 2]⟩⟩ =
      some ⟨2, 2, ⟨[7, 8, 16, 17]⟩⟩ := by
  norm_num [matrix_t.multiply, matrix_t.multiplyRow, matrix_t.multiplySum, matrix_t.resize,
    matrix_t.set_at, matrix_t.at_, matrix_t.pos, matrix_t.get_m, matrix_t.get_n,
    vector_t.resize, vector_t.at_, vector_t.set_at, vector_t.get_size, List.range',
    show Int.toNat 2 = 2 from rfl, show Int.toNat 3 = 3 from rfl, show Int.toNat 4 = 4 from rfl,
    show Int.toNat 5 = 5 from rfl, List.replicate]

end DSA

/-! ## `rational_t`: arithmetic, comparisons, squares -/

namespace DSA

theorem rational_value_mk (n d : Int) : rational_t.value ⟨n, d⟩ = (n : ℚ) / (d : ℚ) := rfl

/-- C32: in both `rational_t` implementations, for `a = n1/d1` and `r = n2/d2`
with non-zero denominators (unbounded integers), `add` returns exactly
`(n1*d2 + n2*d1)/(d1*d2)`, `substract` returns `(n1*d2 - n2*d1)/(d1*d2)` and
`multiply` returns `(n1*n2)/(d1*d2)`, not reduced to lowest terms; the results
have non-zero denominators and their exact values are the sum, the difference
and the product of the operands' values; `1/2 + 3/1 = 7/2`, and `1/2 * 2/1`
stays `2/2`. -/
theorem rational_arithmetic_contract :
    (∀ a r : rational_t, a.den_ ≠ 0 → r.den_ ≠ 0 →
      rational_t1.add a r = some ⟨a.num_ * r.den_ + r.num_ * a.den_, a.den_ * r.den_⟩ ∧
      rational_t2.add a r = some ⟨a.num_ * r.den_ + r.num_ * a.den_, a.den_ * r.den_⟩ ∧
      rational_t1.substract a r =
        some ⟨a.num_ * r.den_ - r.num_ * a.den_, a.den_ * r.den_⟩ ∧
      rational_t2.substract a r =
        some ⟨a.num_ * r.den_ - r.num_ * a.den_, a.den_ * r.den_⟩ ∧
      rational_t1.multiply a r = some ⟨a.num_ * r.num_, a.den_ * r.den_⟩ ∧
      rational_t2.multiply a r = some ⟨a.num_ * r.num_, a.den_ * r.den_⟩ ∧
      a.den_ * r.den_ ≠ 0 ∧
      rational_t.value ⟨a.num_ * r.den_ + r.num_ * a.den_, a.den_ * r.den_⟩ =
        a.value + r.value ∧
      rational_t.value ⟨a.num_ * r.den_ - r.num_ * a.den_, a.den_ * r.den_⟩ =
        a.value - r.value ∧
      rational_t.value ⟨a.num_ * r.num_, a.den_ * r.den_⟩ = a.value * r.value) ∧
    rational_t1.add ⟨1, 2⟩ ⟨3, 1⟩ = some ⟨7, 2⟩ ∧
    rational_t2.add ⟨1, 2⟩ ⟨3, 1⟩ = some ⟨7, 2⟩ ∧
    rational_t1.multiply ⟨1, 2⟩ ⟨2, 1⟩ = some ⟨2, 2⟩ ∧
    rational_t2.multiply ⟨1, 2⟩ ⟨2, 1⟩ = some ⟨2, 2⟩ := by
  refine ⟨fun a r ha hr => ?_, by decide, by decide, by decide, by decide⟩
  have hd : a.den_ * r.den_ ≠ 0 := mul_ne_zero ha hr
  have haq : (a.den_ : ℚ) ≠ 0 := by exact_mod_cast ha
  have hrq : (r.den_ : ℚ) ≠ 0 := by exact_mod_cast hr
  refine ⟨?_, ?_, ?_, ?_, ?_, ?_, hd, ?_, ?_, ?_⟩
  · simp [rational_t1.add, rational_t1.new, rational_t.get_num, rational_t.get_den, ha, hr]
  · simp [rational_t2.add, rational_t2.new, rational_t.get_num, rational_t.get_den, ha, hr]
    ring
  · simp [rational_t1.substract, rational_t1.new, rational_t.get_num, rational_t.get_den, ha, hr]
  · simp [rational_t2.substract, rational_t2.opposite, rational_t2.add, rational_t2.new,
      rational_t.get_num, rational_t.get_den, ha, hr]
    ring
  · simp [rational_t1.multiply, rational_t1.new, rational_t.get_num, rational_t.get_den, ha, hr]
  · simp [rational_t2.multiply, rational_t2.new, rational_t.get_num, rational_t.get_den, ha, hr]
  · simp only [rational_t.value, rational_t.get_num, rational_t.get_den]
    push_cast
    field_simp
  · simp only [rational_t.value, rational_t.get_num, rational_t.get_den]
    push_cast
    field_simp
    ring
  · simp only [rational_t.value, rational_t.get_num, rational_t.get_den]
    push_cast
    field_simp

theorem rational_arithmetic_contract_witness :
    (⟨1, 2⟩ : rational_t).den_ ≠ 0 ∧ (⟨3, -4⟩ : rational_t).den_ ≠ 0 ∧
    rational_t1.substract ⟨1, 2⟩ ⟨3, -4⟩ =
      some ⟨(⟨1, 2⟩ : rational_t).num_ * (⟨3, -4⟩ : rational_t).den_ -
          (⟨3, -4⟩ : rational_t).num_ * (⟨1, 2⟩ : rational_t).den_,
        (⟨1, 2⟩ : rational_t).den_ * (⟨3, -4⟩ : rational_t).den_⟩ ∧
    rational_t2.substract ⟨1, 2⟩ ⟨3, -4⟩ =
      some ⟨(⟨1, 2⟩ : rational_t).num_ * (⟨3, -4⟩ : rational_t).den_ -
          (⟨3, -4⟩ : rational_t).num_ * (⟨1, 2⟩ : rational_t).den_,
        (⟨1, 2⟩ : rational_t).den_ * (⟨3, -4⟩ : rational_t).den_⟩ :=
  ⟨by decide, by decide,
    (rational_arithmetic_contract.1 ⟨1, 2⟩ ⟨3, -4⟩ (by decide) (by decide)).2.2.1,
    (rational_arithmetic_contract.1 ⟨1, 2⟩ ⟨3, -4⟩ (by decide) (by decide)).2.2.2.1⟩

/-- C33: the comparisons of the first practice use `<` where the claim, the
header ("Checks if greater") and the second practice have `>`. For `a = 2/3`,
`r = 1/3` and the default precision, where `value(a) - value(r) = 1/3` exceeds
the precision, `a.is_greater(r)` of the first practice returns `false` and
`a.is_less(r)` returns `true`. The second practice satisfies the claim:
`is_greater` is `true` exactly when `value(a) - value(r) > p` and `is_less`
exactly when `value(r) - value(a) > p`. -/
theorem rational_comparisons_of_both_practices :
    rational_t.value ⟨2, 3⟩ - rational_t.value ⟨1, 3⟩ > EPSILON ∧
    rational_t1.is_greater ⟨2, 3⟩ ⟨1, 3⟩ EPSILON = false ∧
    ¬ (rational_t.value ⟨1, 3⟩ - rational_t.value ⟨2, 3⟩ > EPSILON) ∧
    rational_t1.is_less ⟨2, 3⟩ ⟨1, 3⟩ EPSILON = true ∧
    (∀ (a r : rational_t) (p : ℚ),
      (rational_t2.is_greater a r p = true ↔ a.value - r.value > p) ∧
      (rational_t2.is_less a r p = true ↔ r.value - a.value > p)) := by
  refine ⟨?_, ?_, ?_, ?_, fun a r p => ⟨?_, ?_⟩⟩
  · norm_num [rational_value_mk, EPSILON]
  · norm_num [rational_t1.is_greater, rational_value_mk, EPSILON]
  · norm_num [rational_value_mk, EPSILON]
  · norm_num [rational_t1.is_less, rational_value_mk, EPSILON]
  · simp [rational_t2.is_greater]
  · simp [rational_t2.is_less, rational_t2.is_greater]

/-- C34: `squareOpt2(r)` is `multiply(r)`, so it squares the receiver only when
`r` is the receiver. For `a = 1/2` and `r = 3/1`, `a.squareOpt1(r)` returns
`1/4` and `a.squareOpt2(r)` returns `3/2`; with `r = a` both return `1/4`. -/
theorem squareOpt_methods_on_different_argument :
    rational_t1.squareOpt1 ⟨1, 2⟩ ⟨3, 1⟩ = some ⟨1, 4⟩ ∧
    rational_t1.squareOpt2 ⟨1, 2⟩ ⟨3, 1⟩ = some ⟨3, 2⟩ ∧
    rational_t1.squareOpt1 ⟨1, 2⟩ ⟨1, 2⟩ = some ⟨1, 4⟩ ∧
    rational_t1.squareOpt2 ⟨1, 2⟩ ⟨1, 2⟩ = some ⟨1, 4⟩ := by
  decide

end DSA

/-! ## `Sum`: commutativity, invariant up to reversal, destination; `WeirdSum`
and chain order -/

namespace DSA

theorem sumEmitted_comm (eps : ℚ) (as bs : List pair_t) :
    sumEmitted eps as bs = sumEmitted eps bs as := by
  induction as, bs using sumEmitted.induct eps with
  | case1 a as b bs h1 h2 ih =>
      have h2' : eps < |b.val_ + a.val_| := by rwa [add_comm]
      rw [sumEmitted, if_pos h1, if_pos h2, sumEmitted, if_pos h1.symm, if_pos h2', ih,
        add_comm a.val_ b.val_, h1]
  | case2 a as b bs h1 h2 ih =>
      have h2' : ¬ eps < |b.val_ + a.val_| := by rwa [add_comm]
      rw [sumEmitted, if_pos h1, if_neg h2, sumEmitted, if_pos h1.symm, if_neg h2', ih]
  | case3 a as b bs h1 h2 ih =>
      have h3 : ¬ b.inx_ = a.inx_ := fun h => h1 h.symm
      have h4 : ¬ b.inx_ > a.inx_ := by omega
      rw [sumEmitted, if_neg h1, if_pos h2, ih]
      conv_rhs => rw [sumEmitted, if_neg h3, if_neg h4]
  | case4 a as b bs h1 h2 ih =>
      have h3 : ¬ b.inx_ = a.inx_ := fun h => h1 h.symm
      have h4 : b.inx_ > a.inx_ := by omega
      rw [sumEmitted, if_neg h1, if_neg h2, ih]
      conv_rhs => rw [sumEmitted, if_neg h3, if_pos h4]
  | case5 bs => rw [sumEmitted_nil_left, sumEmitted_nil_right]
  | case6 as h => rw [sumEmitted_nil_left, sumEmitted_nil_right]

/-- C35: `Sum` is commutative on the term sequence. For every two linked
polynomials `A` and `B` with strictly ascending indices, every `eps` and empty
destinations, `A.Sum(B, r1, eps)` and `B.Sum(A, r2, eps)` leave `r1` and `r2`
holding the same sequence of terms. The proof does not use the ordering. -/
theorem Sum_is_commutative (A B : sll_t pair_t) (eps : ℚ)
    (_hA : ascending A.head_) (_hB : ascending B.head_) :
    (SllPolynomial.Sum A B sll_t.empty_list eps).head_ =
      (SllPolynomial.Sum B A sll_t.empty_list eps).head_ := by
  rw [Sum_eq, Sum_eq, sumEmitted_comm]

theorem Sum_is_commutative_witness :
    ascending [(⟨1, 0⟩ : pair_t), ⟨2, 3⟩] ∧ ascending [(⟨4, 1⟩ : pair_t), ⟨5, 3⟩] ∧
    (SllPolynomial.Sum ⟨[⟨1, 0⟩, ⟨2, 3⟩]⟩ ⟨[⟨4, 1⟩, ⟨5, 3⟩]⟩ sll_t.empty_list EPS).head_ =
      (SllPolynomial.Sum ⟨[⟨4, 1⟩, ⟨5, 3⟩]⟩ ⟨[⟨1, 0⟩, ⟨2, 3⟩]⟩ sll_t.empty_list EPS).head_ :=
  ⟨by decide, by decide,
    Sum_is_commutative ⟨[⟨1, 0⟩, ⟨2, 3⟩]⟩ ⟨[⟨4, 1⟩, ⟨5, 3⟩]⟩ EPS (by decide) (by decide)⟩

/-- C36: up to reversal, `Sum` preserves the sparse invariant. If `A` and `B`
have strictly ascending indices and every stored coefficient has `|c| > eps`,
and `eps >= 0`, then the reverse of the chain `Sum` produces in an empty
destination has strictly ascending indices, no duplicate index, and every
coefficient with `|c| > eps`. -/
theorem Sum_preserves_invariant_up_to_reversal (A B : sll_t pair_t) (eps : ℚ)
    (hA : ascending A.head_) (hB : ascending B.head_)
    (hcA : ∀ p ∈ A.head_, eps < |p.val_|) (hcB : ∀ q ∈ B.head_, eps < |q.val_|)
    (_h0 : 0 ≤ eps) :
    ascending (SllPolynomial.Sum A B sll_t.empty_list eps).head_.reverse ∧
    ((SllPolynomial.Sum A B sll_t.empty_list eps).head_.reverse.map pair_t.get_inx).Nodup ∧
    ∀ t ∈ (SllPolynomial.Sum A B sll_t.empty_list eps).head_.reverse, eps < |t.val_| := by
  have hrev : (SllPolynomial.Sum A B sll_t.empty_list eps).head_.reverse =
      sumEmitted eps A.head_ B.head_ := by
    rw [Sum_eq]
    simp [sll_t.empty_list]
  rw [hrev]
  have hasc := ascending_sumEmitted eps _ _ hA hB
  refine ⟨hasc, ascending_inx_nodup hasc, fun t ht => ?_⟩
  rcases (mem_sumEmitted eps _ _ hA hB t).mp ht with ⟨h, _⟩ | ⟨h, _⟩ | ⟨p, _, q, _, _, he, rfl⟩
  · exact hcA t h
  · exact hcB t h
  · exact he

theorem Sum_preserves_invariant_up_to_reversal_witness :
    ascending [(⟨1, 0⟩ : pair_t), ⟨2, 3⟩] ∧ ascending [(⟨4, 1⟩ : pair_t), ⟨-2, 3⟩] ∧
    (∀ p ∈ [(⟨1, 0⟩ : pair_t), ⟨2, 3⟩], (1 / 2 : ℚ) < |p.val_|) ∧
    (∀ q ∈ [(⟨4, 1⟩ : pair_t), ⟨-2, 3⟩], (1 / 2 : ℚ) < |q.val_|) ∧ (0 : ℚ) ≤ 1 / 2 ∧
    (ascending (SllPolynomial.Sum ⟨[⟨1, 0⟩, ⟨2, 3⟩]⟩ ⟨[⟨4, 1⟩, ⟨-2, 3⟩]⟩
        sll_t.empty_list (1 / 2)).head_.reverse ∧
      ((SllPolynomial.Sum ⟨[⟨1, 0⟩, ⟨2, 3⟩]⟩ ⟨[⟨4, 1⟩, ⟨-2, 3⟩]⟩
        sll_t.empty_list (1 / 2)).head_.reverse.map pair_t.get_inx).Nodup ∧
      ∀ t ∈ (SllPolynomial.Sum ⟨[⟨1, 0⟩, ⟨2, 3⟩]⟩ ⟨[⟨4, 1⟩, ⟨-2, 3⟩]⟩
        sll_t.empty_list (1 / 2)).head_.reverse, (1 / 2 : ℚ) < |t.val_|) := by
  have h1 : ∀ p ∈ [(⟨1, 0⟩ : pair_t), ⟨2, 3⟩], (1 / 2 : ℚ) < |p.val_| := by
    intro p hp
    simp only [List.mem_cons, List.mem_singleton, List.not_mem_nil, or_false] at hp
    rcases hp with rfl | rfl <;> norm_num
  have h2 : ∀ q ∈ [(⟨4, 1⟩ : pair_t), ⟨-2, 3⟩], (1 / 2 : ℚ) < |q.val_| := by
    intro q hq
    simp only [List.mem_cons, List.mem_singleton, List.not_mem_nil, or_false] at hq
    rcases hq with rfl | rfl <;> norm_num
  exact ⟨by decide, by decide, h1, h2, by norm_num,
    Sum_preserves_invariant_up_to_reversal ⟨[⟨1, 0⟩, ⟨2, 3⟩]⟩ ⟨[⟨4, 1⟩, ⟨-2, 3⟩]⟩ (1 / 2)
      (by decide) (by decide) h1 h2 (by norm_num)⟩

/-- C37: `Sum` does not clear its destination. For every operands `A` and `B`,
every destination chain `D` and every `eps`, the chain of `D` after
`A.Sum(B, D)` is the newly emitted terms (the chain `Sum` leaves in an empty
destination) followed by the previous content of `D`, unchanged and in its
previous order. The operands are only read: they are passed to `Sum` and no
changed operand comes back. -/
theorem Sum_keeps_destination_content (A B D : sll_t pair_t) (eps : ℚ) :
    (SllPolynomial.Sum A B D eps).head_ =
      (SllPolynomial.Sum A B sll_t.empty_list eps).head_ ++ D.head_ := by
  rw [Sum_eq, Sum_eq]
  simp [sll_t.empty_list]

/-- C38: the early exit of `WeirdSum` makes it depend on the chain order. For
every chain whose first term has an index above `maxIndex`, `WeirdSum` returns
`0.0` whatever follows. The chain `[(10, index 3), (2, index 1)]`, which `Sum`
produces from `[(2, index 1)]` and `[(10, index 3)]`, is in descending order,
and with threshold `1` and `maxIndex = 2` its `WeirdSum` is `0` while the sum of
the coefficients with index `<= 2` and coefficient `> 1` is `2`. -/
theorem WeirdSum_depends_on_order :
    (∀ (t : pair_t) (rest : List pair_t) (c : ℚ) (m : Int), t.inx_ > m →
      SllPolynomial.WeirdSum ⟨t :: rest⟩ c m = 0) ∧
    SllPolynomial.Sum ⟨[⟨2, 1⟩]⟩ ⟨[⟨10, 3⟩]⟩ sll_t.empty_list EPS = ⟨[⟨10, 3⟩, ⟨2, 1⟩]⟩ ∧
    descending [(⟨10, 3⟩ : pair_t), ⟨2, 1⟩] ∧
    SllPolynomial.WeirdSum ⟨[⟨10, 3⟩, ⟨2, 1⟩]⟩ 1 2 = 0 ∧
    selectedSum [⟨10, 3⟩, ⟨2, 1⟩] 1 2 = 2 ∧
    SllPolynomial.WeirdSum ⟨[⟨10, 3⟩, ⟨2, 1⟩]⟩ 1 2 ≠ selectedSum [⟨10, 3⟩, ⟨2, 1⟩] 1 2 := by
  have hw : SllPolynomial.WeirdSum ⟨[⟨10, 3⟩, ⟨2, 1⟩]⟩ 1 2 = 0 := by
    norm_num [SllPolynomial.WeirdSum, SllPolynomial.weirdLoop, pair_t.get_inx, pair_t.get_val]
  have hs : selectedSum [⟨10, 3⟩, ⟨2, 1⟩] 1 2 = 2 := by
    rw [selectedSum_cons, selectedSum_cons]
    norm_num [selectedSum]
  refine ⟨fun t rest c m h => ?_, ?_, by decide, hw, hs, ?_⟩
  · have := weirdLoop_stops c m [] t rest (fun p hp => absurd hp (List.not_mem_nil _)) h 0
    simpa [SllPolynomial.WeirdSum, SllPolynomial.weirdLoop] using this
  · rw [Sum_eq]
    simp [sumEmitted, sll_t.empty_list]
  · rw [hw, hs]
    norm_num

theorem WeirdSum_depends_on_order_witness :
    (⟨10, 3⟩ : pair_t).inx_ > 2 ∧
    SllPolynomial.WeirdSum ⟨⟨10, 3⟩ :: [⟨2, 1⟩, ⟨5, 0⟩]⟩ 1 2 = 0 :=
  ⟨by decide, WeirdSum_depends_on_order.1 ⟨10, 3⟩ [⟨2, 1⟩, ⟨5, 0⟩] 1 2 (by decide)⟩

end DSA
